import Mathlib

/-!
Verification of the `labeling` crate: a union-find structure
(`src/union_find.rs`) and two connected-component labeling passes with a
canonicalization step (`src/lib.rs`).  The Rust code is shallowly embedded:
vectors become `List`, in-place mutation becomes state passing, and panics
(assertion failures, out-of-bounds indexing, non-termination) become `none`.
-/

namespace Labeling

/-- Union-Find state.  `parent_or_size` stores, for each element, the negated
size of its class (if the element is a root) or its parent's index;
`group_num` is the number of classes.  Mirrors `struct UnionFind` in
`union_find.rs`. -/
structure UnionFind where
  parent_or_size : List Int
  group_num : Nat
deriving DecidableEq

/-- `UnionFind::new(n)`: `n` singleton classes. -/
def UnionFind.new (n : Nat) : UnionFind :=
  { parent_or_size := List.replicate n (-1), group_num := n }

/-- `UnionFind::get_elem_num`. -/
def UnionFind.get_elem_num (uf : UnionFind) : Nat := uf.parent_or_size.length

/-- `UnionFind::get_group_num`. -/
def UnionFind.get_group_num (uf : UnionFind) : Nat := uf.group_num

/-- `UnionFind::add`: append one singleton element. -/
def UnionFind.add (uf : UnionFind) : UnionFind :=
  { parent_or_size := uf.parent_or_size ++ [-1], group_num := uf.group_num + 1 }

/-- Whether `a` is a root of the forest (negative stored value). -/
def isRoot (pos : List Int) (a : Nat) : Prop := pos.getD a (-1) < 0

instance (pos : List Int) (a : Nat) : Decidable (isRoot pos a) :=
  inferInstanceAs (Decidable (_ < _))

/-- Pure parent step; roots are fixpoints. -/
def parentOf (pos : List Int) (a : Nat) : Nat :=
  if pos.getD a (-1) < 0 then a else (pos.getD a (-1)).toNat

/-- Iterated parent step. -/
def stepk (pos : List Int) : Nat → Nat → Nat
  | 0, a => a
  | k + 1, a => stepk pos k (parentOf pos a)

/-- Fuelled walk to the first root on the parent chain, without mutation. -/
def rootD (pos : List Int) : Nat → Nat → Nat
  | 0, a => a
  | fuel + 1, a => if isRoot pos a then a else rootD pos fuel (parentOf pos a)

/-- Representative of `a` in the forest `pos`; fuel `pos.length` suffices on
well-formed states. -/
def rootOf (pos : List Int) (a : Nat) : Nat := rootD pos pos.length a

/-- The parent chain from `a` reaches the root `r`. -/
def reaches (pos : List Int) (a r : Nat) : Prop :=
  ∃ k, stepk pos k a = r ∧ isRoot pos r

/-- Structural well-formedness of the forest: parents of non-roots are in
range and the fuelled walk from every element lands on a root. -/
def WFp (pos : List Int) : Prop :=
  (∀ a, a < pos.length → ¬isRoot pos a → parentOf pos a < pos.length) ∧
  (∀ a, a < pos.length → isRoot pos (rootD pos pos.length a))

theorem parentOf_isRoot {pos : List Int} {a : Nat} (h : isRoot pos a) :
    parentOf pos a = a := by
  unfold parentOf
  exact if_pos h

theorem stepk_succ_out (pos : List Int) (k a : Nat) :
    stepk pos (k + 1) a = parentOf pos (stepk pos k a) := by
  induction k generalizing a with
  | zero => rfl
  | succ k ih =>
      show stepk pos (k + 1) (parentOf pos a) = _
      rw [ih (parentOf pos a)]
      rfl

theorem stepk_add (pos : List Int) (m k a : Nat) :
    stepk pos (m + k) a = stepk pos k (stepk pos m a) := by
  induction k with
  | zero => rfl
  | succ k ih => rw [← Nat.add_assoc, stepk_succ_out, ih, ← stepk_succ_out]

theorem stepk_isRoot_fix {pos : List Int} {a : Nat} (h : isRoot pos a) :
    ∀ k, stepk pos k a = a := by
  intro k
  induction k with
  | zero => rfl
  | succ k ih => rw [stepk_succ_out, ih, parentOf_isRoot h]

theorem reaches_unique {pos : List Int} {a r r' : Nat}
    (h : reaches pos a r) (h' : reaches pos a r') : r = r' := by
  obtain ⟨k, hk, hr⟩ := h
  obtain ⟨k', hk', hr'⟩ := h'
  rcases Nat.le_total k k' with hle | hle
  · have : stepk pos k' a = stepk pos (k' - k) (stepk pos k a) := by
      rw [← stepk_add, Nat.add_sub_cancel' hle]
    rw [hk, stepk_isRoot_fix hr] at this
    rw [← hk', this]
  · have : stepk pos k a = stepk pos (k - k') (stepk pos k' a) := by
      rw [← stepk_add, Nat.add_sub_cancel' hle]
    rw [hk', stepk_isRoot_fix hr'] at this
    rw [← hk, this]

theorem rootD_root {pos : List Int} {a : Nat} (h : isRoot pos a) :
    ∀ fuel, rootD pos fuel a = a := by
  intro fuel
  cases fuel with
  | zero => rfl
  | succ fuel => simp [rootD, if_pos h]

theorem rootD_of_stepk {pos : List Int} :
    ∀ (fuel k a : Nat), k ≤ fuel → isRoot pos (stepk pos k a) →
      rootD pos fuel a = stepk pos k a := by
  intro fuel
  induction fuel with
  | zero =>
      intro k a hk hr
      interval_cases k
      rfl
  | succ fuel ih =>
      intro k a hk hr
      by_cases ha : isRoot pos a
      · rw [rootD_root ha, stepk_isRoot_fix ha]
      · cases k with
        | zero => exact absurd hr ha
        | succ k =>
            show rootD pos (fuel + 1) a = _
            rw [rootD, if_neg ha]
            exact ih k (parentOf pos a) (Nat.le_of_succ_le_succ hk) hr

theorem rootD_stepk (pos : List Int) :
    ∀ (fuel a : Nat), ∃ k, k ≤ fuel ∧ rootD pos fuel a = stepk pos k a := by
  intro fuel
  induction fuel with
  | zero => exact fun a => ⟨0, Nat.le_refl 0, rfl⟩
  | succ fuel ih =>
      intro a
      by_cases ha : isRoot pos a
      · exact ⟨0, Nat.zero_le _, rootD_root ha _⟩
      · obtain ⟨k, hk, he⟩ := ih (parentOf pos a)
        exact ⟨k + 1, Nat.succ_le_succ hk, by rw [rootD, if_neg ha, he]; rfl⟩

theorem WFp.reaches_rootOf {pos : List Int} (h : WFp pos) {a : Nat}
    (ha : a < pos.length) : reaches pos a (rootOf pos a) := by
  obtain ⟨k, _, he⟩ := rootD_stepk pos pos.length a
  refine ⟨k, ?_, ?_⟩
  · rw [rootOf, he]
  · exact h.2 a ha

theorem reaches_rootOf_eq {pos : List Int} (h : WFp pos) {a r : Nat}
    (ha : a < pos.length) (hr : reaches pos a r) : rootOf pos a = r :=
  reaches_unique (h.reaches_rootOf ha) hr

theorem parentOf_lt {pos : List Int}
    (hpar : ∀ a, a < pos.length → ¬isRoot pos a → parentOf pos a < pos.length)
    {a : Nat} (ha : a < pos.length) : parentOf pos a < pos.length := by
  by_cases h : isRoot pos a
  · rw [parentOf_isRoot h]; exact ha
  · exact hpar a ha h

theorem stepk_lt {pos : List Int}
    (hpar : ∀ a, a < pos.length → ¬isRoot pos a → parentOf pos a < pos.length)
    {a : Nat} (ha : a < pos.length) (k : Nat) : stepk pos k a < pos.length := by
  induction k with
  | zero => exact ha
  | succ k ih => rw [stepk_succ_out]; exact parentOf_lt hpar ih

theorem rootOf_lt {pos : List Int} (h : WFp pos) {a : Nat}
    (ha : a < pos.length) : rootOf pos a < pos.length := by
  obtain ⟨k, _, he⟩ := rootD_stepk pos pos.length a
  rw [rootOf, he]
  exact stepk_lt h.1 ha k

theorem rootOf_isRoot {pos : List Int} (h : WFp pos) {a : Nat}
    (ha : a < pos.length) : isRoot pos (rootOf pos a) := h.2 a ha

theorem rootOf_root {pos : List Int} {r : Nat} (hr : isRoot pos r) :
    rootOf pos r = r := rootD_root hr _

/-- If two iterates of the parent chain coincide before the first root, the
first root would occur earlier: contradiction with minimality. -/
theorem stepk_collision_contra {pos : List Int} {a : Nat}
    (h : ∃ k, isRoot pos (stepk pos k a)) {i j : Nat} (hlt : i < j)
    (hj : j ≤ Nat.find h) (hstep : stepk pos i a = stepk pos j a) : False := by
  have key : stepk pos (Nat.find h) a
      = stepk pos (i + (Nat.find h - j)) a := by
    calc stepk pos (Nat.find h) a
        = stepk pos (j + (Nat.find h - j)) a := by congr 1; omega
      _ = stepk pos (Nat.find h - j) (stepk pos j a) := stepk_add pos j _ a
      _ = stepk pos (Nat.find h - j) (stepk pos i a) := by rw [hstep]
      _ = stepk pos (i + (Nat.find h - j)) a := (stepk_add pos i _ a).symm
  exact Nat.find_min h (by omega) (key ▸ Nat.find_spec h)

/-- On finite acyclic chains, any reachable root is reached within
`pos.length` steps. -/
theorem reaches_bound {pos : List Int}
    (hpar : ∀ a, a < pos.length → ¬isRoot pos a → parentOf pos a < pos.length)
    {a : Nat} (ha : a < pos.length) (h : ∃ k, isRoot pos (stepk pos k a)) :
    ∃ k, k ≤ pos.length ∧ isRoot pos (stepk pos k a) := by
  classical
  refine ⟨Nat.find h, ?_, Nat.find_spec h⟩
  by_contra hgt
  push_neg at hgt
  have hcard : Fintype.card (Fin pos.length) < Fintype.card (Fin (pos.length + 1)) := by
    simp
  obtain ⟨i, j, hij, hfe⟩ := Fintype.exists_ne_map_eq_of_card_lt
    (fun i : Fin (pos.length + 1) => (⟨stepk pos i.val a, stepk_lt hpar ha i.val⟩ : Fin pos.length))
    hcard
  have hstep : stepk pos i.val a = stepk pos j.val a := congrArg Fin.val hfe
  have hile : i.val ≤ pos.length := Nat.le_of_lt_succ i.isLt
  have hjle : j.val ≤ pos.length := Nat.le_of_lt_succ j.isLt
  have hne : i.val ≠ j.val := fun hv => hij (Fin.ext hv)
  rcases Nat.lt_or_ge i.val j.val with hlt | hge
  · exact stepk_collision_contra h hlt (by omega) hstep
  · have hlt : j.val < i.val := Nat.lt_of_le_of_ne hge (Ne.symm hne)
    exact stepk_collision_contra h hlt (by omega) hstep.symm

/-- `WFp` follows from in-range parents plus reachability of a root from
every element. -/
theorem WFp_of_reaches {pos : List Int}
    (hpar : ∀ a, a < pos.length → ¬isRoot pos a → parentOf pos a < pos.length)
    (hre : ∀ a, a < pos.length → ∃ r, reaches pos a r) : WFp pos := by
  refine ⟨hpar, fun a ha => ?_⟩
  obtain ⟨r, k, hk, hr⟩ := hre a ha
  have hex : ∃ k, isRoot pos (stepk pos k a) := ⟨k, hk ▸ hr⟩
  obtain ⟨k', hk', hr'⟩ := reaches_bound hpar ha hex
  rw [rootD_of_stepk pos.length k' a hk' hr']
  exact hr'

theorem reaches_of_WFp_mem {pos : List Int} (h : WFp pos) {a r : Nat}
    (ha : a < pos.length) (hr : rootOf pos a = r) : reaches pos a r :=
  hr ▸ h.reaches_rootOf ha

theorem getD_set_self {α : Type} {l : List α} {n : Nat} (a d : α)
    (h : n < l.length) : (l.set n a).getD n d = a := by
  simp [List.getD, List.getElem?_set_self, h]

theorem getD_set_ne {α : Type} {l : List α} {n m : Nat} (a d : α)
    (h : n ≠ m) : (l.set n a).getD m d = l.getD m d := by
  simp [List.getD, List.getElem?_set_ne h]

theorem reaches_step {pos : List Int} {y r : Nat}
    (h : reaches pos (parentOf pos y) r) : reaches pos y r := by
  obtain ⟨k, hk, hr⟩ := h
  exact ⟨k + 1, hk, hr⟩

theorem isRoot_congr {pos pos' : List Int} {y : Nat}
    (h : pos'.getD y (-1) = pos.getD y (-1)) : isRoot pos' y ↔ isRoot pos y := by
  unfold isRoot
  rw [h]

theorem parentOf_congr {pos pos' : List Int} {y : Nat}
    (h : pos'.getD y (-1) = pos.getD y (-1)) : parentOf pos' y = parentOf pos y := by
  unfold parentOf
  rw [h]

/-- Redirecting the non-root `x` straight at its own root `r` preserves every
reachability fact of the forest. -/
theorem reaches_set_root {pos : List Int} {x r : Nat}
    (hx : x < pos.length) (hxr : ¬isRoot pos x) (hr : isRoot pos r)
    (hre : reaches pos x r) :
    ∀ y r', reaches pos y r' → reaches (pos.set x (Int.ofNat r)) y r' := by
  have hrx : r ≠ x := fun he => hxr (he ▸ hr)
  have main : ∀ k y r', stepk pos k y = r' → isRoot pos r' →
      reaches (pos.set x (Int.ofNat r)) y r' := by
    intro k
    induction k with
    | zero =>
        intro y r' hk hr'
        have hk0 : y = r' := hk
        rw [← hk0] at hr' ⊢
        have hyx : y ≠ x := fun he => hxr (he ▸ hr')
        exact ⟨0, rfl, (isRoot_congr (getD_set_ne _ _ (Ne.symm hyx))).mpr hr'⟩
    | succ k ih =>
        intro y r' hk hr'
        by_cases hyroot : isRoot pos y
        · have he : r' = y := by rw [← hk, stepk_isRoot_fix hyroot]
          rw [he]
          have hyx : y ≠ x := fun he2 => hxr (he2 ▸ hyroot)
          exact ⟨0, rfl, (isRoot_congr (getD_set_ne _ _ (Ne.symm hyx))).mpr hyroot⟩
        · by_cases hyx : y = x
          · subst hyx
            have he : r' = r := reaches_unique ⟨k + 1, hk, hr'⟩ hre
            subst he
            refine ⟨1, ?_, (isRoot_congr (getD_set_ne _ _ (Ne.symm hrx))).mpr hr⟩
            show parentOf (pos.set y (Int.ofNat r')) y = r'
            unfold parentOf
            rw [getD_set_self _ _ hx]
            simp
          · have hpar : parentOf (pos.set x (Int.ofNat r)) y = parentOf pos y :=
              parentOf_congr (getD_set_ne _ _ fun he => hyx he.symm)
            have hrec := ih (parentOf pos y) r' hk hr'
            rw [← hpar] at hrec
            exact reaches_step hrec
  intro y r' hy
  obtain ⟨k, hk, hr'⟩ := hy
  exact main k y r' hk hr'

/-- Attaching the root `rb` under the root `ra` (and updating `ra`'s stored
size to any negative value) redirects exactly the classes rooted at `rb`. -/
theorem reaches_merge_update {pos : List Int} {ra rb : Nat} {sz : Int}
    (hra : ra < pos.length) (hrb : rb < pos.length) (hne : ra ≠ rb)
    (hrootA : isRoot pos ra) (hrootB : isRoot pos rb) (hsz : sz < 0) :
    ∀ y r', reaches pos y r' →
      reaches ((pos.set ra sz).set rb (Int.ofNat ra)) y (if r' = rb then ra else r') := by
  intro y r' hy
  set pos' := (pos.set ra sz).set rb (Int.ofNat ra) with hpos'
  have hgetA : pos'.getD ra (-1) = sz := by
    rw [hpos', getD_set_ne _ _ (Ne.symm hne), getD_set_self _ _ hra]
  have hgetB : pos'.getD rb (-1) = Int.ofNat ra := by
    rw [hpos', getD_set_self _ _ (by simpa using hrb)]
  have hgetO : ∀ z, z ≠ ra → z ≠ rb → pos'.getD z (-1) = pos.getD z (-1) := by
    intro z h1 h2
    rw [hpos', getD_set_ne _ _ (Ne.symm h2), getD_set_ne _ _ (Ne.symm h1)]
  have hrootA' : isRoot pos' ra := by unfold isRoot; rw [hgetA]; exact hsz
  have hreachB : reaches pos' rb ra := by
    refine ⟨1, ?_, hrootA'⟩
    show parentOf pos' rb = ra
    unfold parentOf
    rw [hgetB]
    simp
  have base : ∀ y, isRoot pos y → reaches pos' y (if y = rb then ra else y) := by
    intro y hr'
    by_cases hb : y = rb
    · rw [if_pos hb, hb]
      exact hreachB
    · by_cases ha2 : y = ra
      · rw [if_neg hb, ha2]
        exact ⟨0, rfl, hrootA'⟩
      · rw [if_neg hb]
        exact ⟨0, rfl, (isRoot_congr (hgetO y ha2 hb)).mpr hr'⟩
  have main : ∀ k y r', stepk pos k y = r' → isRoot pos r' →
      reaches pos' y (if r' = rb then ra else r') := by
    intro k
    induction k with
    | zero =>
        intro y r' hk hr'
        have hk0 : y = r' := hk
        rw [← hk0] at hr' ⊢
        exact base y hr'
    | succ k ih =>
        intro y r' hk hr'
        by_cases hyroot : isRoot pos y
        · have he : r' = y := by rw [← hk, stepk_isRoot_fix hyroot]
          rw [he]
          exact base y hyroot
        · have hya : y ≠ ra := fun he => hyroot (he ▸ hrootA)
          have hyb : y ≠ rb := fun he => hyroot (he ▸ hrootB)
          have hpar : parentOf pos' y = parentOf pos y := parentOf_congr (hgetO y hya hyb)
          have hrec := ih (parentOf pos y) r' hk hr'
          rw [← hpar] at hrec
          exact reaches_step hrec
  obtain ⟨k, hk, hr'⟩ := hy
  exact main k y r' hk hr'

/-- Recursive `UnionFind::leader` with path compression (`union_find.rs`,
lines 25–31).  All reads happen before any write, so the recursion receives
the unmodified array and the compression writes compose on the way out.
`none` models a panic (out-of-bounds index) or non-termination; the fuel
`pos.length + 1` never runs out on a well-formed forest. -/
def leaderAux : Nat → List Int → Nat → Option (Nat × List Int)
  | 0, _, _ => none
  | fuel + 1, pos, a =>
    if a < pos.length then
      if pos.getD a (-1) < 0 then some (a, pos)
      else
        match leaderAux fuel pos (pos.getD a (-1)).toNat with
        | none => none
        | some (r, pos1) => some (r, pos1.set a (Int.ofNat r))
    else none

/-- What a successful `leader` call does to the array: same length, same
root of every element, same root set, root entries untouched, and
well-formedness is preserved. -/
def LeaderPost (pos pos1 : List Int) : Prop :=
  pos1.length = pos.length ∧
  (∀ y, y < pos.length → reaches pos1 y (rootOf pos y)) ∧
  (∀ y, isRoot pos1 y ↔ isRoot pos y) ∧
  (∀ y, isRoot pos y → pos1.getD y (-1) = pos.getD y (-1)) ∧
  WFp pos1

theorem LeaderPost.rootOf_eq {pos pos1 : List Int} (post : LeaderPost pos pos1) :
    ∀ y, y < pos.length → rootOf pos1 y = rootOf pos y := by
  intro y hy
  have hy1 : y < pos1.length := by rw [post.1]; exact hy
  exact reaches_rootOf_eq post.2.2.2.2 hy1 (post.2.1 y hy)

theorem LeaderPost.refl_self (pos : List Int) (hw : WFp pos) : LeaderPost pos pos :=
  ⟨rfl, fun _ hy => hw.reaches_rootOf hy, fun _ => Iff.rfl, fun _ _ => rfl, hw⟩

theorem rootOf_parentOf {pos : List Int} (hw : WFp pos) {a : Nat}
    (ha : a < pos.length) : rootOf pos (parentOf pos a) = rootOf pos a := by
  have h1 := hw.reaches_rootOf (parentOf_lt hw.1 ha)
  exact (reaches_rootOf_eq hw ha (reaches_step h1)).symm

theorem leaderAux_spec {pos : List Int} (hw : WFp pos) :
    ∀ (fuel a : Nat), a < pos.length →
      (∃ k, k < fuel ∧ isRoot pos (stepk pos k a)) →
      ∃ pos1, leaderAux fuel pos a = some (rootOf pos a, pos1) ∧ LeaderPost pos pos1 := by
  intro fuel
  induction fuel with
  | zero =>
      intro a _ hex
      obtain ⟨k, hk, _⟩ := hex
      omega
  | succ fuel ih =>
      intro a ha hex
      by_cases hroot : isRoot pos a
      · refine ⟨pos, ?_, LeaderPost.refl_self pos hw⟩
        unfold leaderAux
        rw [if_pos ha, if_pos (show pos.getD a (-1) < 0 from hroot), rootOf_root hroot]
      · have hv : ¬pos.getD a (-1) < 0 := hroot
        have hpeq : parentOf pos a = (pos.getD a (-1)).toNat := by
          unfold parentOf
          rw [if_neg hv]
        have hplt : parentOf pos a < pos.length := hw.1 a ha hroot
        have hex2 : ∃ k, k < fuel ∧ isRoot pos (stepk pos k (parentOf pos a)) := by
          obtain ⟨k, hk, hkr⟩ := hex
          cases k with
          | zero => exact absurd hkr hroot
          | succ k => exact ⟨k, by omega, hkr⟩
        obtain ⟨pos1, heq, post⟩ := ih (parentOf pos a) hplt hex2
        rw [hpeq] at heq
        have hr : rootOf pos (parentOf pos a) = rootOf pos a := rootOf_parentOf hw ha
        rw [hpeq] at hr
        refine ⟨pos1.set a (Int.ofNat (rootOf pos a)), ?_, ?_⟩
        · unfold leaderAux
          rw [if_pos ha, if_neg hv, heq, hr]
        · have ha1 : a < pos1.length := by rw [post.1]; exact ha
          have hxr1 : ¬isRoot pos1 a := fun h => hroot ((post.2.2.1 a).mp h)
          have hrootR : isRoot pos (rootOf pos a) := rootOf_isRoot hw ha
          have hrootR1 : isRoot pos1 (rootOf pos a) := (post.2.2.1 _).mpr hrootR
          have hre1 : reaches pos1 a (rootOf pos a) := post.2.1 a ha
          have hsur := reaches_set_root ha1 hxr1 hrootR1 hre1
          have hnonneg : ¬(Int.ofNat (rootOf pos a) < 0) := by
            simp
          refine ⟨?_, ?_, ?_, ?_, ?_⟩
          · rw [List.length_set, post.1]
          · intro y hy
            exact hsur y (rootOf pos y) (post.2.1 y hy)
          · intro y
            by_cases hya : y = a
            · subst hya
              constructor
              · intro h
                exact absurd (by
                  unfold isRoot at h
                  rwa [getD_set_self _ _ ha1] at h) hnonneg
              · intro h
                exact absurd h hroot
            · rw [isRoot_congr (getD_set_ne _ _ fun h => hya h.symm)]
              exact post.2.2.1 y
          · intro y hy
            have hya : y ≠ a := fun h => hroot (h ▸ hy)
            rw [getD_set_ne _ _ (Ne.symm hya)]
            exact post.2.2.2.1 y hy
          · have hlen2 : (pos1.set a (Int.ofNat (rootOf pos a))).length = pos.length := by
              rw [List.length_set, post.1]
            apply WFp_of_reaches
            · intro y hy hyr
              rw [hlen2] at hy
              by_cases hya : y = a
              · subst hya
                have : parentOf (pos1.set y (Int.ofNat (rootOf pos y))) y = rootOf pos y := by
                  unfold parentOf
                  rw [getD_set_self _ _ ha1]
                  simp
                rw [this, hlen2]
                exact rootOf_lt hw hy
              · have hcong := @getD_set_ne Int pos1 a y (Int.ofNat (rootOf pos a)) (-1) (fun h : a = y => hya h.symm)
                rw [parentOf_congr hcong, hlen2]
                have hyr1 : ¬isRoot pos1 y := fun h => hyr ((isRoot_congr hcong).mpr h)
                have hy1 : y < pos1.length := by rw [post.1]; exact hy
                have := post.2.2.2.2.1 y hy1 hyr1
                rwa [post.1] at this
            · intro y hy
              rw [hlen2] at hy
              exact ⟨rootOf pos y, hsur y (rootOf pos y) (post.2.1 y hy)⟩

/-- `UnionFind::leader` (public entry point). -/
def UnionFind.leader (uf : UnionFind) (a : Nat) : Option (Nat × UnionFind) :=
  match leaderAux (uf.parent_or_size.length + 1) uf.parent_or_size a with
  | none => none
  | some (r, pos1) => some (r, { parent_or_size := pos1, group_num := uf.group_num })

/-- `UnionFind::same`. -/
def UnionFind.same (uf : UnionFind) (a b : Nat) : Option (Bool × UnionFind) :=
  match uf.leader a with
  | none => none
  | some (la, uf1) =>
    match uf1.leader b with
    | none => none
    | some (lb, uf2) => some (decide (la = lb), uf2)

/-- The array update of `UnionFind::merge` after the two leader lookups: the
swap makes the root with the larger stored value (strictly smaller class) the
child; the parent accumulates both sizes. -/
def mergedPos (pos : List Int) (la lb : Nat) : List Int :=
  if pos.getD la (-1) > pos.getD lb (-1) then
    (pos.set lb (pos.getD lb (-1) + pos.getD la (-1))).set la (Int.ofNat lb)
  else
    (pos.set la (pos.getD la (-1) + pos.getD lb (-1))).set lb (Int.ofNat la)

/-- `UnionFind::merge` (`union_find.rs`, lines 39–52): find both leaders, do
nothing if equal, otherwise union by size and decrement the class count. -/
def UnionFind.merge (uf : UnionFind) (a b : Nat) : Option (Bool × UnionFind) :=
  match uf.leader a with
  | none => none
  | some (la, uf1) =>
    match uf1.leader b with
    | none => none
    | some (lb, uf2) =>
      if la = lb then some (false, uf2)
      else
        if la < uf2.parent_or_size.length ∧ lb < uf2.parent_or_size.length then
          some (true,
            { parent_or_size := mergedPos uf2.parent_or_size la lb,
              group_num := uf2.group_num - 1 })
        else none

/-- `UnionFind::size`. -/
def UnionFind.size (uf : UnionFind) (a : Nat) : Option (Nat × UnionFind) :=
  match uf.leader a with
  | none => none
  | some (la, uf1) =>
    if la < uf1.parent_or_size.length then
      some ((-(uf1.parent_or_size.getD la (-1))).toNat, uf1)
    else none

theorem leaderPost_trans {pos pos1 pos2 : List Int}
    (p1 : LeaderPost pos pos1) (p2 : LeaderPost pos1 pos2) : LeaderPost pos pos2 := by
  refine ⟨p2.1.trans p1.1, ?_, ?_, ?_, p2.2.2.2.2⟩
  · intro y hy
    have hy1 : y < pos1.length := by rw [p1.1]; exact hy
    have h2 := p2.2.1 y hy1
    rwa [p1.rootOf_eq y hy] at h2
  · intro y
    exact (p2.2.2.1 y).trans (p1.2.2.1 y)
  · intro y hy
    have hy1 : isRoot pos1 y := (p1.2.2.1 y).mpr hy
    rw [p2.2.2.2.1 y hy1, p1.2.2.2.1 y hy]

theorem leader_spec {uf : UnionFind} (hw : WFp uf.parent_or_size) {a : Nat}
    (ha : a < uf.parent_or_size.length) :
    ∃ uf1, uf.leader a = some (rootOf uf.parent_or_size a, uf1) ∧
      uf1.group_num = uf.group_num ∧
      LeaderPost uf.parent_or_size uf1.parent_or_size := by
  have hex : ∃ k, k < uf.parent_or_size.length + 1 ∧
      isRoot uf.parent_or_size (stepk uf.parent_or_size k a) := by
    obtain ⟨k, hk, he⟩ := rootD_stepk uf.parent_or_size uf.parent_or_size.length a
    exact ⟨k, by omega, he ▸ hw.2 a ha⟩
  obtain ⟨pos1, heq, post⟩ := leaderAux_spec hw (uf.parent_or_size.length + 1) a ha hex
  exact ⟨{ parent_or_size := pos1, group_num := uf.group_num }, by
    unfold UnionFind.leader
    rw [heq], rfl, post⟩

theorem same_spec {uf : UnionFind} (hw : WFp uf.parent_or_size) {a b : Nat}
    (ha : a < uf.parent_or_size.length) (hb : b < uf.parent_or_size.length) :
    ∃ uf2, uf.same a b =
        some (decide (rootOf uf.parent_or_size a = rootOf uf.parent_or_size b), uf2) ∧
      uf2.group_num = uf.group_num ∧
      LeaderPost uf.parent_or_size uf2.parent_or_size := by
  obtain ⟨uf1, heq1, hg1, post1⟩ := leader_spec hw ha
  have hb1 : b < uf1.parent_or_size.length := by rw [post1.1]; exact hb
  obtain ⟨uf2, heq2, hg2, post2⟩ := leader_spec post1.2.2.2.2 hb1
  have hrb : rootOf uf1.parent_or_size b = rootOf uf.parent_or_size b :=
    post1.rootOf_eq b hb
  refine ⟨uf2, ?_, by rw [hg2, hg1], ?_⟩
  · simp only [UnionFind.same, heq1, heq2, hrb]
  · -- compose the two LeaderPost facts
    exact leaderPost_trans post1 post2

theorem size_spec {uf : UnionFind} (hw : WFp uf.parent_or_size) {a : Nat}
    (ha : a < uf.parent_or_size.length) :
    ∃ uf1, uf.size a =
        some ((-(uf.parent_or_size.getD (rootOf uf.parent_or_size a) (-1))).toNat, uf1) ∧
      uf1.group_num = uf.group_num ∧
      LeaderPost uf.parent_or_size uf1.parent_or_size := by
  obtain ⟨uf1, heq1, hg1, post1⟩ := leader_spec hw ha
  have hroot : isRoot uf.parent_or_size (rootOf uf.parent_or_size a) := rootOf_isRoot hw ha
  have hlt : rootOf uf.parent_or_size a < uf1.parent_or_size.length := by
    rw [post1.1]; exact rootOf_lt hw ha
  refine ⟨uf1, ?_, hg1, post1⟩
  simp only [UnionFind.size, heq1]
  rw [if_pos hlt, post1.2.2.2.1 _ hroot]

/-- Effect of attaching root `lose` below root `win` while accumulating the
sizes, on an arbitrary well-formed forest. -/
theorem attach_spec {pos : List Int} (hw : WFp pos) {win lose : Nat}
    (hwin : win < pos.length) (hlose : lose < pos.length) (hne : win ≠ lose)
    (hrootW : isRoot pos win) (hrootL : isRoot pos lose) :
    ((pos.set win (pos.getD win (-1) + pos.getD lose (-1))).set lose (Int.ofNat win)).length
        = pos.length ∧
    WFp ((pos.set win (pos.getD win (-1) + pos.getD lose (-1))).set lose (Int.ofNat win)) ∧
    (∀ y, y < pos.length →
      rootOf ((pos.set win (pos.getD win (-1) + pos.getD lose (-1))).set lose (Int.ofNat win)) y
        = if rootOf pos y = lose then win else rootOf pos y) ∧
    (∀ y, isRoot ((pos.set win (pos.getD win (-1) + pos.getD lose (-1))).set lose (Int.ofNat win)) y
        ↔ (isRoot pos y ∧ y ≠ lose)) ∧
    ((pos.set win (pos.getD win (-1) + pos.getD lose (-1))).set lose (Int.ofNat win)).getD win (-1)
        = pos.getD win (-1) + pos.getD lose (-1) ∧
    (∀ y, isRoot pos y → y ≠ win → y ≠ lose →
      ((pos.set win (pos.getD win (-1) + pos.getD lose (-1))).set lose (Int.ofNat win)).getD y (-1)
        = pos.getD y (-1)) ∧
    ((pos.set win (pos.getD win (-1) + pos.getD lose (-1))).set lose (Int.ofNat win)).getD lose (-1)
        = Int.ofNat win := by
  set sz := pos.getD win (-1) + pos.getD lose (-1) with hsz_def
  set pos3 := (pos.set win sz).set lose (Int.ofNat win) with hpos3
  have hszneg : sz < 0 := by
    have h1 : pos.getD win (-1) < 0 := hrootW
    have h2 : pos.getD lose (-1) < 0 := hrootL
    omega
  have hget_win : pos3.getD win (-1) = sz := by
    rw [hpos3, getD_set_ne _ _ (Ne.symm hne), getD_set_self _ _ hwin]
  have hget_lose : pos3.getD lose (-1) = Int.ofNat win := by
    rw [hpos3, getD_set_self _ _ (by simpa using hlose)]
  have hget_other : ∀ z, z ≠ win → z ≠ lose → pos3.getD z (-1) = pos.getD z (-1) := by
    intro z h1 h2
    rw [hpos3, getD_set_ne _ _ (Ne.symm h2), getD_set_ne _ _ (Ne.symm h1)]
  have hlen : pos3.length = pos.length := by
    rw [hpos3]; simp [List.length_set]
  have hsur := reaches_merge_update hwin hlose hne hrootW hrootL hszneg
  have hroot3win : isRoot pos3 win := by
    unfold isRoot; rw [hget_win]; exact hszneg
  have hnotroot3lose : ¬isRoot pos3 lose := by
    unfold isRoot; rw [hget_lose]; simp
  have hreach3 : ∀ y, y < pos.length →
      reaches pos3 y (if rootOf pos y = lose then win else rootOf pos y) := by
    intro y hy
    exact hsur y (rootOf pos y) (hw.reaches_rootOf hy)
  have hwf3 : WFp pos3 := by
    apply WFp_of_reaches
    · intro y hy hyr
      rw [hlen] at hy
      by_cases hyl : y = lose
      · subst hyl
        have : parentOf pos3 y = win := by
          unfold parentOf
          rw [hget_lose]
          simp
        rw [this, hlen]
        exact hwin
      · by_cases hyw : y = win
        · exact absurd (hyw ▸ hroot3win) hyr
        · have hcong := hget_other y hyw hyl
          rw [parentOf_congr hcong, hlen]
          have hyr0 : ¬isRoot pos y := fun h => hyr ((isRoot_congr hcong).mpr h)
          exact hw.1 y hy hyr0
    · intro y hy
      rw [hlen] at hy
      exact ⟨_, hreach3 y hy⟩
  have hrootchar : ∀ y, isRoot pos3 y ↔ (isRoot pos y ∧ y ≠ lose) := by
    intro y
    by_cases hyl : y = lose
    · subst hyl
      simp only [ne_eq, not_true_eq_false, and_false, iff_false]
      exact hnotroot3lose
    · by_cases hyw : y = win
      · subst hyw
        simp only [ne_eq, hyl, not_false_eq_true, and_true]
        exact iff_of_true hroot3win hrootW
      · rw [isRoot_congr (hget_other y hyw hyl)]
        simp [hyl]
  refine ⟨hlen, hwf3, ?_, hrootchar, hget_win, fun y _ => hget_other y, hget_lose⟩
  intro y hy
  have hy3 : y < pos3.length := by rw [hlen]; exact hy
  exact reaches_rootOf_eq hwf3 hy3 (hreach3 y hy)

/-- Winner (new parent root) of `merge(a, b)`, in terms of the state before
the call. -/
def mergeWin (pos : List Int) (a b : Nat) : Nat :=
  if pos.getD (rootOf pos a) (-1) > pos.getD (rootOf pos b) (-1) then rootOf pos b
  else rootOf pos a

/-- Loser (new child root) of `merge(a, b)`. -/
def mergeLose (pos : List Int) (a b : Nat) : Nat :=
  if pos.getD (rootOf pos a) (-1) > pos.getD (rootOf pos b) (-1) then rootOf pos a
  else rootOf pos b

theorem mergedPos_spec {pos : List Int} (hw : WFp pos) {a b : Nat}
    (ha : a < pos.length) (hb : b < pos.length)
    (hne : rootOf pos a ≠ rootOf pos b) :
    (mergedPos pos (rootOf pos a) (rootOf pos b)).length = pos.length ∧
    WFp (mergedPos pos (rootOf pos a) (rootOf pos b)) ∧
    (∀ y, y < pos.length → rootOf (mergedPos pos (rootOf pos a) (rootOf pos b)) y
        = if rootOf pos y = mergeLose pos a b then mergeWin pos a b else rootOf pos y) ∧
    (∀ y, isRoot (mergedPos pos (rootOf pos a) (rootOf pos b)) y
        ↔ (isRoot pos y ∧ y ≠ mergeLose pos a b)) ∧
    (mergedPos pos (rootOf pos a) (rootOf pos b)).getD (mergeWin pos a b) (-1)
        = pos.getD (rootOf pos a) (-1) + pos.getD (rootOf pos b) (-1) ∧
    (∀ y, isRoot pos y → y ≠ mergeWin pos a b → y ≠ mergeLose pos a b →
      (mergedPos pos (rootOf pos a) (rootOf pos b)).getD y (-1) = pos.getD y (-1)) ∧
    (mergedPos pos (rootOf pos a) (rootOf pos b)).getD (mergeLose pos a b) (-1)
        = Int.ofNat (mergeWin pos a b) := by
  have hrootA : isRoot pos (rootOf pos a) := rootOf_isRoot hw ha
  have hrootB : isRoot pos (rootOf pos b) := rootOf_isRoot hw hb
  have hlA : rootOf pos a < pos.length := rootOf_lt hw ha
  have hlB : rootOf pos b < pos.length := rootOf_lt hw hb
  by_cases hgt : pos.getD (rootOf pos a) (-1) > pos.getD (rootOf pos b) (-1)
  · have hmp : mergedPos pos (rootOf pos a) (rootOf pos b)
        = (pos.set (rootOf pos b)
            (pos.getD (rootOf pos b) (-1) + pos.getD (rootOf pos a) (-1))).set
            (rootOf pos a) (Int.ofNat (rootOf pos b)) := by
      unfold mergedPos
      rw [if_pos hgt]
    have hwin : mergeWin pos a b = rootOf pos b := by unfold mergeWin; rw [if_pos hgt]
    have hlose : mergeLose pos a b = rootOf pos a := by unfold mergeLose; rw [if_pos hgt]
    obtain ⟨h1, h2, h3, h4, h5, h6, h7⟩ :=
      attach_spec hw hlB hlA (Ne.symm hne) hrootB hrootA
    rw [← hmp] at h1 h2 h3 h4 h5 h6 h7
    rw [hwin, hlose]
    exact ⟨h1, h2, h3, h4, by rw [h5, Int.add_comm], h6, h7⟩
  · have hmp : mergedPos pos (rootOf pos a) (rootOf pos b)
        = (pos.set (rootOf pos a)
            (pos.getD (rootOf pos a) (-1) + pos.getD (rootOf pos b) (-1))).set
            (rootOf pos b) (Int.ofNat (rootOf pos a)) := by
      unfold mergedPos
      rw [if_neg hgt]
    have hwin : mergeWin pos a b = rootOf pos a := by unfold mergeWin; rw [if_neg hgt]
    have hlose : mergeLose pos a b = rootOf pos b := by unfold mergeLose; rw [if_neg hgt]
    obtain ⟨h1, h2, h3, h4, h5, h6, h7⟩ :=
      attach_spec hw hlA hlB hne hrootA hrootB
    rw [← hmp] at h1 h2 h3 h4 h5 h6 h7
    rw [hwin, hlose]
    exact ⟨h1, h2, h3, h4, h5, h6, h7⟩

theorem merge_spec_same {uf : UnionFind} (hw : WFp uf.parent_or_size) {a b : Nat}
    (ha : a < uf.parent_or_size.length) (hb : b < uf.parent_or_size.length)
    (hc : rootOf uf.parent_or_size a = rootOf uf.parent_or_size b) :
    ∃ uf2, uf.merge a b = some (false, uf2) ∧
      uf2.group_num = uf.group_num ∧
      LeaderPost uf.parent_or_size uf2.parent_or_size := by
  obtain ⟨uf1, heq1, hg1, post1⟩ := leader_spec hw ha
  have hb1 : b < uf1.parent_or_size.length := by rw [post1.1]; exact hb
  obtain ⟨uf2, heq2, hg2, post2⟩ := leader_spec post1.2.2.2.2 hb1
  have hrb : rootOf uf1.parent_or_size b = rootOf uf.parent_or_size b :=
    post1.rootOf_eq b hb
  refine ⟨uf2, ?_, by rw [hg2, hg1], leaderPost_trans post1 post2⟩
  simp only [UnionFind.merge, heq1, heq2, hrb]
  rw [if_pos hc]

theorem merge_spec_diff {uf : UnionFind} (hw : WFp uf.parent_or_size) {a b : Nat}
    (ha : a < uf.parent_or_size.length) (hb : b < uf.parent_or_size.length)
    (hne : rootOf uf.parent_or_size a ≠ rootOf uf.parent_or_size b) :
    ∃ uf3, uf.merge a b = some (true, uf3) ∧
      uf3.parent_or_size.length = uf.parent_or_size.length ∧
      WFp uf3.parent_or_size ∧
      uf3.group_num = uf.group_num - 1 ∧
      (∀ y, y < uf.parent_or_size.length → rootOf uf3.parent_or_size y =
        if rootOf uf.parent_or_size y = mergeLose uf.parent_or_size a b
        then mergeWin uf.parent_or_size a b else rootOf uf.parent_or_size y) ∧
      (∀ y, isRoot uf3.parent_or_size y ↔
        (isRoot uf.parent_or_size y ∧ y ≠ mergeLose uf.parent_or_size a b)) ∧
      uf3.parent_or_size.getD (mergeWin uf.parent_or_size a b) (-1)
        = uf.parent_or_size.getD (rootOf uf.parent_or_size a) (-1)
          + uf.parent_or_size.getD (rootOf uf.parent_or_size b) (-1) ∧
      (∀ y, isRoot uf.parent_or_size y → y ≠ mergeWin uf.parent_or_size a b →
        y ≠ mergeLose uf.parent_or_size a b →
        uf3.parent_or_size.getD y (-1) = uf.parent_or_size.getD y (-1)) ∧
      uf3.parent_or_size.getD (mergeLose uf.parent_or_size a b) (-1)
        = Int.ofNat (mergeWin uf.parent_or_size a b) := by
  obtain ⟨uf1, heq1, hg1, post1⟩ := leader_spec hw ha
  have hb1 : b < uf1.parent_or_size.length := by rw [post1.1]; exact hb
  obtain ⟨uf2, heq2, hg2, post2⟩ := leader_spec post1.2.2.2.2 hb1
  have hrb : rootOf uf1.parent_or_size b = rootOf uf.parent_or_size b :=
    post1.rootOf_eq b hb
  have post12 : LeaderPost uf.parent_or_size uf2.parent_or_size :=
    leaderPost_trans post1 post2
  have hwf2 : WFp uf2.parent_or_size := post12.2.2.2.2
  have hrootA : isRoot uf.parent_or_size (rootOf uf.parent_or_size a) := rootOf_isRoot hw ha
  have hrootB : isRoot uf.parent_or_size (rootOf uf.parent_or_size b) := rootOf_isRoot hw hb
  have hla2 : rootOf uf.parent_or_size a < uf2.parent_or_size.length := by
    rw [post12.1]; exact rootOf_lt hw ha
  have hlb2 : rootOf uf.parent_or_size b < uf2.parent_or_size.length := by
    rw [post12.1]; exact rootOf_lt hw hb
  have hrootA2 : isRoot uf2.parent_or_size (rootOf uf.parent_or_size a) :=
    (post12.2.2.1 _).mpr hrootA
  have hrootB2 : isRoot uf2.parent_or_size (rootOf uf.parent_or_size b) :=
    (post12.2.2.1 _).mpr hrootB
  have hEA : uf2.parent_or_size.getD (rootOf uf.parent_or_size a) (-1)
      = uf.parent_or_size.getD (rootOf uf.parent_or_size a) (-1) :=
    post12.2.2.2.1 _ hrootA
  have hEB : uf2.parent_or_size.getD (rootOf uf.parent_or_size b) (-1)
      = uf.parent_or_size.getD (rootOf uf.parent_or_size b) (-1) :=
    post12.2.2.2.1 _ hrootB
  have hra2 : rootOf uf2.parent_or_size (rootOf uf.parent_or_size a)
      = rootOf uf.parent_or_size a := rootOf_root hrootA2
  have hrb2 : rootOf uf2.parent_or_size (rootOf uf.parent_or_size b)
      = rootOf uf.parent_or_size b := rootOf_root hrootB2
  have hne2 : rootOf uf2.parent_or_size (rootOf uf.parent_or_size a)
      ≠ rootOf uf2.parent_or_size (rootOf uf.parent_or_size b) := by
    rw [hra2, hrb2]; exact hne
  obtain ⟨m1, m2, m3, m4, m5, m6, m7⟩ := mergedPos_spec hwf2 hla2 hlb2 hne2
  rw [hra2, hrb2] at m1 m2 m3 m4 m5 m6 m7
  have hWinEq : mergeWin uf2.parent_or_size (rootOf uf.parent_or_size a)
      (rootOf uf.parent_or_size b) = mergeWin uf.parent_or_size a b := by
    unfold mergeWin
    rw [hra2, hrb2, hEA, hEB]
  have hLoseEq : mergeLose uf2.parent_or_size (rootOf uf.parent_or_size a)
      (rootOf uf.parent_or_size b) = mergeLose uf.parent_or_size a b := by
    unfold mergeLose
    rw [hra2, hrb2, hEA, hEB]
  rw [hWinEq, hLoseEq] at m3
  rw [hLoseEq] at m4
  rw [hWinEq] at m5
  rw [hWinEq, hLoseEq] at m6
  rw [hWinEq, hLoseEq] at m7
  refine ⟨⟨mergedPos uf2.parent_or_size (rootOf uf.parent_or_size a)
      (rootOf uf.parent_or_size b), uf2.group_num - 1⟩, ?_, ?_, m2, ?_, ?_, ?_, ?_, ?_, m7⟩
  · simp only [UnionFind.merge, heq1, heq2, hrb]
    rw [if_neg hne, if_pos ⟨hla2, hlb2⟩]
  · show (mergedPos _ _ _).length = _
    rw [m1, post12.1]
  · show uf2.group_num - 1 = uf.group_num - 1
    rw [hg2, hg1]
  · intro y hy
    have hy2 : y < uf2.parent_or_size.length := by rw [post12.1]; exact hy
    show rootOf (mergedPos _ _ _) y = _
    rw [m3 y hy2, post12.rootOf_eq y hy]
  · intro y
    show isRoot (mergedPos _ _ _) y ↔ _
    rw [m4 y, post12.2.2.1 y]
  · show (mergedPos _ _ _).getD _ _ = _
    rw [m5, hEA, hEB]
  · intro y hy hyw hyl
    have hy2 : isRoot uf2.parent_or_size y := (post12.2.2.1 y).mpr hy
    show (mergedPos _ _ _).getD y _ = _
    rw [m6 y hy2 hyw hyl, post12.2.2.2.1 y hy]

theorem mergeWin_or {pos : List Int} (a b : Nat) :
    mergeWin pos a b = rootOf pos a ∨ mergeWin pos a b = rootOf pos b := by
  unfold mergeWin
  by_cases h : pos.getD (rootOf pos a) (-1) > pos.getD (rootOf pos b) (-1)
  · rw [if_pos h]; exact Or.inr rfl
  · rw [if_neg h]; exact Or.inl rfl

theorem mergeLose_or {pos : List Int} (a b : Nat) :
    mergeLose pos a b = rootOf pos a ∨ mergeLose pos a b = rootOf pos b := by
  unfold mergeLose
  by_cases h : pos.getD (rootOf pos a) (-1) > pos.getD (rootOf pos b) (-1)
  · rw [if_pos h]; exact Or.inl rfl
  · rw [if_neg h]; exact Or.inr rfl

theorem mergeWin_ne_lose {pos : List Int} {a b : Nat}
    (hne : rootOf pos a ≠ rootOf pos b) : mergeWin pos a b ≠ mergeLose pos a b := by
  unfold mergeWin mergeLose
  by_cases h : pos.getD (rootOf pos a) (-1) > pos.getD (rootOf pos b) (-1)
  · rw [if_pos h, if_pos h]; exact Ne.symm hne
  · rw [if_neg h, if_neg h]; exact hne

theorem mergeWinLose_pair {pos : List Int} (a b : Nat) :
    (mergeWin pos a b = rootOf pos a ∧ mergeLose pos a b = rootOf pos b) ∨
    (mergeWin pos a b = rootOf pos b ∧ mergeLose pos a b = rootOf pos a) := by
  unfold mergeWin mergeLose
  by_cases h : pos.getD (rootOf pos a) (-1) > pos.getD (rootOf pos b) (-1)
  · rw [if_pos h, if_pos h]; exact Or.inr ⟨rfl, rfl⟩
  · rw [if_neg h, if_neg h]; exact Or.inl ⟨rfl, rfl⟩

/-- Summary form used by the labeling scan: `merge` on in-range arguments
succeeds, keeps the length, preserves well-formedness, and collapses exactly
the classes of `a` and `b` to a single representative `w`. -/
theorem merge_scan {uf : UnionFind} (hw : WFp uf.parent_or_size) {a b : Nat}
    (ha : a < uf.parent_or_size.length) (hb : b < uf.parent_or_size.length) :
    ∃ res uf3, uf.merge a b = some (res, uf3) ∧
      uf3.parent_or_size.length = uf.parent_or_size.length ∧
      WFp uf3.parent_or_size ∧
      ∃ w, (w = rootOf uf.parent_or_size a ∨ w = rootOf uf.parent_or_size b) ∧
        ∀ y, y < uf.parent_or_size.length →
          rootOf uf3.parent_or_size y =
            if rootOf uf.parent_or_size y = rootOf uf.parent_or_size a
                ∨ rootOf uf.parent_or_size y = rootOf uf.parent_or_size b
            then w else rootOf uf.parent_or_size y := by
  by_cases hc : rootOf uf.parent_or_size a = rootOf uf.parent_or_size b
  · obtain ⟨uf2, heq, hg, post⟩ := merge_spec_same hw ha hb hc
    refine ⟨false, uf2, heq, post.1, post.2.2.2.2, rootOf uf.parent_or_size a,
      Or.inl rfl, ?_⟩
    intro y hy
    rw [post.rootOf_eq y hy]
    by_cases hcy : rootOf uf.parent_or_size y = rootOf uf.parent_or_size a
        ∨ rootOf uf.parent_or_size y = rootOf uf.parent_or_size b
    · rw [if_pos hcy]
      rcases hcy with h | h
      · exact h
      · rw [h, hc]
    · rw [if_neg hcy]
  · obtain ⟨uf3, heq, hlen, hwf, _, hro, _, _, _, _⟩ := merge_spec_diff hw ha hb hc
    refine ⟨true, uf3, heq, hlen, hwf, mergeWin uf.parent_or_size a b, mergeWin_or a b, ?_⟩
    intro y hy
    rw [hro y hy]
    rcases @mergeWinLose_pair uf.parent_or_size a b with ⟨hwi, hlo⟩ | ⟨hwi, hlo⟩
    · by_cases h1 : rootOf uf.parent_or_size y = rootOf uf.parent_or_size b
      · rw [hlo, if_pos h1, if_pos (Or.inr h1)]
      · rw [hlo, if_neg h1]
        by_cases h2 : rootOf uf.parent_or_size y = rootOf uf.parent_or_size a
        · rw [if_pos (Or.inl h2), h2, ← hwi]
        · rw [if_neg (fun hor => hor.elim h2 h1)]
    · by_cases h1 : rootOf uf.parent_or_size y = rootOf uf.parent_or_size a
      · rw [hlo, if_pos h1, if_pos (Or.inl h1)]
      · rw [hlo, if_neg h1]
        by_cases h2 : rootOf uf.parent_or_size y = rootOf uf.parent_or_size b
        · rw [if_pos (Or.inr h2), h2, ← hwi]
        · rw [if_neg (fun hor => hor.elim h1 h2)]

/-- Roots of the forest, as a finite set. -/
def rootsIn (pos : List Int) : Finset Nat :=
  (Finset.range pos.length).filter (fun a => isRoot pos a)

/-- Elements whose representative is `r`. -/
def classOf (pos : List Int) (r : Nat) : Finset Nat :=
  (Finset.range pos.length).filter (fun a => rootOf pos a = r)

/-- Full representation invariant of the union-find: structural
well-formedness, the class counter equals the number of roots, and every
root stores the negated size of its class. -/
def WFu (uf : UnionFind) : Prop :=
  WFp uf.parent_or_size ∧
  uf.group_num = (rootsIn uf.parent_or_size).card ∧
  ∀ r ∈ rootsIn uf.parent_or_size,
    uf.parent_or_size.getD r (-1) = -(((classOf uf.parent_or_size r).card : Int))

instance (pos : List Int) : Decidable (WFp pos) := by
  unfold WFp
  infer_instance

instance (uf : UnionFind) : Decidable (WFu uf) := by
  unfold WFu
  infer_instance

theorem mem_rootsIn {pos : List Int} {a : Nat} :
    a ∈ rootsIn pos ↔ a < pos.length ∧ isRoot pos a := by
  simp [rootsIn, Finset.mem_filter, Finset.mem_range]

theorem mem_classOf {pos : List Int} {r a : Nat} :
    a ∈ classOf pos r ↔ a < pos.length ∧ rootOf pos a = r := by
  simp [classOf, Finset.mem_filter, Finset.mem_range]

theorem LeaderPost.rootsIn_eq {pos pos1 : List Int} (post : LeaderPost pos pos1) :
    rootsIn pos1 = rootsIn pos := by
  ext a
  rw [mem_rootsIn, mem_rootsIn, post.1, post.2.2.1 a]

theorem LeaderPost.classOf_eq {pos pos1 : List Int} (post : LeaderPost pos pos1)
    (r : Nat) : classOf pos1 r = classOf pos r := by
  ext a
  rw [mem_classOf, mem_classOf, post.1]
  constructor
  · rintro ⟨h1, h2⟩
    exact ⟨h1, by rw [← post.rootOf_eq a h1]; exact h2⟩
  · rintro ⟨h1, h2⟩
    exact ⟨h1, by rw [post.rootOf_eq a h1]; exact h2⟩

theorem WFu_of_leaderPost {uf uf1 : UnionFind} (h : WFu uf)
    (post : LeaderPost uf.parent_or_size uf1.parent_or_size)
    (hg : uf1.group_num = uf.group_num) : WFu uf1 := by
  refine ⟨post.2.2.2.2, ?_, ?_⟩
  · rw [hg, post.rootsIn_eq]
    exact h.2.1
  · intro r hr
    rw [post.rootsIn_eq] at hr
    rw [post.classOf_eq r, post.2.2.2.1 r (mem_rootsIn.mp hr).2]
    exact h.2.2 r hr

theorem getD_replicate_self {α : Type} {n m : Nat} (d : α) :
    (List.replicate n d).getD m d = d := by
  by_cases h : m < n
  · simp [List.getD, List.getElem?_replicate, h]
  · simp [List.getD, List.getElem?_replicate, h]

theorem getD_append_left2 {α : Type} {l l2 : List α} {n : Nat} (d : α)
    (h : n < l.length) : (l ++ l2).getD n d = l.getD n d := by
  simp [List.getD, List.getElem?_append_left h]

theorem getD_concat_self {α : Type} {l : List α} (x d : α) :
    (l ++ [x]).getD l.length d = x := by
  simp [List.getD, List.getElem?_concat_length]

/-- `WFu` holds of every freshly constructed union-find. -/
theorem WFu_new (n : Nat) : WFu (UnionFind.new n) := by
  have hroot : ∀ a, isRoot (List.replicate n (-1 : Int)) a := by
    intro a
    unfold isRoot
    rw [getD_replicate_self]
    omega
  have hlen : (List.replicate n (-1 : Int)).length = n := List.length_replicate n (-1)
  have hwf : WFp (List.replicate n (-1 : Int)) := by
    constructor
    · intro a _ hnr
      exact absurd (hroot a) hnr
    · intro a _
      rw [rootD_root (hroot a)]
      exact hroot a
  have hroots : rootsIn (List.replicate n (-1 : Int)) = Finset.range n := by
    unfold rootsIn
    rw [hlen]
    exact Finset.filter_true_of_mem (fun a _ => hroot a)
  refine ⟨hwf, ?_, ?_⟩
  · show n = (rootsIn (List.replicate n (-1 : Int))).card
    rw [hroots, Finset.card_range]
  · intro r hr
    have hr2 : r ∈ rootsIn (List.replicate n (-1 : Int)) := hr
    rw [hroots] at hr2
    clear hr
    rename' hr2 => hr
    have hrn : r < n := Finset.mem_range.mp hr
    have hclass : classOf (List.replicate n (-1 : Int)) r = {r} := by
      ext a
      rw [mem_classOf, hlen, Finset.mem_singleton]
      constructor
      · rintro ⟨_, h2⟩
        rw [← h2, rootOf_root (hroot a)]
      · rintro rfl
        exact ⟨hrn, rootOf_root (hroot a)⟩
    show (List.replicate n (-1 : Int)).getD r (-1)
        = -(((classOf (List.replicate n (-1 : Int)) r).card : Int))
    rw [hclass, Finset.card_singleton, getD_replicate_self]
    simp

theorem reaches_append {pos : List Int} {x : Int}
    (hpar : ∀ a, a < pos.length → ¬isRoot pos a → parentOf pos a < pos.length) :
    ∀ a r, a < pos.length → reaches pos a r → reaches (pos ++ [x]) a r := by
  have hE : ∀ z, z < pos.length → (pos ++ [x]).getD z (-1) = pos.getD z (-1) := by
    intro z hz
    exact getD_append_left2 (-1) hz
  have main : ∀ k a r, a < pos.length → stepk pos k a = r → isRoot pos r →
      reaches (pos ++ [x]) a r := by
    intro k
    induction k with
    | zero =>
        intro a r ha hk hr
        have hk0 : a = r := hk
        rw [← hk0] at hr ⊢
        exact ⟨0, rfl, (isRoot_congr (hE a ha)).mpr hr⟩
    | succ k ih =>
        intro a r ha hk hr
        by_cases haroot : isRoot pos a
        · have he : r = a := by rw [← hk, stepk_isRoot_fix haroot]
          rw [he]
          exact ⟨0, rfl, (isRoot_congr (hE a ha)).mpr haroot⟩
        · have hplt : parentOf pos a < pos.length := hpar a ha haroot
          have hrec := ih (parentOf pos a) r hplt hk hr
          rw [← parentOf_congr (hE a ha)] at hrec
          exact reaches_step hrec
  intro a r ha hre
  obtain ⟨k, hk, hr⟩ := hre
  exact main k a r ha hk hr

/-- `WFu` is preserved by `add`. -/
theorem WFu_add {uf : UnionFind} (h : WFu uf) : WFu uf.add := by
  obtain ⟨hwf, hgroup, hsize⟩ := h
  set pos := uf.parent_or_size with hpos_def
  set pos' := pos ++ [(-1 : Int)] with hpos'
  have hlen : pos'.length = pos.length + 1 := by
    rw [hpos']
    simp
  have hE : ∀ z, z < pos.length → pos'.getD z (-1) = pos.getD z (-1) :=
    fun z hz => getD_append_left2 (-1) hz
  have hrootN : isRoot pos' pos.length := by
    unfold isRoot
    rw [hpos', getD_concat_self]
    omega
  have hreach' : ∀ a, a < pos'.length → ∃ r, reaches pos' a r := by
    intro a ha
    rw [hlen] at ha
    rcases Nat.lt_or_ge a pos.length with hlt | hge
    · exact ⟨rootOf pos a, reaches_append hwf.1 a _ hlt (hwf.reaches_rootOf hlt)⟩
    · have hae : a = pos.length := by omega
      rw [hae]
      exact ⟨pos.length, 0, rfl, hrootN⟩
  have hwf' : WFp pos' := by
    apply WFp_of_reaches
    · intro a ha hnr
      rw [hlen] at ha ⊢
      rcases Nat.lt_or_ge a pos.length with hlt | hge
      · have hnr0 : ¬isRoot pos a := fun hh => hnr ((isRoot_congr (hE a hlt)).mpr hh)
        rw [parentOf_congr (hE a hlt)]
        have := hwf.1 a hlt hnr0
        omega
      · have hae : a = pos.length := by omega
        exact absurd (hae ▸ hrootN) hnr
    · exact hreach'
  have hrootEq : ∀ a, a < pos.length → (isRoot pos' a ↔ isRoot pos a) :=
    fun a ha => isRoot_congr (hE a ha)
  have hrootOfEq : ∀ a, a < pos.length → rootOf pos' a = rootOf pos a := by
    intro a ha
    have ha' : a < pos'.length := by omega
    exact reaches_rootOf_eq hwf' ha'
      (reaches_append hwf.1 a _ ha (hwf.reaches_rootOf ha))
  have hrootOfN : rootOf pos' pos.length = pos.length := rootOf_root hrootN
  have hroots' : rootsIn pos' = insert pos.length (rootsIn pos) := by
    ext a
    rw [mem_rootsIn, Finset.mem_insert, mem_rootsIn, hlen]
    constructor
    · rintro ⟨h1, h2⟩
      rcases Nat.lt_or_ge a pos.length with hlt | hge
      · exact Or.inr ⟨hlt, (hrootEq a hlt).mp h2⟩
      · exact Or.inl (by omega)
    · rintro (rfl | ⟨h1, h2⟩)
      · exact ⟨by omega, hrootN⟩
      · exact ⟨by omega, (hrootEq a h1).mpr h2⟩
  have hnmem : pos.length ∉ rootsIn pos := by
    rw [mem_rootsIn]
    rintro ⟨h1, _⟩
    omega
  refine ⟨hwf', ?_, ?_⟩
  · show uf.group_num + 1 = (rootsIn pos').card
    rw [hroots', Finset.card_insert_of_not_mem hnmem, hgroup]
  · intro r hr
    have hr2 : r ∈ rootsIn pos' := hr
    rw [hroots', Finset.mem_insert] at hr2
    clear hr
    rcases hr2 with hre | hr
    · have hclass : classOf pos' r = {r} := by
        ext a
        rw [mem_classOf, Finset.mem_singleton, hlen]
        constructor
        · rintro ⟨h1, h2⟩
          rcases Nat.lt_or_ge a pos.length with hlt | hge
          · rw [hrootOfEq a hlt] at h2
            have := rootOf_lt hwf hlt
            omega
          · omega
        · rintro rfl
          refine ⟨by omega, ?_⟩
          rw [hre]
          exact hrootOfN
      show pos'.getD r (-1) = -(((classOf pos' r).card : Int))
      rw [hclass, Finset.card_singleton, hre, hpos', getD_concat_self]
      simp
    · have hrlt : r < pos.length := (mem_rootsIn.mp hr).1
      have hclass : classOf pos' r = classOf pos r := by
        ext a
        rw [mem_classOf, mem_classOf, hlen]
        constructor
        · rintro ⟨h1, h2⟩
          rcases Nat.lt_or_ge a pos.length with hlt | hge
          · rw [hrootOfEq a hlt] at h2
            exact ⟨hlt, h2⟩
          · have hae : a = pos.length := by omega
            rw [hae, hrootOfN] at h2
            omega
        · rintro ⟨h1, h2⟩
          exact ⟨by omega, by rw [hrootOfEq a h1]; exact h2⟩
      show pos'.getD r (-1) = -(((classOf pos' r).card : Int))
      rw [hclass, hE r hrlt]
      exact hsize r hr

/-- Sum of the stored root sizes is the element count. -/
theorem WFu.sum_sizes {uf : UnionFind} (h : WFu uf) :
    (∑ r ∈ rootsIn uf.parent_or_size,
      (-(uf.parent_or_size.getD r (-1))).toNat) = uf.parent_or_size.length := by
  have H : ∀ a ∈ Finset.range uf.parent_or_size.length,
      rootOf uf.parent_or_size a ∈ rootsIn uf.parent_or_size := by
    intro a ha
    rw [Finset.mem_range] at ha
    rw [mem_rootsIn]
    exact ⟨rootOf_lt h.1 ha, rootOf_isRoot h.1 ha⟩
  have hfib := Finset.card_eq_sum_card_fiberwise H
  rw [Finset.card_range] at hfib
  rw [hfib]
  apply Finset.sum_congr rfl
  intro r hr
  rw [h.2.2 r hr, neg_neg]
  simp [classOf]

/-- `WFu` is preserved by `merge`. -/
theorem WFu_merge {uf : UnionFind} (h : WFu uf) {a b : Nat}
    (ha : a < uf.parent_or_size.length) (hb : b < uf.parent_or_size.length)
    {res : Bool} {uf3 : UnionFind} (heq : uf.merge a b = some (res, uf3)) :
    WFu uf3 := by
  by_cases hc : rootOf uf.parent_or_size a = rootOf uf.parent_or_size b
  · obtain ⟨uf2, heq2, hg, post⟩ := merge_spec_same h.1 ha hb hc
    rw [heq2] at heq
    simp only [Option.some.injEq, Prod.mk.injEq] at heq
    rw [← heq.2]
    exact WFu_of_leaderPost h post hg
  · obtain ⟨uf2, heq2, hlen, hwf3, hg, hro, hrootch, hwinsz, hother, hloseptr⟩ :=
      merge_spec_diff h.1 ha hb hc
    rw [heq2] at heq
    simp only [Option.some.injEq, Prod.mk.injEq] at heq
    rw [← heq.2]
    clear heq
    have hrootA : isRoot uf.parent_or_size (rootOf uf.parent_or_size a) :=
      rootOf_isRoot h.1 ha
    have hrootB : isRoot uf.parent_or_size (rootOf uf.parent_or_size b) :=
      rootOf_isRoot h.1 hb
    have hlA : rootOf uf.parent_or_size a < uf.parent_or_size.length := rootOf_lt h.1 ha
    have hlB : rootOf uf.parent_or_size b < uf.parent_or_size.length := rootOf_lt h.1 hb
    have hW : mergeWin uf.parent_or_size a b ≠ mergeLose uf.parent_or_size a b :=
      mergeWin_ne_lose hc
    have hLroot : isRoot uf.parent_or_size (mergeLose uf.parent_or_size a b) := by
      rcases @mergeLose_or uf.parent_or_size a b with hl | hl
      · rw [hl]; exact hrootA
      · rw [hl]; exact hrootB
    have hLlt : mergeLose uf.parent_or_size a b < uf.parent_or_size.length := by
      rcases @mergeLose_or uf.parent_or_size a b with hl | hl
      · rw [hl]; exact hlA
      · rw [hl]; exact hlB
    have hLmem : mergeLose uf.parent_or_size a b ∈ rootsIn uf.parent_or_size :=
      mem_rootsIn.mpr ⟨hLlt, hLroot⟩
    have hAmem : rootOf uf.parent_or_size a ∈ rootsIn uf.parent_or_size :=
      mem_rootsIn.mpr ⟨hlA, hrootA⟩
    have hBmem : rootOf uf.parent_or_size b ∈ rootsIn uf.parent_or_size :=
      mem_rootsIn.mpr ⟨hlB, hrootB⟩
    have hroots3 : rootsIn uf2.parent_or_size
        = (rootsIn uf.parent_or_size).erase (mergeLose uf.parent_or_size a b) := by
      ext y
      rw [mem_rootsIn, Finset.mem_erase, mem_rootsIn, hlen, hrootch y]
      constructor
      · rintro ⟨h1, h2, h3⟩
        exact ⟨h3, h1, h2⟩
      · rintro ⟨h3, h1, h2⟩
        exact ⟨h1, h2, h3⟩
    refine ⟨hwf3, ?_, ?_⟩
    · rw [hg, hroots3, Finset.card_erase_of_mem hLmem, h.2.1]
    · intro r hr
      rw [hroots3, Finset.mem_erase] at hr
      obtain ⟨hrL, hrmem⟩ := hr
      have hrlt : r < uf.parent_or_size.length := (mem_rootsIn.mp hrmem).1
      have hrroot : isRoot uf.parent_or_size r := (mem_rootsIn.mp hrmem).2
      by_cases hrw : r = mergeWin uf.parent_or_size a b
      · -- the winner accumulates both classes
        have hclass : classOf uf2.parent_or_size r
            = classOf uf.parent_or_size (rootOf uf.parent_or_size a)
              ∪ classOf uf.parent_or_size (rootOf uf.parent_or_size b) := by
          ext y
          rw [Finset.mem_union, mem_classOf, mem_classOf, mem_classOf, hlen]
          constructor
          · rintro ⟨h1, h2⟩
            rw [hro y h1] at h2
            by_cases hyl : rootOf uf.parent_or_size y = mergeLose uf.parent_or_size a b
            · rcases @mergeLose_or uf.parent_or_size a b with hl | hl
              · exact Or.inl ⟨h1, by rw [hyl, hl]⟩
              · exact Or.inr ⟨h1, by rw [hyl, hl]⟩
            · rw [if_neg hyl] at h2
              rw [hrw] at h2
              rcases @mergeWin_or uf.parent_or_size a b with hl | hl
              · exact Or.inl ⟨h1, by rw [h2, hl]⟩
              · exact Or.inr ⟨h1, by rw [h2, hl]⟩
          · intro hor
            rcases @mergeWinLose_pair uf.parent_or_size a b with ⟨hwi, hlo⟩ | ⟨hwi, hlo⟩
            · rcases hor with ⟨h1, h2⟩ | ⟨h1, h2⟩
              · refine ⟨h1, ?_⟩
                rw [hro y h1, h2]
                have hne2 : rootOf uf.parent_or_size a ≠ mergeLose uf.parent_or_size a b := by
                  rw [hlo]
                  exact hc
                rw [if_neg hne2, hrw, hwi]
              · refine ⟨h1, ?_⟩
                rw [hro y h1, h2, if_pos hlo.symm, hrw]
            · rcases hor with ⟨h1, h2⟩ | ⟨h1, h2⟩
              · refine ⟨h1, ?_⟩
                rw [hro y h1, h2, if_pos hlo.symm, hrw]
              · refine ⟨h1, ?_⟩
                rw [hro y h1, h2]
                have hne2 : rootOf uf.parent_or_size b ≠ mergeLose uf.parent_or_size a b := by
                  rw [hlo]
                  exact fun hx => hc hx.symm
                rw [if_neg hne2, hrw, hwi]
        have hdisj : Disjoint (classOf uf.parent_or_size (rootOf uf.parent_or_size a))
            (classOf uf.parent_or_size (rootOf uf.parent_or_size b)) := by
          rw [Finset.disjoint_left]
          intro y hy1 hy2
          rw [mem_classOf] at hy1 hy2
          exact hc (hy1.2 ▸ hy2.2 ▸ rfl)
        rw [hclass, Finset.card_union_of_disjoint hdisj]
        rw [hrw, hwinsz, h.2.2 _ hAmem, h.2.2 _ hBmem]
        push_cast
        ring
      · -- untouched classes keep their size
        have hclass : classOf uf2.parent_or_size r = classOf uf.parent_or_size r := by
          ext y
          rw [mem_classOf, mem_classOf, hlen]
          constructor
          · rintro ⟨h1, h2⟩
            rw [hro y h1] at h2
            by_cases hyl : rootOf uf.parent_or_size y = mergeLose uf.parent_or_size a b
            · rw [if_pos hyl] at h2
              exact absurd h2.symm hrw
            · rw [if_neg hyl] at h2
              exact ⟨h1, h2⟩
          · rintro ⟨h1, h2⟩
            refine ⟨h1, ?_⟩
            rw [hro y h1, h2, if_neg hrL]
        rw [hclass, hother r hrroot hrw hrL]
        exact h.2.2 r hrmem

/-- What a query (`leader`, `same`, `size`) is allowed to do to the state:
element count, class count, every element's representative, the root set and
all root entries are unchanged (only non-root parent pointers may move). -/
def QueryPres (uf uf1 : UnionFind) : Prop :=
  uf1.get_elem_num = uf.get_elem_num ∧
  uf1.get_group_num = uf.get_group_num ∧
  (∀ y, y < uf.get_elem_num → rootOf uf1.parent_or_size y = rootOf uf.parent_or_size y) ∧
  (∀ y, isRoot uf1.parent_or_size y ↔ isRoot uf.parent_or_size y) ∧
  (∀ y, isRoot uf.parent_or_size y →
    uf1.parent_or_size.getD y (-1) = uf.parent_or_size.getD y (-1))

theorem queryPres_of_leaderPost {uf uf1 : UnionFind}
    (post : LeaderPost uf.parent_or_size uf1.parent_or_size)
    (hg : uf1.group_num = uf.group_num) : QueryPres uf uf1 :=
  ⟨post.1, hg, fun y hy => post.rootOf_eq y hy, post.2.2.1, post.2.2.2.1⟩

/-- C5: `merge(a, b)` returns `false` and changes no class membership when
`a` and `b` are already in one class; otherwise it returns `true`, attaches
the class with strictly fewer elements under the larger class's root,
decrements the class count by exactly one, and the winner's stored size is
the negated sum of both classes' prior sizes. -/
theorem unionFind_merge_contract {uf : UnionFind} (h : WFu uf) {a b : Nat}
    (ha : a < uf.get_elem_num) (hb : b < uf.get_elem_num) :
    (rootOf uf.parent_or_size a = rootOf uf.parent_or_size b →
      ∃ uf2, uf.merge a b = some (false, uf2) ∧
        uf2.get_group_num = uf.get_group_num ∧
        uf2.get_elem_num = uf.get_elem_num ∧
        (∀ y, y < uf.get_elem_num →
          rootOf uf2.parent_or_size y = rootOf uf.parent_or_size y)) ∧
    (rootOf uf.parent_or_size a ≠ rootOf uf.parent_or_size b →
      ∃ uf2, uf.merge a b = some (true, uf2) ∧
        uf2.get_group_num + 1 = uf.get_group_num ∧
        uf2.get_elem_num = uf.get_elem_num ∧
        uf2.parent_or_size.getD (mergeWin uf.parent_or_size a b) (-1)
          = -((((classOf uf.parent_or_size (rootOf uf.parent_or_size a)).card
              + (classOf uf.parent_or_size (rootOf uf.parent_or_size b)).card : Nat) : Int)) ∧
        ((classOf uf.parent_or_size (rootOf uf.parent_or_size a)).card
            < (classOf uf.parent_or_size (rootOf uf.parent_or_size b)).card →
          mergeWin uf.parent_or_size a b = rootOf uf.parent_or_size b ∧
          uf2.parent_or_size.getD (rootOf uf.parent_or_size a) (-1)
            = Int.ofNat (rootOf uf.parent_or_size b)) ∧
        ((classOf uf.parent_or_size (rootOf uf.parent_or_size b)).card
            < (classOf uf.parent_or_size (rootOf uf.parent_or_size a)).card →
          mergeWin uf.parent_or_size a b = rootOf uf.parent_or_size a ∧
          uf2.parent_or_size.getD (rootOf uf.parent_or_size b) (-1)
            = Int.ofNat (rootOf uf.parent_or_size a))) := by
  constructor
  · intro hc
    obtain ⟨uf2, heq, hg, post⟩ := merge_spec_same h.1 ha hb hc
    exact ⟨uf2, heq, hg, post.1, fun y hy => post.rootOf_eq y hy⟩
  · intro hc
    obtain ⟨uf2, heq, hlen, hwf3, hg, hro, hrootch, hwinsz, hother, hloseptr⟩ :=
      merge_spec_diff h.1 ha hb hc
    have hlA : rootOf uf.parent_or_size a < uf.parent_or_size.length := rootOf_lt h.1 ha
    have hlB : rootOf uf.parent_or_size b < uf.parent_or_size.length := rootOf_lt h.1 hb
    have hAmem : rootOf uf.parent_or_size a ∈ rootsIn uf.parent_or_size :=
      mem_rootsIn.mpr ⟨hlA, rootOf_isRoot h.1 ha⟩
    have hBmem : rootOf uf.parent_or_size b ∈ rootsIn uf.parent_or_size :=
      mem_rootsIn.mpr ⟨hlB, rootOf_isRoot h.1 hb⟩
    have hA := h.2.2 _ hAmem
    have hB := h.2.2 _ hBmem
    have hpos : 0 < (rootsIn uf.parent_or_size).card :=
      Finset.card_pos.mpr ⟨_, hAmem⟩
    refine ⟨uf2, heq, ?_, hlen, ?_, ?_, ?_⟩
    · show uf2.group_num + 1 = uf.group_num
      have hgr := h.2.1
      omega
    · rw [hwinsz, hA, hB]
      push_cast
      ring
    · intro hlt
      have hcond : uf.parent_or_size.getD (rootOf uf.parent_or_size a) (-1)
          > uf.parent_or_size.getD (rootOf uf.parent_or_size b) (-1) := by
        rw [hA, hB]
        omega
      have hwi : mergeWin uf.parent_or_size a b = rootOf uf.parent_or_size b := by
        unfold mergeWin
        rw [if_pos hcond]
      have hlo : mergeLose uf.parent_or_size a b = rootOf uf.parent_or_size a := by
        unfold mergeLose
        rw [if_pos hcond]
      refine ⟨hwi, ?_⟩
      rw [← hlo, hloseptr, hwi]
    · intro hlt
      have hcond : ¬(uf.parent_or_size.getD (rootOf uf.parent_or_size a) (-1)
          > uf.parent_or_size.getD (rootOf uf.parent_or_size b) (-1)) := by
        rw [hA, hB]
        omega
      have hwi : mergeWin uf.parent_or_size a b = rootOf uf.parent_or_size a := by
        unfold mergeWin
        rw [if_neg hcond]
      have hlo : mergeLose uf.parent_or_size a b = rootOf uf.parent_or_size b := by
        unfold mergeLose
        rw [if_neg hcond]
      refine ⟨hwi, ?_⟩
      rw [← hlo, hloseptr, hwi]

/-- Closed instance of the merge contract: three singletons `{0} {1} {2}` and
the state `0 → 1 (size 2), 2 (size 1)`, both checked by evaluation. -/
theorem unionFind_merge_contract_witness :
    WFu (⟨[(-1 : Int), -2, 1], 2⟩ : UnionFind) ∧
    0 < (⟨[(-1 : Int), -2, 1], 2⟩ : UnionFind).get_elem_num ∧
    1 < (⟨[(-1 : Int), -2, 1], 2⟩ : UnionFind).get_elem_num ∧
    ((rootOf (⟨[(-1 : Int), -2, 1], 2⟩ : UnionFind).parent_or_size 0
        = rootOf (⟨[(-1 : Int), -2, 1], 2⟩ : UnionFind).parent_or_size 1 →
      ∃ uf2, (⟨[(-1 : Int), -2, 1], 2⟩ : UnionFind).merge 0 1 = some (false, uf2) ∧
        uf2.get_group_num = (⟨[(-1 : Int), -2, 1], 2⟩ : UnionFind).get_group_num ∧
        uf2.get_elem_num = (⟨[(-1 : Int), -2, 1], 2⟩ : UnionFind).get_elem_num ∧
        (∀ y, y < (⟨[(-1 : Int), -2, 1], 2⟩ : UnionFind).get_elem_num →
          rootOf uf2.parent_or_size y
            = rootOf (⟨[(-1 : Int), -2, 1], 2⟩ : UnionFind).parent_or_size y)) ∧
    (rootOf (⟨[(-1 : Int), -2, 1], 2⟩ : UnionFind).parent_or_size 0
        ≠ rootOf (⟨[(-1 : Int), -2, 1], 2⟩ : UnionFind).parent_or_size 1 →
      ∃ uf2, (⟨[(-1 : Int), -2, 1], 2⟩ : UnionFind).merge 0 1 = some (true, uf2) ∧
        uf2.get_group_num + 1 = (⟨[(-1 : Int), -2, 1], 2⟩ : UnionFind).get_group_num ∧
        uf2.get_elem_num = (⟨[(-1 : Int), -2, 1], 2⟩ : UnionFind).get_elem_num ∧
        uf2.parent_or_size.getD
            (mergeWin (⟨[(-1 : Int), -2, 1], 2⟩ : UnionFind).parent_or_size 0 1) (-1)
          = -((((classOf (⟨[(-1 : Int), -2, 1], 2⟩ : UnionFind).parent_or_size
                (rootOf (⟨[(-1 : Int), -2, 1], 2⟩ : UnionFind).parent_or_size 0)).card
              + (classOf (⟨[(-1 : Int), -2, 1], 2⟩ : UnionFind).parent_or_size
                (rootOf (⟨[(-1 : Int), -2, 1], 2⟩ : UnionFind).parent_or_size 1)).card : Nat) : Int)) ∧
        ((classOf (⟨[(-1 : Int), -2, 1], 2⟩ : UnionFind).parent_or_size
              (rootOf (⟨[(-1 : Int), -2, 1], 2⟩ : UnionFind).parent_or_size 0)).card
            < (classOf (⟨[(-1 : Int), -2, 1], 2⟩ : UnionFind).parent_or_size
              (rootOf (⟨[(-1 : Int), -2, 1], 2⟩ : UnionFind).parent_or_size 1)).card →
          mergeWin (⟨[(-1 : Int), -2, 1], 2⟩ : UnionFind).parent_or_size 0 1
            = rootOf (⟨[(-1 : Int), -2, 1], 2⟩ : UnionFind).parent_or_size 1 ∧
          uf2.parent_or_size.getD
              (rootOf (⟨[(-1 : Int), -2, 1], 2⟩ : UnionFind).parent_or_size 0) (-1)
            = Int.ofNat (rootOf (⟨[(-1 : Int), -2, 1], 2⟩ : UnionFind).parent_or_size 1)) ∧
        ((classOf (⟨[(-1 : Int), -2, 1], 2⟩ : UnionFind).parent_or_size
              (rootOf (⟨[(-1 : Int), -2, 1], 2⟩ : UnionFind).parent_or_size 1)).card
            < (classOf (⟨[(-1 : Int), -2, 1], 2⟩ : UnionFind).parent_or_size
              (rootOf (⟨[(-1 : Int), -2, 1], 2⟩ : UnionFind).parent_or_size 0)).card →
          mergeWin (⟨[(-1 : Int), -2, 1], 2⟩ : UnionFind).parent_or_size 0 1
            = rootOf (⟨[(-1 : Int), -2, 1], 2⟩ : UnionFind).parent_or_size 0 ∧
          uf2.parent_or_size.getD
              (rootOf (⟨[(-1 : Int), -2, 1], 2⟩ : UnionFind).parent_or_size 1) (-1)
            = Int.ofNat (rootOf (⟨[(-1 : Int), -2, 1], 2⟩ : UnionFind).parent_or_size 0)))) :=
  ⟨by decide, by decide, by decide,
    unionFind_merge_contract (by decide) (by decide) (by decide)⟩

/-- C9: the representation invariant (class counter equals the number of
roots, every root stores the negated size of its class, every parent chain
reaches a root, and the root sizes sum to the element count) holds of `new`
and is preserved by `leader`, `same`, `merge`, `size` and `add`. -/
theorem unionFind_invariant_preserved :
    (∀ n, WFu (UnionFind.new n)) ∧
    (∀ uf, WFu uf →
      (∀ a, a < uf.get_elem_num → ∃ r, reaches uf.parent_or_size a r) ∧
      uf.get_group_num = (rootsIn uf.parent_or_size).card ∧
      (∀ r ∈ rootsIn uf.parent_or_size,
        uf.parent_or_size.getD r (-1) = -(((classOf uf.parent_or_size r).card : Int))) ∧
      (∑ r ∈ rootsIn uf.parent_or_size, (-(uf.parent_or_size.getD r (-1))).toNat)
        = uf.get_elem_num) ∧
    (∀ uf, WFu uf → WFu uf.add) ∧
    (∀ uf a r uf1, WFu uf → a < uf.get_elem_num →
      uf.leader a = some (r, uf1) → WFu uf1) ∧
    (∀ uf a b r uf1, WFu uf → a < uf.get_elem_num → b < uf.get_elem_num →
      uf.same a b = some (r, uf1) → WFu uf1) ∧
    (∀ uf a b r uf1, WFu uf → a < uf.get_elem_num → b < uf.get_elem_num →
      uf.merge a b = some (r, uf1) → WFu uf1) ∧
    (∀ uf a r uf1, WFu uf → a < uf.get_elem_num →
      uf.size a = some (r, uf1) → WFu uf1) := by
  refine ⟨WFu_new, ?_, fun uf h => WFu_add h, ?_, ?_, ?_, ?_⟩
  · intro uf h
    refine ⟨?_, h.2.1, h.2.2, WFu.sum_sizes h⟩
    intro a ha
    exact ⟨rootOf uf.parent_or_size a, h.1.reaches_rootOf ha⟩
  · intro uf a r uf1 h ha heq
    obtain ⟨uf1x, heqx, hg, post⟩ := leader_spec h.1 ha
    rw [heqx] at heq
    simp only [Option.some.injEq, Prod.mk.injEq] at heq
    rw [← heq.2]
    exact WFu_of_leaderPost h post hg
  · intro uf a b r uf1 h ha hb heq
    obtain ⟨uf1x, heqx, hg, post⟩ := same_spec h.1 ha hb
    rw [heqx] at heq
    simp only [Option.some.injEq, Prod.mk.injEq] at heq
    rw [← heq.2]
    exact WFu_of_leaderPost h post hg
  · intro uf a b r uf1 h ha hb heq
    exact WFu_merge h ha hb heq
  · intro uf a r uf1 h ha heq
    obtain ⟨uf1x, heqx, hg, post⟩ := size_spec h.1 ha
    rw [heqx] at heq
    simp only [Option.some.injEq, Prod.mk.injEq] at heq
    rw [← heq.2]
    exact WFu_of_leaderPost h post hg

/-- Closed instance of the invariant theorem: the invariant of a fresh
two-element structure, and its preservation through `add` and a `merge`. -/
theorem unionFind_invariant_preserved_witness :
    WFu (UnionFind.new 2) ∧
    WFu (UnionFind.new 2).add ∧
    (∀ r uf1, (UnionFind.new 2).merge 0 1 = some (r, uf1) → WFu uf1) :=
  ⟨unionFind_invariant_preserved.1 2,
    unionFind_invariant_preserved.2.2.1 _ (unionFind_invariant_preserved.1 2),
    fun r uf1 heq =>
      unionFind_invariant_preserved.2.2.2.2.2.1 (UnionFind.new 2) 0 1 r uf1
        (unionFind_invariant_preserved.1 2) (by decide) (by decide) heq⟩

/-- C10: the queries `leader`, `same` and `size` keep the partition, the
class count and the element count unchanged (path compression moves only
non-root parent pointers), their values depend only on that preserved data,
and `leader` is idempotent: an immediate second call returns the same
representative. -/
theorem unionFind_queries_preserve_partition {uf : UnionFind}
    (h : WFp uf.parent_or_size) {a b : Nat}
    (ha : a < uf.get_elem_num) (hb : b < uf.get_elem_num) :
    (∃ uf1, uf.leader a = some (rootOf uf.parent_or_size a, uf1) ∧ QueryPres uf uf1 ∧
      ∃ uf2, uf1.leader a = some (rootOf uf.parent_or_size a, uf2) ∧ QueryPres uf uf2) ∧
    (∃ uf1, uf.same a b
        = some (decide (rootOf uf.parent_or_size a = rootOf uf.parent_or_size b), uf1) ∧
      QueryPres uf uf1) ∧
    (∃ uf1, uf.size a
        = some ((-(uf.parent_or_size.getD (rootOf uf.parent_or_size a) (-1))).toNat, uf1) ∧
      QueryPres uf uf1) := by
  refine ⟨?_, ?_, ?_⟩
  · obtain ⟨uf1, heq1, hg1, post1⟩ := leader_spec h ha
    have ha1 : a < uf1.parent_or_size.length := by rw [post1.1]; exact ha
    obtain ⟨uf2, heq2, hg2, post2⟩ := leader_spec post1.2.2.2.2 ha1
    refine ⟨uf1, heq1, queryPres_of_leaderPost post1 hg1, uf2, ?_,
      queryPres_of_leaderPost (leaderPost_trans post1 post2) (by rw [hg2, hg1])⟩
    rw [heq2, post1.rootOf_eq a ha]
  · obtain ⟨uf1, heq1, hg1, post1⟩ := same_spec h ha hb
    exact ⟨uf1, heq1, queryPres_of_leaderPost post1 hg1⟩
  · obtain ⟨uf1, heq1, hg1, post1⟩ := size_spec h ha
    exact ⟨uf1, heq1, queryPres_of_leaderPost post1 hg1⟩

/-- Closed instance of the query-preservation theorem on the forest
`0 → 1 (root, size 2), 2 (root, size 1)`. -/
theorem unionFind_queries_preserve_partition_witness :
    WFp (⟨[(1 : Int), -2, -1], 2⟩ : UnionFind).parent_or_size ∧
    0 < (⟨[(1 : Int), -2, -1], 2⟩ : UnionFind).get_elem_num ∧
    2 < (⟨[(1 : Int), -2, -1], 2⟩ : UnionFind).get_elem_num ∧
    ((∃ uf1, (⟨[(1 : Int), -2, -1], 2⟩ : UnionFind).leader 0
        = some (rootOf (⟨[(1 : Int), -2, -1], 2⟩ : UnionFind).parent_or_size 0, uf1) ∧
      QueryPres (⟨[(1 : Int), -2, -1], 2⟩ : UnionFind) uf1 ∧
      ∃ uf2, uf1.leader 0
          = some (rootOf (⟨[(1 : Int), -2, -1], 2⟩ : UnionFind).parent_or_size 0, uf2) ∧
        QueryPres (⟨[(1 : Int), -2, -1], 2⟩ : UnionFind) uf2) ∧
    (∃ uf1, (⟨[(1 : Int), -2, -1], 2⟩ : UnionFind).same 0 2
        = some (decide (rootOf (⟨[(1 : Int), -2, -1], 2⟩ : UnionFind).parent_or_size 0
            = rootOf (⟨[(1 : Int), -2, -1], 2⟩ : UnionFind).parent_or_size 2), uf1) ∧
      QueryPres (⟨[(1 : Int), -2, -1], 2⟩ : UnionFind) uf1) ∧
    (∃ uf1, (⟨[(1 : Int), -2, -1], 2⟩ : UnionFind).size 0
        = some ((-((⟨[(1 : Int), -2, -1], 2⟩ : UnionFind).parent_or_size.getD
            (rootOf (⟨[(1 : Int), -2, -1], 2⟩ : UnionFind).parent_or_size 0) (-1))).toNat,
          uf1) ∧
      QueryPres (⟨[(1 : Int), -2, -1], 2⟩ : UnionFind) uf1)) :=
  ⟨by decide, by decide, by decide,
    unionFind_queries_preserve_partition (by decide) (by decide) (by decide)⟩

/-- Read a cell of the binary image (out-of-range reads yield `false`; the
embedding only reads in range). -/
def bget (bi : List (List Bool)) (i j : Nat) : Bool := (bi.getD i []).getD j false

/-- Read a cell of a label grid. -/
def lget (g : List (List Int)) (i j : Nat) : Int := (g.getD i []).getD j (-1)

/-- Write a cell of a label grid. -/
def lset (g : List (List Int)) (i j : Nat) (v : Int) : List (List Int) :=
  g.set i ((g.getD i []).set j v)

/-- State of the raster scan: the label grid and the union-find. -/
structure LState where
  labeled : List (List Int)
  uf : UnionFind
deriving DecidableEq

/-- Bounded loop: `loopN f k st` runs `f 0`, …, `f (k-1)` in order, stopping
at the first failure. -/
def loopN {σ : Type} (f : Nat → σ → Option σ) : Nat → σ → Option σ
  | 0, st => some st
  | k + 1, st =>
    match loopN f k st with
    | none => none
    | some st1 => f k st1

/-- `upper_label` of `four_neighborhood_based_labeling` (`lib.rs`, lines
43–48): the north neighbor's label, or `-1` when absent. -/
def upper_label4 (bi : List (List Bool)) (i j : Nat) (g : List (List Int)) : Int :=
  if i > 0 && bget bi (i - 1) j then lget g (i - 1) j else -1

/-- `left_label` of `four_neighborhood_based_labeling` (`lib.rs`, lines
50–55): the west neighbor's label, or `-1` when absent. -/
def left_label4 (bi : List (List Bool)) (i j : Nat) (g : List (List Int)) : Int :=
  if j > 0 && bget bi i (j - 1) then lget g i (j - 1) else -1

/-- Body of the inner loop of `four_neighborhood_based_labeling` for cell
`(i, j)` (`lib.rs`, lines 37–78): reuse the north/west label, merging both
when both are present, or allocate a fresh label. -/
def cell4 (bi : List (List Bool)) (i j : Nat) (st : LState) : Option LState :=
  if !bget bi i j then some st
  else
    if upper_label4 bi i j st.labeled ≠ -1 ∧ left_label4 bi i j st.labeled ≠ -1 then
      match st.uf.merge (upper_label4 bi i j st.labeled).toNat
          (left_label4 bi i j st.labeled).toNat with
      | none => none
      | some (_, uf1) => some ⟨lset st.labeled i j (upper_label4 bi i j st.labeled), uf1⟩
    else if upper_label4 bi i j st.labeled ≠ -1 then
      some ⟨lset st.labeled i j (upper_label4 bi i j st.labeled), st.uf⟩
    else if left_label4 bi i j st.labeled ≠ -1 then
      some ⟨lset st.labeled i j (left_label4 bi i j st.labeled), st.uf⟩
    else
      some ⟨lset st.labeled i j (Int.ofNat st.uf.get_elem_num), st.uf.add⟩

/-- The `for_each` over the remaining present neighbor labels in
`eight_neighborhood_based_labeling`: merge each with the first one. -/
def mergeList (uf : UnionFind) (l0 : Int) : List Int → Option UnionFind
  | [] => some uf
  | x :: xs =>
    match uf.merge l0.toNat x.toNat with
    | none => none
    | some (_, uf1) => mergeList uf1 l0 xs

/-- The array `surrounding_labels` of `eight_neighborhood_based_labeling`
(`lib.rs`, lines 122–151): the labels of the four already-visited neighbors
in the fixed order north-west, north, north-east, west, with `-1` for an
absent (out-of-bounds or background) neighbor. -/
def surrounding_labels8 (bi : List (List Bool)) (w i j : Nat)
    (g : List (List Int)) : List Int :=
  [if i > 0 && j > 0 && bget bi (i - 1) (j - 1) then lget g (i - 1) (j - 1) else -1,
   if i > 0 && bget bi (i - 1) j then lget g (i - 1) j else -1,
   if i > 0 && j < w - 1 && bget bi (i - 1) (j + 1) then lget g (i - 1) (j + 1) else -1,
   if j > 0 && bget bi i (j - 1) then lget g i (j - 1) else -1]

/-- Body of the inner loop of `eight_neighborhood_based_labeling` for cell
`(i, j)` (`lib.rs`, lines 116–171): take the first present label among
north-west, north, north-east, west, merge the rest into it, or allocate a
fresh label. -/
def cell8 (bi : List (List Bool)) (w i j : Nat) (st : LState) : Option LState :=
  if !bget bi i j then some st
  else
    match (surrounding_labels8 bi w i j st.labeled).filter (fun x => x != -1) with
    | [] => some ⟨lset st.labeled i j (Int.ofNat st.uf.get_elem_num), st.uf.add⟩
    | l0 :: rest =>
      match mergeList st.uf l0 rest with
      | none => none
      | some uf1 => some ⟨lset st.labeled i j l0, uf1⟩

/-- State of the canonicalization pass. -/
structure RState where
  labeled : List (List Int)
  uf : UnionFind
  reassignment_labels : List (Option Int)
  label_cnt : Int
deriving DecidableEq

/-- Body of `reassign_labels`' inner loop for cell `(i, j)` (`lib.rs`, lines
211–230): map the cell's provisional label through its representative to the
dense final label, allocating the next one on first contact. -/
def rcell (i j : Nat) (st : RState) : Option RState :=
  if lget st.labeled i j = -1 then some st
  else
    match st.uf.leader (lget st.labeled i j).toNat with
    | none => none
    | some (leader_label, uf1) =>
      if leader_label < st.reassignment_labels.length then
        match st.reassignment_labels.getD leader_label none with
        | some v => some ⟨lset st.labeled i j v, uf1, st.reassignment_labels, st.label_cnt⟩
        | none =>
            some ⟨lset st.labeled i j st.label_cnt, uf1,
              st.reassignment_labels.set leader_label (some st.label_cnt),
              st.label_cnt + 1⟩
      else none

/-- `reassign_labels` (`lib.rs`, lines 190–232). -/
def reassign_labels (labeled : List (List Int)) (uf : UnionFind) :
    Option (List (List Int)) :=
  if labeled.length < 1 then none
  else if (labeled.getD 0 []).length < 1 then none
  else
    match loopN
        (fun i st => loopN (fun j st2 => rcell i j st2) (labeled.getD 0 []).length st)
        labeled.length
        ⟨labeled, uf, List.replicate uf.get_elem_num none, 0⟩ with
    | none => none
    | some st => some st.labeled

/-- `four_neighborhood_based_labeling` (`lib.rs`, lines 21–85).  The
assertion failures and panics of the source are modelled by `none`. -/
def four_neighborhood_based_labeling (bi : List (List Bool)) :
    Option (List (List Int)) :=
  if bi.length < 1 then none
  else if (bi.getD 0 []).length < 1 then none
  else
    match loopN
        (fun i st =>
          if (bi.getD i []).length = (bi.getD 0 []).length then
            loopN (fun j st2 => cell4 bi i j st2) (bi.getD 0 []).length st
          else none)
        bi.length
        ⟨List.replicate bi.length (List.replicate (bi.getD 0 []).length (-1)),
          UnionFind.new 0⟩ with
    | none => none
    | some st => reassign_labels st.labeled st.uf

/-- `eight_neighborhood_based_labeling` (`lib.rs`, lines 100–178). -/
def eight_neighborhood_based_labeling (bi : List (List Bool)) :
    Option (List (List Int)) :=
  if bi.length < 1 then none
  else if (bi.getD 0 []).length < 1 then none
  else
    match loopN
        (fun i st =>
          if (bi.getD i []).length = (bi.getD 0 []).length then
            loopN (fun j st2 => cell8 bi (bi.getD 0 []).length i j st2)
              (bi.getD 0 []).length st
          else none)
        bi.length
        ⟨List.replicate bi.length (List.replicate (bi.getD 0 []).length (-1)),
          UnionFind.new 0⟩ with
    | none => none
    | some st => reassign_labels st.labeled st.uf

/-- The precondition of both labeling operations: at least one row, at least
one column, and all rows of equal length. -/
def Wellformed (bi : List (List Bool)) : Prop :=
  1 ≤ bi.length ∧ 1 ≤ (bi.getD 0 []).length ∧
  ∀ i, i < bi.length → (bi.getD i []).length = (bi.getD 0 []).length

instance (bi : List (List Bool)) : Decidable (Wellformed bi) := by
  unfold Wellformed
  infer_instance

theorem loopN_none_of_fail {σ : Type} (f : Nat → σ → Option σ) (i : Nat)
    (hfail : ∀ st1, f i st1 = none) :
    ∀ k st, i < k → loopN f k st = none := by
  intro k
  induction k with
  | zero =>
      intro st h
      omega
  | succ k ih =>
      intro st h
      simp only [loopN]
      rcases Nat.lt_or_ge i k with hik | hik
      · rw [ih st hik]
      · have hik2 : i = k := by omega
        cases hh : loopN f k st with
        | none => rfl
        | some st1 =>
            rw [← hik2]
            exact hfail st1

/-- C7: on every malformed input (no rows, an empty first row, or a row
whose length differs from row 0's) both labeling operations abort without
returning any grid — `none` models the source's panic, so no partial or
corrupted grid can reach the caller. -/
theorem labeling_fails_on_malformed (bi : List (List Bool)) (h : ¬Wellformed bi) :
    four_neighborhood_based_labeling bi = none ∧
    eight_neighborhood_based_labeling bi = none := by
  by_cases h1 : bi.length < 1
  · constructor
    · unfold four_neighborhood_based_labeling
      rw [if_pos h1]
    · unfold eight_neighborhood_based_labeling
      rw [if_pos h1]
  · by_cases h2 : (bi.getD 0 []).length < 1
    · constructor
      · unfold four_neighborhood_based_labeling
        rw [if_neg h1, if_pos h2]
      · unfold eight_neighborhood_based_labeling
        rw [if_neg h1, if_pos h2]
    · have hbad : ∃ i, i < bi.length ∧ (bi.getD i []).length ≠ (bi.getD 0 []).length := by
        by_contra hno
        push_neg at hno
        exact h ⟨by omega, by omega, hno⟩
      obtain ⟨i, hi, hne⟩ := hbad
      constructor
      · have hf4 : ∀ st1 : LState,
            (if (bi.getD i []).length = (bi.getD 0 []).length then
              loopN (fun j st2 => cell4 bi i j st2) (bi.getD 0 []).length st1
            else none) = none := by
          intro st1
          rw [if_neg hne]
        unfold four_neighborhood_based_labeling
        rw [if_neg h1, if_neg h2, loopN_none_of_fail _ i hf4 bi.length _ hi]
      · have hf8 : ∀ st1 : LState,
            (if (bi.getD i []).length = (bi.getD 0 []).length then
              loopN (fun j st2 => cell8 bi (bi.getD 0 []).length i j st2)
                (bi.getD 0 []).length st1
            else none) = none := by
          intro st1
          rw [if_neg hne]
        unfold eight_neighborhood_based_labeling
        rw [if_neg h1, if_neg h2, loopN_none_of_fail _ i hf8 bi.length _ hi]

/-- Closed instance of the fail-fast theorem on a ragged grid. -/
theorem labeling_fails_on_malformed_witness :
    ¬Wellformed [[true], [true, true]] ∧
    four_neighborhood_based_labeling [[true], [true, true]] = none ∧
    eight_neighborhood_based_labeling [[true], [true, true]] = none :=
  ⟨by decide, labeling_fails_on_malformed [[true], [true, true]] (by decide)⟩

/-- Effect of merging a list of labels into the first one: everything in the
classes of `l0` and of the list collapses to one representative `w`, and no
other class moves. -/
theorem mergeList_spec :
    ∀ (ls : List Int) (uf : UnionFind), WFp uf.parent_or_size →
      ∀ (l0 : Int), l0.toNat < uf.parent_or_size.length →
      (∀ x ∈ ls, x.toNat < uf.parent_or_size.length) →
      ∃ uf1, mergeList uf l0 ls = some uf1 ∧
        uf1.parent_or_size.length = uf.parent_or_size.length ∧
        WFp uf1.parent_or_size ∧
        ∃ w, (w = rootOf uf.parent_or_size l0.toNat
            ∨ ∃ x ∈ ls, w = rootOf uf.parent_or_size x.toNat) ∧
          ∀ y, y < uf.parent_or_size.length →
            rootOf uf1.parent_or_size y =
              if rootOf uf.parent_or_size y = rootOf uf.parent_or_size l0.toNat
                  ∨ ∃ x ∈ ls, rootOf uf.parent_or_size y = rootOf uf.parent_or_size x.toNat
              then w else rootOf uf.parent_or_size y := by
  intro ls
  induction ls with
  | nil =>
      intro uf hw l0 _ _
      refine ⟨uf, rfl, rfl, hw, rootOf uf.parent_or_size l0.toNat, Or.inl rfl, ?_⟩
      intro y _
      by_cases hc : rootOf uf.parent_or_size y = rootOf uf.parent_or_size l0.toNat
          ∨ ∃ x ∈ ([] : List Int),
            rootOf uf.parent_or_size y = rootOf uf.parent_or_size x.toNat
      · rw [if_pos hc]
        rcases hc with hc | ⟨x, hx, _⟩
        · exact hc
        · exact absurd hx (List.not_mem_nil x)
      · rw [if_neg hc]
  | cons x xs ih =>
      intro uf hw l0 h0 hls
      have hx : x.toNat < uf.parent_or_size.length := hls x (List.mem_cons_self x xs)
      obtain ⟨res, uf2, heq2, hlen2, hwf2, w2, hw2or, hro2⟩ := merge_scan hw h0 hx
      have h0' : l0.toNat < uf2.parent_or_size.length := by rw [hlen2]; exact h0
      have hls' : ∀ z ∈ xs, z.toNat < uf2.parent_or_size.length := by
        intro z hz
        rw [hlen2]
        exact hls z (List.mem_cons_of_mem x hz)
      obtain ⟨uf1, heq1, hlen1, hwf1, w1, hw1or, hro1⟩ := ih uf2 hwf2 l0 h0' hls'
      have hro1' : ∀ y, y < uf.parent_or_size.length →
          rootOf uf1.parent_or_size y =
            if rootOf uf2.parent_or_size y = rootOf uf2.parent_or_size l0.toNat
                ∨ ∃ z ∈ xs, rootOf uf2.parent_or_size y = rootOf uf2.parent_or_size z.toNat
            then w1 else rootOf uf2.parent_or_size y := by
        intro y hy
        exact hro1 y (by rw [hlen2]; exact hy)
      -- the representative of l0 after the first merge is the first winner
      have hA : rootOf uf2.parent_or_size l0.toNat = w2 := by
        rw [hro2 l0.toNat h0, if_pos (Or.inl rfl)]
      have hB : ∀ y, y < uf.parent_or_size.length →
          (rootOf uf2.parent_or_size y = rootOf uf2.parent_or_size l0.toNat ↔
            (rootOf uf.parent_or_size y = rootOf uf.parent_or_size l0.toNat
              ∨ rootOf uf.parent_or_size y = rootOf uf.parent_or_size x.toNat)) := by
        intro y hy
        rw [hA, hro2 y hy]
        constructor
        · intro hyw
          by_cases hc : rootOf uf.parent_or_size y = rootOf uf.parent_or_size l0.toNat
              ∨ rootOf uf.parent_or_size y = rootOf uf.parent_or_size x.toNat
          · exact hc
          · rw [if_neg hc] at hyw
            rcases hw2or with hv | hv
            · exact Or.inl (by rw [hyw, hv])
            · exact Or.inr (by rw [hyw, hv])
        · intro hc
          rw [if_pos hc]
      refine ⟨uf1, ?_, by rw [hlen1, hlen2], hwf1, w1, ?_, ?_⟩
      · simp only [mergeList, heq2]
        exact heq1
      · -- the final winner lies among the roots of l0 :: x :: xs
        rcases hw1or with hv | ⟨z, hz, hv⟩
        · rw [hA] at hv
          rcases hw2or with hv2 | hv2
          · exact Or.inl (by rw [hv, hv2])
          · exact Or.inr ⟨x, List.mem_cons_self x xs, by rw [hv, hv2]⟩
        · have hzlt : z.toNat < uf.parent_or_size.length :=
            hls z (List.mem_cons_of_mem x hz)
          rw [hro2 z.toNat hzlt] at hv
          by_cases hc : rootOf uf.parent_or_size z.toNat = rootOf uf.parent_or_size l0.toNat
              ∨ rootOf uf.parent_or_size z.toNat = rootOf uf.parent_or_size x.toNat
          · rw [if_pos hc] at hv
            rcases hw2or with hv2 | hv2
            · exact Or.inl (by rw [hv, hv2])
            · exact Or.inr ⟨x, List.mem_cons_self x xs, by rw [hv, hv2]⟩
          · rw [if_neg hc] at hv
            exact Or.inr ⟨z, List.mem_cons_of_mem x hz, hv⟩
      · intro y hy
        rw [hro1' y hy]
        by_cases hS : rootOf uf.parent_or_size y = rootOf uf.parent_or_size l0.toNat
            ∨ ∃ z ∈ x :: xs,
              rootOf uf.parent_or_size y = rootOf uf.parent_or_size z.toNat
        · rw [if_pos hS]
          -- show the inner condition holds
          by_cases hfirst : rootOf uf.parent_or_size y = rootOf uf.parent_or_size l0.toNat
              ∨ rootOf uf.parent_or_size y = rootOf uf.parent_or_size x.toNat
          · rw [if_pos (Or.inl ((hB y hy).mpr hfirst))]
          · have hz0 : ∃ z ∈ xs,
                rootOf uf.parent_or_size y = rootOf uf.parent_or_size z.toNat := by
              rcases hS with hS | ⟨z, hz, hzeq⟩
              · exact absurd (Or.inl hS) hfirst
              · rcases List.mem_cons.mp hz with rfl | hz2
                · exact absurd (Or.inr hzeq) hfirst
                · exact ⟨z, hz2, hzeq⟩
            obtain ⟨z, hz, hzeq⟩ := hz0
            have hzlt : z.toNat < uf.parent_or_size.length :=
              hls z (List.mem_cons_of_mem x hz)
            have hsame : rootOf uf2.parent_or_size y = rootOf uf2.parent_or_size z.toNat := by
              rw [hro2 y hy, hro2 z.toNat hzlt, hzeq]
            rw [if_pos (Or.inr ⟨z, hz, hsame⟩)]
        · rw [if_neg hS]
          have hfirst : ¬(rootOf uf.parent_or_size y = rootOf uf.parent_or_size l0.toNat
              ∨ rootOf uf.parent_or_size y = rootOf uf.parent_or_size x.toNat) := by
            rintro (hc | hc)
            · exact hS (Or.inl hc)
            · exact hS (Or.inr ⟨x, List.mem_cons_self x xs, hc⟩)
          have hy2 : rootOf uf2.parent_or_size y = rootOf uf.parent_or_size y := by
            rw [hro2 y hy, if_neg hfirst]
          have hcond : ¬(rootOf uf2.parent_or_size y = rootOf uf2.parent_or_size l0.toNat
              ∨ ∃ z ∈ xs,
                rootOf uf2.parent_or_size y = rootOf uf2.parent_or_size z.toNat) := by
            rintro (hc | ⟨z, hz, hc⟩)
            · exact hfirst ((hB y hy).mp hc)
            · have hzlt : z.toNat < uf.parent_or_size.length :=
                hls z (List.mem_cons_of_mem x hz)
              rw [hy2, hro2 z.toNat hzlt] at hc
              by_cases hcz : rootOf uf.parent_or_size z.toNat
                  = rootOf uf.parent_or_size l0.toNat
                  ∨ rootOf uf.parent_or_size z.toNat = rootOf uf.parent_or_size x.toNat
              · rw [if_pos hcz] at hc
                rcases hw2or with hv2 | hv2
                · exact hfirst (Or.inl (by rw [hc, hv2]))
                · exact hfirst (Or.inr (by rw [hc, hv2]))
              · rw [if_neg hcz] at hc
                exact hS (Or.inr ⟨z, List.mem_cons_of_mem x hz, hc⟩)
          rw [if_neg hcond, hy2]

/-- C6: in eight-neighborhood labeling, a foreground cell with at least one
present already-visited neighbor takes the label of the first present one in
the check order north-west, north, north-east, west, and every other present
neighbor's label is merged into that same class (other classes untouched);
with no present neighbor it takes the fresh label `get_elem_num` and `add`
is called. -/
theorem cell8_first_present_neighbor (bi : List (List Bool)) (w i j : Nat)
    (st : LState) (hfg : bget bi i j = true) (hwf : WFp st.uf.parent_or_size)
    (hbound : ∀ x ∈ (surrounding_labels8 bi w i j st.labeled).filter (fun x => x != -1),
      x.toNat < st.uf.get_elem_num) :
    ((surrounding_labels8 bi w i j st.labeled).filter (fun x => x != -1) = [] →
      cell8 bi w i j st
        = some ⟨lset st.labeled i j (Int.ofNat st.uf.get_elem_num), st.uf.add⟩) ∧
    (∀ l0 rest,
      (surrounding_labels8 bi w i j st.labeled).filter (fun x => x != -1) = l0 :: rest →
      ∃ uf1, cell8 bi w i j st = some ⟨lset st.labeled i j l0, uf1⟩ ∧
        uf1.get_elem_num = st.uf.get_elem_num ∧
        WFp uf1.parent_or_size ∧
        (∀ x ∈ l0 :: rest,
          rootOf uf1.parent_or_size x.toNat = rootOf uf1.parent_or_size l0.toNat) ∧
        (∀ y, y < st.uf.get_elem_num →
          (∀ x ∈ l0 :: rest,
            rootOf st.uf.parent_or_size y ≠ rootOf st.uf.parent_or_size x.toNat) →
          rootOf uf1.parent_or_size y = rootOf st.uf.parent_or_size y)) := by
  constructor
  · intro hnil
    simp only [cell8, hfg, Bool.not_true, Bool.false_eq_true, if_false, hnil]
  · intro l0 rest hcons
    have h0 : l0.toNat < st.uf.parent_or_size.length :=
      hbound l0 (by rw [hcons]; exact List.mem_cons_self l0 rest)
    have hrest : ∀ x ∈ rest, x.toNat < st.uf.parent_or_size.length := fun x hx =>
      hbound x (by rw [hcons]; exact List.mem_cons_of_mem l0 hx)
    obtain ⟨uf1, heq1, hlen1, hwf1, w1, hw1or, hro1⟩ :=
      mergeList_spec rest st.uf hwf l0 h0 hrest
    refine ⟨uf1, ?_, hlen1, hwf1, ?_, ?_⟩
    · simp only [cell8, hfg, Bool.not_true, Bool.false_eq_true, if_false, hcons, heq1]
    · intro x hx
      have hxl : x.toNat < st.uf.parent_or_size.length := by
        rcases List.mem_cons.mp hx with rfl | hx2
        · exact h0
        · exact hrest x hx2
      rw [hro1 x.toNat hxl, hro1 l0.toNat h0, if_pos (Or.inl rfl)]
      rcases List.mem_cons.mp hx with rfl | hx2
      · rw [if_pos (Or.inl rfl)]
      · rw [if_pos (Or.inr ⟨x, hx2, rfl⟩)]
    · intro y hy hnone
      rw [hro1 y hy, if_neg ?_]
      rintro (hc | ⟨z, hz, hc⟩)
      · exact hnone l0 (List.mem_cons_self l0 rest) hc
      · exact hnone z (List.mem_cons_of_mem l0 hz) hc

/-- Closed instance of the per-cell eight-neighborhood step: cell `(1,1)` of
a 2×2 image with two present neighbors carrying labels 0 and 1. -/
theorem cell8_first_present_neighbor_witness :
    bget [[true, true], [false, true]] 1 1 = true ∧
    WFp (⟨[[(0 : Int), 1], [-1, -1]], ⟨[-1, -1], 2⟩⟩ : LState).uf.parent_or_size ∧
    (∀ x ∈ (surrounding_labels8 [[true, true], [false, true]] 2 1 1
        (⟨[[(0 : Int), 1], [-1, -1]], ⟨[-1, -1], 2⟩⟩ : LState).labeled).filter
        (fun x => x != -1),
      x.toNat < (⟨[[(0 : Int), 1], [-1, -1]], ⟨[-1, -1], 2⟩⟩ : LState).uf.get_elem_num) ∧
    (∀ l0 rest,
      (surrounding_labels8 [[true, true], [false, true]] 2 1 1
        (⟨[[(0 : Int), 1], [-1, -1]], ⟨[-1, -1], 2⟩⟩ : LState).labeled).filter
        (fun x => x != -1) = l0 :: rest →
      ∃ uf1, cell8 [[true, true], [false, true]] 2 1 1
          (⟨[[(0 : Int), 1], [-1, -1]], ⟨[-1, -1], 2⟩⟩ : LState)
          = some ⟨lset (⟨[[(0 : Int), 1], [-1, -1]], ⟨[-1, -1], 2⟩⟩ : LState).labeled 1 1 l0,
            uf1⟩ ∧
        uf1.get_elem_num
          = (⟨[[(0 : Int), 1], [-1, -1]], ⟨[-1, -1], 2⟩⟩ : LState).uf.get_elem_num ∧
        WFp uf1.parent_or_size ∧
        (∀ x ∈ l0 :: rest,
          rootOf uf1.parent_or_size x.toNat = rootOf uf1.parent_or_size l0.toNat) ∧
        (∀ y, y < (⟨[[(0 : Int), 1], [-1, -1]], ⟨[-1, -1], 2⟩⟩ : LState).uf.get_elem_num →
          (∀ x ∈ l0 :: rest,
            rootOf (⟨[[(0 : Int), 1], [-1, -1]], ⟨[-1, -1], 2⟩⟩ : LState).uf.parent_or_size y
              ≠ rootOf (⟨[[(0 : Int), 1], [-1, -1]],
                  ⟨[-1, -1], 2⟩⟩ : LState).uf.parent_or_size x.toNat) →
          rootOf uf1.parent_or_size y
            = rootOf (⟨[[(0 : Int), 1], [-1, -1]],
                ⟨[-1, -1], 2⟩⟩ : LState).uf.parent_or_size y)) :=
  ⟨by decide, by decide, by decide,
    (cell8_first_present_neighbor [[true, true], [false, true]] 2 1 1
      ⟨[[(0 : Int), 1], [-1, -1]], ⟨[-1, -1], 2⟩⟩
      (by decide) (by decide) (by decide)).2⟩

/-- 4-adjacency on grid coordinates (up/down/left/right). -/
def adj4 (p q : Nat × Nat) : Prop :=
  (p.1 = q.1 ∧ (p.2 + 1 = q.2 ∨ q.2 + 1 = p.2)) ∨
  (p.2 = q.2 ∧ (p.1 + 1 = q.1 ∨ q.1 + 1 = p.1))

/-- 8-adjacency on grid coordinates (4-adjacency plus diagonals). -/
def adj8 (p q : Nat × Nat) : Prop :=
  ¬p = q ∧ (p.1 = q.1 ∨ p.1 + 1 = q.1 ∨ q.1 + 1 = p.1) ∧
  (p.2 = q.2 ∨ p.2 + 1 = q.2 ∨ q.2 + 1 = p.2)

/-- Cell read by coordinate pair. -/
def bgetP (bi : List (List Bool)) (p : Nat × Nat) : Bool := bget bi p.1 p.2

/-- Label read by coordinate pair. -/
def lgetP (g : List (List Int)) (p : Nat × Nat) : Int := lget g p.1 p.2

/-- Reference definition of reachability through foreground cells inside the
region `S`, under the adjacency `adj`: the reflexive-transitive closure of
single adjacent steps between foreground cells of `S`. -/
def connIn (bi : List (List Bool)) (adj : Nat × Nat → Nat × Nat → Prop)
    (S : Nat × Nat → Prop) : Nat × Nat → Nat × Nat → Prop :=
  Relation.ReflTransGen
    (fun p q => S p ∧ S q ∧ bgetP bi p = true ∧ bgetP bi q = true ∧ adj p q)

/-- Reference connectivity over the whole `h × w` grid. -/
def conn (bi : List (List Bool)) (adj : Nat × Nat → Nat × Nat → Prop)
    (h w : Nat) : Nat × Nat → Nat × Nat → Prop :=
  connIn bi adj (fun p => p.1 < h ∧ p.2 < w)

/-- Strict raster-scan (row-major) order. -/
def rasterLt (p q : Nat × Nat) : Prop := p.1 < q.1 ∨ (p.1 = q.1 ∧ p.2 < q.2)

/-- The region processed strictly before reaching cell `(i, j)` in the scan. -/
def Upto (h w i j : Nat) (p : Nat × Nat) : Prop :=
  p.1 < h ∧ p.2 < w ∧ rasterLt p (i, j)

/-- Invariant of the raster scan after processing exactly the cells of the
region `S`: the grid has its final shape, every processed foreground cell
carries an in-range provisional label, everything else is `-1`, every label
id is used somewhere, and two processed foreground cells share a union-find
class exactly when they are connected inside `S`. -/
def ScanInv (bi : List (List Bool)) (adj : Nat × Nat → Nat × Nat → Prop)
    (h w : Nat) (S : Nat × Nat → Prop) (st : LState) : Prop :=
  st.labeled.length = h ∧
  (∀ r ∈ st.labeled, r.length = w) ∧
  WFp st.uf.parent_or_size ∧
  (∀ p, S p → bgetP bi p = true →
    0 ≤ lgetP st.labeled p ∧ (lgetP st.labeled p).toNat < st.uf.get_elem_num) ∧
  (∀ p, ¬(S p ∧ bgetP bi p = true) → lgetP st.labeled p = -1) ∧
  (∀ l, l < st.uf.get_elem_num → ∃ p, S p ∧ bgetP bi p = true ∧
    lgetP st.labeled p = Int.ofNat l) ∧
  (∀ p q, S p → S q → bgetP bi p = true → bgetP bi q = true →
    (rootOf st.uf.parent_or_size (lgetP st.labeled p).toNat
      = rootOf st.uf.parent_or_size (lgetP st.labeled q).toNat
      ↔ connIn bi adj S p q))

theorem adj4_symm {p q : Nat × Nat} (h : adj4 p q) : adj4 q p := by
  unfold adj4 at h ⊢
  omega

theorem adj8_symm {p q : Nat × Nat} (h : adj8 p q) : adj8 q p := by
  unfold adj8 at h ⊢
  obtain ⟨h1, h2⟩ := h
  refine ⟨fun he => h1 ?_, by omega⟩
  obtain ⟨a, b⟩ := p
  obtain ⟨c, d⟩ := q
  simp only [Prod.mk.injEq] at he ⊢
  omega

theorem connIn_mono {bi : List (List Bool)} {adj : Nat × Nat → Nat × Nat → Prop}
    {S T : Nat × Nat → Prop} (hST : ∀ p, S p → T p) {p q : Nat × Nat}
    (h : connIn bi adj S p q) : connIn bi adj T p q := by
  refine Relation.ReflTransGen.mono ?_ h
  rintro x y ⟨h1, h2, h3, h4, h5⟩
  exact ⟨hST x h1, hST y h2, h3, h4, h5⟩

theorem connIn_congr {bi : List (List Bool)} {adj : Nat × Nat → Nat × Nat → Prop}
    {S T : Nat × Nat → Prop} (hST : ∀ p, S p ↔ T p) (p q : Nat × Nat) :
    connIn bi adj S p q ↔ connIn bi adj T p q :=
  ⟨connIn_mono fun r hr => (hST r).mp hr, connIn_mono fun r hr => (hST r).mpr hr⟩

theorem connIn_single {bi : List (List Bool)} {adj : Nat × Nat → Nat × Nat → Prop}
    {S : Nat × Nat → Prop} {p q : Nat × Nat} (h1 : S p) (h2 : S q)
    (h3 : bgetP bi p = true) (h4 : bgetP bi q = true) (h5 : adj p q) :
    connIn bi adj S p q :=
  Relation.ReflTransGen.single ⟨h1, h2, h3, h4, h5⟩

theorem connIn_symm {bi : List (List Bool)} {adj : Nat × Nat → Nat × Nat → Prop}
    (hadj : ∀ p q, adj p q → adj q p) {S : Nat × Nat → Prop} {p q : Nat × Nat}
    (h : connIn bi adj S p q) : connIn bi adj S q p := by
  have hsym : Symmetric fun p q =>
      S p ∧ S q ∧ bgetP bi p = true ∧ bgetP bi q = true ∧ adj p q := by
    rintro x y ⟨h1, h2, h3, h4, h5⟩
    exact ⟨h2, h1, h4, h3, hadj x y h5⟩
  exact (Relation.ReflTransGen.symmetric hsym) h

theorem rtg_lift {α : Type} {r : α → α → Prop} (F : α → Nat)
    (hstep : ∀ x y, r x y → F x = F y) :
    ∀ p q, Relation.ReflTransGen r p q → F p = F q := by
  intro p q h
  induction h with
  | refl => rfl
  | tail _ hr ih => exact ih.trans (hstep _ _ hr)

/-- Adding a background cell to the region changes no connectivity. -/
theorem connIn_insert_bg {bi : List (List Bool)} {adj : Nat × Nat → Nat × Nat → Prop}
    {S S' : Nat × Nat → Prop} {c : Nat × Nat} (hc : bgetP bi c = false)
    (hS' : ∀ p, S' p ↔ S p ∨ p = c) (p q : Nat × Nat) :
    connIn bi adj S' p q ↔ connIn bi adj S p q := by
  constructor
  · refine Relation.ReflTransGen.mono ?_
    rintro x y ⟨h1, h2, h3, h4, h5⟩
    have hx : S x := by
      rcases (hS' x).mp h1 with hx | rfl
      · exact hx
      · rw [hc] at h3
        exact absurd h3 (by simp)
    have hy : S y := by
      rcases (hS' y).mp h2 with hy | rfl
      · exact hy
      · rw [hc] at h4
        exact absurd h4 (by simp)
    exact ⟨hx, hy, h3, h4, h5⟩
  · exact connIn_mono fun r hr => (hS' r).mpr (Or.inl hr)

theorem upto_not_self (h w i j : Nat) : ¬Upto h w i j (i, j) := by
  unfold Upto rasterLt
  omega

theorem upto_step {h w i j : Nat} (hi : i < h) (hj : j < w) (p : Nat × Nat) :
    Upto h w i (j + 1) p ↔ Upto h w i j p ∨ p = (i, j) := by
  obtain ⟨a, b⟩ := p
  unfold Upto rasterLt
  simp only [Prod.mk.injEq]
  omega

theorem upto_row_end {h w i : Nat} (p : Nat × Nat) :
    Upto h w i w p ↔ Upto h w (i + 1) 0 p := by
  obtain ⟨a, b⟩ := p
  unfold Upto rasterLt
  omega

theorem upto_full {h w : Nat} (p : Nat × Nat) :
    Upto h w h 0 p ↔ (p.1 < h ∧ p.2 < w) := by
  obtain ⟨a, b⟩ := p
  unfold Upto rasterLt
  omega

theorem upto_adj4_cases {h w i j : Nat} {x : Nat × Nat}
    (hx : Upto h w i j x) (hadj : adj4 x (i, j)) :
    (x.1 + 1 = i ∧ x.2 = j) ∨ (x.1 = i ∧ x.2 + 1 = j) := by
  obtain ⟨a, b⟩ := x
  unfold Upto rasterLt at hx
  unfold adj4 at hadj
  simp only at hx hadj ⊢
  omega

theorem upto_adj8_cases {h w i j : Nat} {x : Nat × Nat}
    (hx : Upto h w i j x) (hadj : adj8 x (i, j)) :
    (x.1 + 1 = i ∧ x.2 + 1 = j) ∨ (x.1 + 1 = i ∧ x.2 = j) ∨
    (x.1 + 1 = i ∧ x.2 = j + 1) ∨ (x.1 = i ∧ x.2 + 1 = j) := by
  obtain ⟨a, b⟩ := x
  unfold Upto rasterLt at hx
  unfold adj8 at hadj
  obtain ⟨hne, h2, h3⟩ := hadj
  simp only at hx h2 h3 ⊢
  simp only [Prod.mk.injEq] at hne
  omega

theorem getD_mem_of_lt {α : Type} (g : List α) (i : Nat) (d : α)
    (h : i < g.length) : g.getD i d ∈ g := by
  have he : g.getD i d = g[i] := by
    simp [List.getD, List.getElem?_eq_getElem h]
  rw [he]
  exact List.getElem_mem h

theorem lset_length (g : List (List Int)) (i j : Nat) (v : Int) :
    (lset g i j v).length = g.length := List.length_set g i _

theorem lset_rows {g : List (List Int)} {w : Nat} (hrows : ∀ r ∈ g, r.length = w)
    {i : Nat} (j : Nat) (v : Int) (hi : i < g.length) :
    ∀ r ∈ lset g i j v, r.length = w := by
  intro r hr
  rcases List.mem_or_eq_of_mem_set hr with hmem | rfl
  · exact hrows r hmem
  · rw [List.length_set]
    exact hrows _ (getD_mem_of_lt g i [] hi)

theorem lget_lset_self {g : List (List Int)} {w : Nat}
    (hrows : ∀ r ∈ g, r.length = w) {i j : Nat} (v : Int)
    (hi : i < g.length) (hj : j < w) : lget (lset g i j v) i j = v := by
  unfold lget lset
  rw [getD_set_self _ _ hi, getD_set_self]
  rw [hrows _ (getD_mem_of_lt g i [] hi)]
  exact hj

theorem lget_lset_ne {g : List (List Int)} {i j i' j' : Nat} (v : Int)
    (hne : ¬(i' = i ∧ j' = j)) : lget (lset g i j v) i' j' = lget g i' j' := by
  unfold lget lset
  by_cases hii : i' = i
  · subst hii
    have hjj : j' ≠ j := fun hc => hne ⟨rfl, hc⟩
    by_cases hi : i' < g.length
    · rw [getD_set_self _ _ hi, getD_set_ne _ _ (fun hc => hjj hc.symm)]
    · have hnoop : g.set i' ((g.getD i' []).set j v) = g :=
        List.set_eq_of_length_le (by omega)
      rw [hnoop]
  · rw [getD_set_ne _ _ (fun hc => hii hc.symm)]

theorem lgetP_lset_self {g : List (List Int)} {w : Nat}
    (hrows : ∀ r ∈ g, r.length = w) {i j : Nat} (v : Int)
    (hi : i < g.length) (hj : j < w) : lgetP (lset g i j v) (i, j) = v :=
  lget_lset_self hrows v hi hj

theorem lgetP_lset_ne {g : List (List Int)} {i j : Nat} {p : Nat × Nat} (v : Int)
    (hne : p ≠ (i, j)) : lgetP (lset g i j v) p = lgetP g p := by
  unfold lgetP
  apply lget_lset_ne
  rintro ⟨h1, h2⟩
  exact hne (by rw [Prod.ext_iff]; exact ⟨h1, h2⟩)

theorem WFp_concat {pos : List Int} (hw : WFp pos) : WFp (pos ++ [(-1 : Int)]) := by
  have hlen : (pos ++ [(-1 : Int)]).length = pos.length + 1 := by simp
  have hE : ∀ z, z < pos.length →
      (pos ++ [(-1 : Int)]).getD z (-1) = pos.getD z (-1) :=
    fun z hz => getD_append_left2 (-1) hz
  have hrootN : isRoot (pos ++ [(-1 : Int)]) pos.length := by
    unfold isRoot
    rw [getD_concat_self]
    omega
  apply WFp_of_reaches
  · intro a ha hnr
    rw [hlen] at ha ⊢
    rcases Nat.lt_or_ge a pos.length with hlt | hge
    · have hnr0 : ¬isRoot pos a := fun hh => hnr ((isRoot_congr (hE a hlt)).mpr hh)
      rw [parentOf_congr (hE a hlt)]
      have := hw.1 a hlt hnr0
      omega
    · have hae : a = pos.length := by omega
      exact absurd (hae ▸ hrootN) hnr
  · intro a ha
    rw [hlen] at ha
    rcases Nat.lt_or_ge a pos.length with hlt | hge
    · exact ⟨rootOf pos a, reaches_append hw.1 a _ hlt (hw.reaches_rootOf hlt)⟩
    · have hae : a = pos.length := by omega
      rw [hae]
      exact ⟨pos.length, 0, rfl, hrootN⟩

theorem rootOf_concat {pos : List Int} (hw : WFp pos) {a : Nat}
    (ha : a < pos.length) : rootOf (pos ++ [(-1 : Int)]) a = rootOf pos a := by
  have ha' : a < (pos ++ [(-1 : Int)]).length := by simp; omega
  exact reaches_rootOf_eq (WFp_concat hw) ha'
    (reaches_append hw.1 a _ ha (hw.reaches_rootOf ha))

theorem rootOf_concat_last (pos : List Int) :
    rootOf (pos ++ [(-1 : Int)]) pos.length = pos.length := by
  apply rootOf_root
  unfold isRoot
  rw [getD_concat_self]
  omega

/-- Routine part of the scan-step: writing an in-range label `v` at the
foreground cell `(i, j)` keeps the shape, the label-range, the background
and the label-surjectivity components of the invariant. -/
theorem scaninv_frame {bi : List (List Bool)} {adj : Nat × Nat → Nat × Nat → Prop}
    {h w i j : Nat} {st : LState}
    (hi : i < h) (hj : j < w) (hfg : bget bi i j = true)
    (hinv : ScanInv bi adj h w (Upto h w i j) st)
    (v : Int) (uf' : UnionFind)
    (hv0 : 0 ≤ v) (hvlt : v.toNat < uf'.get_elem_num)
    (hn : st.uf.get_elem_num ≤ uf'.get_elem_num)
    (hnew : ∀ lz, lz < uf'.get_elem_num → lz < st.uf.get_elem_num ∨ Int.ofNat lz = v) :
    (lset st.labeled i j v).length = h ∧
    (∀ r ∈ lset st.labeled i j v, r.length = w) ∧
    (∀ p, Upto h w i (j + 1) p → bgetP bi p = true →
      0 ≤ lgetP (lset st.labeled i j v) p ∧
      (lgetP (lset st.labeled i j v) p).toNat < uf'.get_elem_num) ∧
    (∀ p, ¬(Upto h w i (j + 1) p ∧ bgetP bi p = true) →
      lgetP (lset st.labeled i j v) p = -1) ∧
    (∀ lz, lz < uf'.get_elem_num → ∃ p, Upto h w i (j + 1) p ∧ bgetP bi p = true ∧
      lgetP (lset st.labeled i j v) p = Int.ofNat lz) := by
  obtain ⟨hlen, hrows, _, hlab, hbg, hsurj, _⟩ := hinv
  have hS' : ∀ p, Upto h w i (j + 1) p ↔ Upto h w i j p ∨ p = (i, j) := upto_step hi hj
  have hcS : ¬Upto h w i j (i, j) := upto_not_self h w i j
  have hcS2 : Upto h w i (j + 1) (i, j) := (hS' (i, j)).mpr (Or.inr rfl)
  have hfgP : bgetP bi (i, j) = true := hfg
  have hilen : i < st.labeled.length := by rw [hlen]; exact hi
  have hself : lgetP (lset st.labeled i j v) (i, j) = v := lgetP_lset_self hrows v hilen hj
  refine ⟨by rw [lset_length, hlen], lset_rows hrows j v hilen, ?_, ?_, ?_⟩
  · intro p hp hfgp
    rcases (hS' p).mp hp with hp0 | rfl
    · have hpc : p ≠ (i, j) := fun he => hcS (he ▸ hp0)
      rw [lgetP_lset_ne v hpc]
      obtain ⟨ha, hb⟩ := hlab p hp0 hfgp
      exact ⟨ha, by omega⟩
    · rw [hself]
      exact ⟨hv0, hvlt⟩
  · intro p hnp
    have hpc : p ≠ (i, j) := fun he => hnp (he ▸ ⟨hcS2, hfgP⟩)
    rw [lgetP_lset_ne v hpc]
    apply hbg
    rintro ⟨h1, h2⟩
    exact hnp ⟨(hS' p).mpr (Or.inl h1), h2⟩
  · intro lz hlz
    rcases hnew lz hlz with hold | hnewv
    · obtain ⟨p, hp, hfgp, hlp⟩ := hsurj lz hold
      have hpc : p ≠ (i, j) := fun he => hcS (he ▸ hp)
      exact ⟨p, (hS' p).mpr (Or.inl hp), hfgp, by rw [lgetP_lset_ne v hpc]; exact hlp⟩
    · exact ⟨(i, j), hcS2, hfgP, by rw [hself, hnewv]⟩

/-- One step of the four-neighborhood scan: processing cell `(i, j)` always
succeeds and carries the invariant from the region before `(i, j)` to the
region including it. -/
theorem cell4_step {bi : List (List Bool)} {h w i j : Nat} {st : LState}
    (hi : i < h) (hj : j < w)
    (hinv : ScanInv bi adj4 h w (Upto h w i j) st) :
    ∃ st', cell4 bi i j st = some st' ∧
      ScanInv bi adj4 h w (Upto h w i (j + 1)) st' := by
  have hinv0 := hinv
  obtain ⟨hlen, hrows, hwf, hlab, hbg, hsurj, hpart⟩ := hinv0
  have hS' : ∀ p, Upto h w i (j + 1) p ↔ Upto h w i j p ∨ p = (i, j) := upto_step hi hj
  have hcS : ¬Upto h w i j (i, j) := upto_not_self h w i j
  have hcS2 : Upto h w i (j + 1) (i, j) := (hS' (i, j)).mpr (Or.inr rfl)
  by_cases hfg : bget bi i j = true
  · -- foreground cell
    have hfgP : bgetP bi (i, j) = true := hfg
    have hNmem : 0 < i → Upto h w i j (i - 1, j) := by
      intro h0
      exact ⟨show i - 1 < h by omega, show j < w from hj, Or.inl (show i - 1 < i by omega)⟩
    have hWmem : 0 < j → Upto h w i j (i, j - 1) := by
      intro h0
      exact ⟨show i < h from hi, show j - 1 < w by omega,
        Or.inr ⟨rfl, show j - 1 < j by omega⟩⟩
    have hu_pres : upper_label4 bi i j st.labeled ≠ -1 ↔
        (0 < i ∧ bget bi (i - 1) j = true) := by
      unfold upper_label4
      by_cases hg : (i > 0 && bget bi (i - 1) j) = true
      · rw [if_pos hg]
        simp only [Bool.and_eq_true, decide_eq_true_eq] at hg
        have h01 : 0 ≤ lget st.labeled (i - 1) j :=
          (hlab (i - 1, j) (hNmem hg.1) hg.2).1
        exact ⟨fun _ => hg, fun _ => by omega⟩
      · rw [if_neg hg]
        simp only [Bool.and_eq_true, decide_eq_true_eq] at hg
        exact ⟨fun hc => absurd rfl hc, fun hc => absurd hc hg⟩
    have hl_pres : left_label4 bi i j st.labeled ≠ -1 ↔
        (0 < j ∧ bget bi i (j - 1) = true) := by
      unfold left_label4
      by_cases hg : (j > 0 && bget bi i (j - 1)) = true
      · rw [if_pos hg]
        simp only [Bool.and_eq_true, decide_eq_true_eq] at hg
        have h01 : 0 ≤ lget st.labeled i (j - 1) :=
          (hlab (i, j - 1) (hWmem hg.1) hg.2).1
        exact ⟨fun _ => hg, fun _ => by omega⟩
      · rw [if_neg hg]
        simp only [Bool.and_eq_true, decide_eq_true_eq] at hg
        exact ⟨fun hc => absurd rfl hc, fun hc => absurd hc hg⟩
    have hSadj : ∀ x, Upto h w i j x → bgetP bi x = true → adj4 x (i, j) →
        (0 < i ∧ bget bi (i - 1) j = true ∧ x = (i - 1, j)) ∨
        (0 < j ∧ bget bi i (j - 1) = true ∧ x = (i, j - 1)) := by
      intro x hx hfgx hadjx
      rcases upto_adj4_cases hx hadjx with ⟨h1, h2⟩ | ⟨h1, h2⟩
      · left
        have hxe : x = (i - 1, j) := by
          obtain ⟨a, b⟩ := x
          simp only at h1 h2
          simp only [Prod.mk.injEq]
          omega
        refine ⟨by omega, ?_, hxe⟩
        rw [hxe] at hfgx
        exact hfgx
      · right
        have hxe : x = (i, j - 1) := by
          obtain ⟨a, b⟩ := x
          simp only at h1 h2
          simp only [Prod.mk.injEq]
          omega
        refine ⟨by omega, ?_, hxe⟩
        rw [hxe] at hfgx
        exact hfgx
    have hilen : i < st.labeled.length := by rw [hlen]; exact hi
    by_cases hup : upper_label4 bi i j st.labeled ≠ -1
    · have hpresN := hu_pres.mp hup
      have h0i : 0 < i := hpresN.1
      have hfgN : bget bi (i - 1) j = true := hpresN.2
      have hgN : (i > 0 && bget bi (i - 1) j) = true := by simp [h0i, hfgN]
      have hNS : Upto h w i j (i - 1, j) := hNmem h0i
      have hlabN : lgetP st.labeled (i - 1, j) = upper_label4 bi i j st.labeled := by
        unfold upper_label4
        rw [if_pos hgN]
        rfl
      have hub : 0 ≤ upper_label4 bi i j st.labeled ∧
          (upper_label4 bi i j st.labeled).toNat < st.uf.get_elem_num := by
        rw [← hlabN]
        exact hlab (i - 1, j) hNS hfgN
      have hadjN : adj4 (i - 1, j) (i, j) := by
        unfold adj4
        exact Or.inr ⟨rfl, Or.inl (show i - 1 + 1 = i by omega)⟩
      by_cases hlp : left_label4 bi i j st.labeled ≠ -1
      · -- both neighbors present: label from north, merge north with west
        have hpresW := hl_pres.mp hlp
        have h0j : 0 < j := hpresW.1
        have hfgW : bget bi i (j - 1) = true := hpresW.2
        have hgW : (j > 0 && bget bi i (j - 1)) = true := by simp [h0j, hfgW]
        have hWS : Upto h w i j (i, j - 1) := hWmem h0j
        have hlabW : lgetP st.labeled (i, j - 1) = left_label4 bi i j st.labeled := by
          unfold left_label4
          rw [if_pos hgW]
          rfl
        have hlb : 0 ≤ left_label4 bi i j st.labeled ∧
            (left_label4 bi i j st.labeled).toNat < st.uf.get_elem_num := by
          rw [← hlabW]
          exact hlab (i, j - 1) hWS hfgW
        have hadjW : adj4 (i, j - 1) (i, j) := by
          unfold adj4
          exact Or.inl ⟨rfl, Or.inl (show j - 1 + 1 = j by omega)⟩
        obtain ⟨res, uf3, heqm, hlen3, hwf3, wst, hwor, hro3⟩ := merge_scan hwf hub.2 hlb.2
        have hn3 : uf3.get_elem_num = st.uf.get_elem_num := hlen3
        obtain ⟨f1, f2, f3, f4, f5⟩ := scaninv_frame hi hj hfg
          ⟨hlen, hrows, hwf, hlab, hbg, hsurj, hpart⟩
          (upper_label4 bi i j st.labeled) uf3 hub.1 (by omega) (by omega)
          (fun lz hlz => Or.inl (by omega))
        have hvc : lgetP (lset st.labeled i j (upper_label4 bi i j st.labeled)) (i, j)
            = upper_label4 bi i j st.labeled :=
          lgetP_lset_self hrows _ hilen hj
        have hconn_to_c : ∀ z, Upto h w i j z → bgetP bi z = true →
            (rootOf st.uf.parent_or_size (lgetP st.labeled z).toNat
                = rootOf st.uf.parent_or_size (upper_label4 bi i j st.labeled).toNat ∨
             rootOf st.uf.parent_or_size (lgetP st.labeled z).toNat
                = rootOf st.uf.parent_or_size (left_label4 bi i j st.labeled).toNat) →
            connIn bi adj4 (Upto h w i (j + 1)) z (i, j) := by
          intro z hz hfgz hor
          rcases hor with hcase | hcase
          · have hzN : connIn bi adj4 (Upto h w i j) z (i - 1, j) := by
              apply (hpart z (i - 1, j) hz hNS hfgz hfgN).mp
              rw [hlabN]
              exact hcase
            exact Relation.ReflTransGen.tail
              (connIn_mono (fun r hr => (hS' r).mpr (Or.inl hr)) hzN)
              ⟨(hS' _).mpr (Or.inl hNS), hcS2, hfgN, hfgP, hadjN⟩
          · have hzW : connIn bi adj4 (Upto h w i j) z (i, j - 1) := by
              apply (hpart z (i, j - 1) hz hWS hfgz hfgW).mp
              rw [hlabW]
              exact hcase
            exact Relation.ReflTransGen.tail
              (connIn_mono (fun r hr => (hS' r).mpr (Or.inl hr)) hzW)
              ⟨(hS' _).mpr (Or.inl hWS), hcS2, hfgW, hfgP, hadjW⟩
        refine ⟨⟨lset st.labeled i j (upper_label4 bi i j st.labeled), uf3⟩, ?_,
          f1, f2, hwf3, f3, f4, f5, ?_⟩
        · simp only [cell4, hfg, Bool.not_true, Bool.false_eq_true, if_false]
          rw [if_pos ⟨hup, hlp⟩, heqm]
        · intro p q hp hq hfp hfq
          constructor
          · intro hFeq
            by_cases hpc : p = (i, j)
            · by_cases hqc : q = (i, j)
              · rw [hpc, hqc]
                exact Relation.ReflTransGen.refl
              · have hq0 : Upto h w i j q := by
                  rcases (hS' q).mp hq with hq0 | hqe
                  · exact hq0
                  · exact absurd hqe hqc
                rw [hpc] at hFeq
                rw [hvc, lgetP_lset_ne _ hqc, hro3 _ hub.2,
                  hro3 _ (hlab q hq0 hfq).2, if_pos (Or.inl rfl)] at hFeq
                by_cases hcq : rootOf st.uf.parent_or_size (lgetP st.labeled q).toNat
                    = rootOf st.uf.parent_or_size (upper_label4 bi i j st.labeled).toNat ∨
                    rootOf st.uf.parent_or_size (lgetP st.labeled q).toNat
                    = rootOf st.uf.parent_or_size (left_label4 bi i j st.labeled).toNat
                · rw [hpc]
                  exact connIn_symm (fun a b hab => adj4_symm hab)
                    (hconn_to_c q hq0 hfq hcq)
                · rw [if_neg hcq] at hFeq
                  rcases hwor with hw1 | hw1
                  · exact absurd (Or.inl (hFeq.symm.trans hw1)) hcq
                  · exact absurd (Or.inr (hFeq.symm.trans hw1)) hcq
            · by_cases hqc : q = (i, j)
              · have hp0 : Upto h w i j p := by
                  rcases (hS' p).mp hp with hp0 | hpe
                  · exact hp0
                  · exact absurd hpe hpc
                rw [hqc] at hFeq
                rw [hvc, lgetP_lset_ne _ hpc, hro3 _ hub.2,
                  hro3 _ (hlab p hp0 hfp).2, if_pos (Or.inl rfl)] at hFeq
                by_cases hcp : rootOf st.uf.parent_or_size (lgetP st.labeled p).toNat
                    = rootOf st.uf.parent_or_size (upper_label4 bi i j st.labeled).toNat ∨
                    rootOf st.uf.parent_or_size (lgetP st.labeled p).toNat
                    = rootOf st.uf.parent_or_size (left_label4 bi i j st.labeled).toNat
                · rw [hqc]
                  exact hconn_to_c p hp0 hfp hcp
                · rw [if_neg hcp] at hFeq
                  rcases hwor with hw1 | hw1
                  · exact absurd (Or.inl (hFeq.trans hw1)) hcp
                  · exact absurd (Or.inr (hFeq.trans hw1)) hcp
              · have hp0 : Upto h w i j p := by
                  rcases (hS' p).mp hp with hp0 | hpe
                  · exact hp0
                  · exact absurd hpe hpc
                have hq0 : Upto h w i j q := by
                  rcases (hS' q).mp hq with hq0 | hqe
                  · exact hq0
                  · exact absurd hqe hqc
                rw [lgetP_lset_ne _ hpc, lgetP_lset_ne _ hqc,
                  hro3 _ (hlab p hp0 hfp).2, hro3 _ (hlab q hq0 hfq).2] at hFeq
                by_cases hcp : rootOf st.uf.parent_or_size (lgetP st.labeled p).toNat
                    = rootOf st.uf.parent_or_size (upper_label4 bi i j st.labeled).toNat ∨
                    rootOf st.uf.parent_or_size (lgetP st.labeled p).toNat
                    = rootOf st.uf.parent_or_size (left_label4 bi i j st.labeled).toNat
                · by_cases hcq : rootOf st.uf.parent_or_size (lgetP st.labeled q).toNat
                      = rootOf st.uf.parent_or_size (upper_label4 bi i j st.labeled).toNat ∨
                      rootOf st.uf.parent_or_size (lgetP st.labeled q).toNat
                      = rootOf st.uf.parent_or_size (left_label4 bi i j st.labeled).toNat
                  · exact Relation.ReflTransGen.trans (hconn_to_c p hp0 hfp hcp)
                      (connIn_symm (fun a b hab => adj4_symm hab)
                        (hconn_to_c q hq0 hfq hcq))
                  · rw [if_pos hcp, if_neg hcq] at hFeq
                    rcases hwor with hw1 | hw1
                    · exact absurd (Or.inl (hFeq.symm.trans hw1)) hcq
                    · exact absurd (Or.inr (hFeq.symm.trans hw1)) hcq
                · by_cases hcq : rootOf st.uf.parent_or_size (lgetP st.labeled q).toNat
                      = rootOf st.uf.parent_or_size (upper_label4 bi i j st.labeled).toNat ∨
                      rootOf st.uf.parent_or_size (lgetP st.labeled q).toNat
                      = rootOf st.uf.parent_or_size (left_label4 bi i j st.labeled).toNat
                  · rw [if_neg hcp, if_pos hcq] at hFeq
                    rcases hwor with hw1 | hw1
                    · exact absurd (Or.inl (hFeq.trans hw1)) hcp
                    · exact absurd (Or.inr (hFeq.trans hw1)) hcp
                  · rw [if_neg hcp, if_neg hcq] at hFeq
                    exact connIn_mono (fun r hr => (hS' r).mpr (Or.inl hr))
                      ((hpart p q hp0 hq0 hfp hfq).mp hFeq)
          · intro hconn
            refine rtg_lift
              (fun z => rootOf uf3.parent_or_size
                (lgetP (lset st.labeled i j (upper_label4 bi i j st.labeled)) z).toNat)
              ?_ p q hconn
            rintro x y ⟨hx, hy, hfgx, hfgy, hadjxy⟩
            beta_reduce
            by_cases hxc : x = (i, j)
            · by_cases hyc : y = (i, j)
              · rw [hxc, hyc]
              · have hy0 : Upto h w i j y := by
                  rcases (hS' y).mp hy with hy0 | hye
                  · exact hy0
                  · exact absurd hye hyc
                have hadjyc : adj4 y (i, j) := by
                  rw [hxc] at hadjxy
                  exact adj4_symm hadjxy
                rw [hxc, hvc, lgetP_lset_ne _ hyc]
                rcases hSadj y hy0 hfgy hadjyc with ⟨_, _, hye⟩ | ⟨_, _, hye⟩
                · rw [hye, hlabN]
                · rw [hye, hlabW, hro3 _ hub.2, hro3 _ hlb.2,
                    if_pos (Or.inl rfl), if_pos (Or.inr rfl)]
            · by_cases hyc : y = (i, j)
              · have hx0 : Upto h w i j x := by
                  rcases (hS' x).mp hx with hx0 | hxe
                  · exact hx0
                  · exact absurd hxe hxc
                have hadjxc : adj4 x (i, j) := by
                  rw [hyc] at hadjxy
                  exact hadjxy
                rw [hyc, hvc, lgetP_lset_ne _ hxc]
                rcases hSadj x hx0 hfgx hadjxc with ⟨_, _, hxe⟩ | ⟨_, _, hxe⟩
                · rw [hxe, hlabN]
                · rw [hxe, hlabW, hro3 _ hub.2, hro3 _ hlb.2,
                    if_pos (Or.inl rfl), if_pos (Or.inr rfl)]
              · have hx0 : Upto h w i j x := by
                  rcases (hS' x).mp hx with hx0 | hxe
                  · exact hx0
                  · exact absurd hxe hxc
                have hy0 : Upto h w i j y := by
                  rcases (hS' y).mp hy with hy0 | hye
                  · exact hy0
                  · exact absurd hye hyc
                have hre := (hpart x y hx0 hy0 hfgx hfgy).mpr
                  (connIn_single hx0 hy0 hfgx hfgy hadjxy)
                rw [lgetP_lset_ne _ hxc, lgetP_lset_ne _ hyc,
                  hro3 _ (hlab x hx0 hfgx).2, hro3 _ (hlab y hy0 hfgy).2, hre]
      · -- only the north neighbor is present
        obtain ⟨f1, f2, f3, f4, f5⟩ := scaninv_frame hi hj hfg
          ⟨hlen, hrows, hwf, hlab, hbg, hsurj, hpart⟩
          (upper_label4 bi i j st.labeled) st.uf hub.1 hub.2 (Nat.le_refl _)
          (fun lz hlz => Or.inl hlz)
        have hvc : lgetP (lset st.labeled i j (upper_label4 bi i j st.labeled)) (i, j)
            = upper_label4 bi i j st.labeled :=
          lgetP_lset_self hrows _ hilen hj
        have hnotW : ¬(0 < j ∧ bget bi i (j - 1) = true) := fun hc => hlp (hl_pres.mpr hc)
        have hconn_to_c : ∀ z, Upto h w i j z → bgetP bi z = true →
            rootOf st.uf.parent_or_size (lgetP st.labeled z).toNat
              = rootOf st.uf.parent_or_size (upper_label4 bi i j st.labeled).toNat →
            connIn bi adj4 (Upto h w i (j + 1)) z (i, j) := by
          intro z hz hfgz hcase
          have hzN : connIn bi adj4 (Upto h w i j) z (i - 1, j) := by
            apply (hpart z (i - 1, j) hz hNS hfgz hfgN).mp
            rw [hlabN]
            exact hcase
          exact Relation.ReflTransGen.tail
            (connIn_mono (fun r hr => (hS' r).mpr (Or.inl hr)) hzN)
            ⟨(hS' _).mpr (Or.inl hNS), hcS2, hfgN, hfgP, hadjN⟩
        refine ⟨⟨lset st.labeled i j (upper_label4 bi i j st.labeled), st.uf⟩, ?_,
          f1, f2, hwf, f3, f4, f5, ?_⟩
        · simp only [cell4, hfg, Bool.not_true, Bool.false_eq_true, if_false]
          rw [if_neg (fun hand => hlp hand.2), if_pos hup]
        · intro p q hp hq hfp hfq
          constructor
          · intro hFeq
            by_cases hpc : p = (i, j)
            · by_cases hqc : q = (i, j)
              · rw [hpc, hqc]
                exact Relation.ReflTransGen.refl
              · have hq0 : Upto h w i j q := by
                  rcases (hS' q).mp hq with hq0 | hqe
                  · exact hq0
                  · exact absurd hqe hqc
                rw [hpc, hvc, lgetP_lset_ne _ hqc] at hFeq
                rw [hpc]
                exact connIn_symm (fun a b hab => adj4_symm hab)
                  (hconn_to_c q hq0 hfq hFeq.symm)
            · by_cases hqc : q = (i, j)
              · have hp0 : Upto h w i j p := by
                  rcases (hS' p).mp hp with hp0 | hpe
                  · exact hp0
                  · exact absurd hpe hpc
                rw [hqc, hvc, lgetP_lset_ne _ hpc] at hFeq
                rw [hqc]
                exact hconn_to_c p hp0 hfp hFeq
              · have hp0 : Upto h w i j p := by
                  rcases (hS' p).mp hp with hp0 | hpe
                  · exact hp0
                  · exact absurd hpe hpc
                have hq0 : Upto h w i j q := by
                  rcases (hS' q).mp hq with hq0 | hqe
                  · exact hq0
                  · exact absurd hqe hqc
                rw [lgetP_lset_ne _ hpc, lgetP_lset_ne _ hqc] at hFeq
                exact connIn_mono (fun r hr => (hS' r).mpr (Or.inl hr))
                  ((hpart p q hp0 hq0 hfp hfq).mp hFeq)
          · intro hconn
            refine rtg_lift
              (fun z => rootOf st.uf.parent_or_size
                (lgetP (lset st.labeled i j (upper_label4 bi i j st.labeled)) z).toNat)
              ?_ p q hconn
            rintro x y ⟨hx, hy, hfgx, hfgy, hadjxy⟩
            beta_reduce
            by_cases hxc : x = (i, j)
            · by_cases hyc : y = (i, j)
              · rw [hxc, hyc]
              · have hy0 : Upto h w i j y := by
                  rcases (hS' y).mp hy with hy0 | hye
                  · exact hy0
                  · exact absurd hye hyc
                have hadjyc : adj4 y (i, j) := by
                  rw [hxc] at hadjxy
                  exact adj4_symm hadjxy
                rw [hxc, hvc, lgetP_lset_ne _ hyc]
                rcases hSadj y hy0 hfgy hadjyc with ⟨_, _, hye⟩ | ⟨h0j, hfgW, _⟩
                · rw [hye, hlabN]
                · exact absurd ⟨h0j, hfgW⟩ hnotW
            · by_cases hyc : y = (i, j)
              · have hx0 : Upto h w i j x := by
                  rcases (hS' x).mp hx with hx0 | hxe
                  · exact hx0
                  · exact absurd hxe hxc
                have hadjxc : adj4 x (i, j) := by
                  rw [hyc] at hadjxy
                  exact hadjxy
                rw [hyc, hvc, lgetP_lset_ne _ hxc]
                rcases hSadj x hx0 hfgx hadjxc with ⟨_, _, hxe⟩ | ⟨h0j, hfgW, _⟩
                · rw [hxe, hlabN]
                · exact absurd ⟨h0j, hfgW⟩ hnotW
              · have hx0 : Upto h w i j x := by
                  rcases (hS' x).mp hx with hx0 | hxe
                  · exact hx0
                  · exact absurd hxe hxc
                have hy0 : Upto h w i j y := by
                  rcases (hS' y).mp hy with hy0 | hye
                  · exact hy0
                  · exact absurd hye hyc
                have hre := (hpart x y hx0 hy0 hfgx hfgy).mpr
                  (connIn_single hx0 hy0 hfgx hfgy hadjxy)
                rw [lgetP_lset_ne _ hxc, lgetP_lset_ne _ hyc, hre]
    · -- north neighbor absent
      have hnotN : ¬(0 < i ∧ bget bi (i - 1) j = true) := fun hc => hup (hu_pres.mpr hc)
      by_cases hlp : left_label4 bi i j st.labeled ≠ -1
      · -- only the west neighbor is present
        have hpresW := hl_pres.mp hlp
        have h0j : 0 < j := hpresW.1
        have hfgW : bget bi i (j - 1) = true := hpresW.2
        have hgW : (j > 0 && bget bi i (j - 1)) = true := by simp [h0j, hfgW]
        have hWS : Upto h w i j (i, j - 1) := hWmem h0j
        have hlabW : lgetP st.labeled (i, j - 1) = left_label4 bi i j st.labeled := by
          unfold left_label4
          rw [if_pos hgW]
          rfl
        have hlb : 0 ≤ left_label4 bi i j st.labeled ∧
            (left_label4 bi i j st.labeled).toNat < st.uf.get_elem_num := by
          rw [← hlabW]
          exact hlab (i, j - 1) hWS hfgW
        have hadjW : adj4 (i, j - 1) (i, j) := by
          unfold adj4
          exact Or.inl ⟨rfl, Or.inl (show j - 1 + 1 = j by omega)⟩
        obtain ⟨f1, f2, f3, f4, f5⟩ := scaninv_frame hi hj hfg
          ⟨hlen, hrows, hwf, hlab, hbg, hsurj, hpart⟩
          (left_label4 bi i j st.labeled) st.uf hlb.1 hlb.2 (Nat.le_refl _)
          (fun lz hlz => Or.inl hlz)
        have hvc : lgetP (lset st.labeled i j (left_label4 bi i j st.labeled)) (i, j)
            = left_label4 bi i j st.labeled :=
          lgetP_lset_self hrows _ hilen hj
        have hconn_to_c : ∀ z, Upto h w i j z → bgetP bi z = true →
            rootOf st.uf.parent_or_size (lgetP st.labeled z).toNat
              = rootOf st.uf.parent_or_size (left_label4 bi i j st.labeled).toNat →
            connIn bi adj4 (Upto h w i (j + 1)) z (i, j) := by
          intro z hz hfgz hcase
          have hzW : connIn bi adj4 (Upto h w i j) z (i, j - 1) := by
            apply (hpart z (i, j - 1) hz hWS hfgz hfgW).mp
            rw [hlabW]
            exact hcase
          exact Relation.ReflTransGen.tail
            (connIn_mono (fun r hr => (hS' r).mpr (Or.inl hr)) hzW)
            ⟨(hS' _).mpr (Or.inl hWS), hcS2, hfgW, hfgP, hadjW⟩
        refine ⟨⟨lset st.labeled i j (left_label4 bi i j st.labeled), st.uf⟩, ?_,
          f1, f2, hwf, f3, f4, f5, ?_⟩
        · simp only [cell4, hfg, Bool.not_true, Bool.false_eq_true, if_false]
          rw [if_neg (fun hand => hup hand.1), if_neg hup, if_pos hlp]
        · intro p q hp hq hfp hfq
          constructor
          · intro hFeq
            by_cases hpc : p = (i, j)
            · by_cases hqc : q = (i, j)
              · rw [hpc, hqc]
                exact Relation.ReflTransGen.refl
              · have hq0 : Upto h w i j q := by
                  rcases (hS' q).mp hq with hq0 | hqe
                  · exact hq0
                  · exact absurd hqe hqc
                rw [hpc, hvc, lgetP_lset_ne _ hqc] at hFeq
                rw [hpc]
                exact connIn_symm (fun a b hab => adj4_symm hab)
                  (hconn_to_c q hq0 hfq hFeq.symm)
            · by_cases hqc : q = (i, j)
              · have hp0 : Upto h w i j p := by
                  rcases (hS' p).mp hp with hp0 | hpe
                  · exact hp0
                  · exact absurd hpe hpc
                rw [hqc, hvc, lgetP_lset_ne _ hpc] at hFeq
                rw [hqc]
                exact hconn_to_c p hp0 hfp hFeq
              · have hp0 : Upto h w i j p := by
                  rcases (hS' p).mp hp with hp0 | hpe
                  · exact hp0
                  · exact absurd hpe hpc
                have hq0 : Upto h w i j q := by
                  rcases (hS' q).mp hq with hq0 | hqe
                  · exact hq0
                  · exact absurd hqe hqc
                rw [lgetP_lset_ne _ hpc, lgetP_lset_ne _ hqc] at hFeq
                exact connIn_mono (fun r hr => (hS' r).mpr (Or.inl hr))
                  ((hpart p q hp0 hq0 hfp hfq).mp hFeq)
          · intro hconn
            refine rtg_lift
              (fun z => rootOf st.uf.parent_or_size
                (lgetP (lset st.labeled i j (left_label4 bi i j st.labeled)) z).toNat)
              ?_ p q hconn
            rintro x y ⟨hx, hy, hfgx, hfgy, hadjxy⟩
            beta_reduce
            by_cases hxc : x = (i, j)
            · by_cases hyc : y = (i, j)
              · rw [hxc, hyc]
              · have hy0 : Upto h w i j y := by
                  rcases (hS' y).mp hy with hy0 | hye
                  · exact hy0
                  · exact absurd hye hyc
                have hadjyc : adj4 y (i, j) := by
                  rw [hxc] at hadjxy
                  exact adj4_symm hadjxy
                rw [hxc, hvc, lgetP_lset_ne _ hyc]
                rcases hSadj y hy0 hfgy hadjyc with ⟨h0i, hfgN, _⟩ | ⟨_, _, hye⟩
                · exact absurd ⟨h0i, hfgN⟩ hnotN
                · rw [hye, hlabW]
            · by_cases hyc : y = (i, j)
              · have hx0 : Upto h w i j x := by
                  rcases (hS' x).mp hx with hx0 | hxe
                  · exact hx0
                  · exact absurd hxe hxc
                have hadjxc : adj4 x (i, j) := by
                  rw [hyc] at hadjxy
                  exact hadjxy
                rw [hyc, hvc, lgetP_lset_ne _ hxc]
                rcases hSadj x hx0 hfgx hadjxc with ⟨h0i, hfgN, _⟩ | ⟨_, _, hxe⟩
                · exact absurd ⟨h0i, hfgN⟩ hnotN
                · rw [hxe, hlabW]
              · have hx0 : Upto h w i j x := by
                  rcases (hS' x).mp hx with hx0 | hxe
                  · exact hx0
                  · exact absurd hxe hxc
                have hy0 : Upto h w i j y := by
                  rcases (hS' y).mp hy with hy0 | hye
                  · exact hy0
                  · exact absurd hye hyc
                have hre := (hpart x y hx0 hy0 hfgx hfgy).mpr
                  (connIn_single hx0 hy0 hfgx hfgy hadjxy)
                rw [lgetP_lset_ne _ hxc, lgetP_lset_ne _ hyc, hre]
      · -- no neighbor present: fresh label and a new union-find element
        have hnotW : ¬(0 < j ∧ bget bi i (j - 1) = true) := fun hc => hlp (hl_pres.mpr hc)
        have hadd : st.uf.add.get_elem_num = st.uf.get_elem_num + 1 := by
          show (st.uf.parent_or_size ++ [(-1 : Int)]).length
            = st.uf.parent_or_size.length + 1
          simp
        obtain ⟨f1, f2, f3, f4, f5⟩ := scaninv_frame hi hj hfg
          ⟨hlen, hrows, hwf, hlab, hbg, hsurj, hpart⟩
          (Int.ofNat st.uf.get_elem_num) st.uf.add (Int.ofNat_nonneg _)
          (by rw [hadd]; simp)
          (by omega)
          (fun lz hlz => by
            rw [hadd] at hlz
            rcases Nat.lt_or_ge lz st.uf.get_elem_num with hlt | hge
            · exact Or.inl hlt
            · right
              have : lz = st.uf.get_elem_num := by omega
              rw [this])
        have hvc : lgetP (lset st.labeled i j (Int.ofNat st.uf.get_elem_num)) (i, j)
            = Int.ofNat st.uf.get_elem_num :=
          lgetP_lset_self hrows _ hilen hj
        have hwfadd : WFp st.uf.add.parent_or_size := WFp_concat hwf
        refine ⟨⟨lset st.labeled i j (Int.ofNat st.uf.get_elem_num), st.uf.add⟩, ?_,
          f1, f2, hwfadd, f3, f4, f5, ?_⟩
        · simp only [cell4, hfg, Bool.not_true, Bool.false_eq_true, if_false]
          rw [if_neg (fun hand => hup hand.1), if_neg hup, if_neg hlp]
        · intro p q hp hq hfp hfq
          have hroC : rootOf st.uf.add.parent_or_size
              (lgetP (lset st.labeled i j (Int.ofNat st.uf.get_elem_num)) (i, j)).toNat
              = st.uf.get_elem_num := by
            rw [hvc]
            show rootOf (st.uf.parent_or_size ++ [(-1 : Int)])
              st.uf.parent_or_size.length = st.uf.parent_or_size.length
            exact rootOf_concat_last st.uf.parent_or_size
          have hroOld : ∀ z, Upto h w i j z → bgetP bi z = true →
              rootOf st.uf.add.parent_or_size
                (lgetP (lset st.labeled i j (Int.ofNat st.uf.get_elem_num)) z).toNat
              = rootOf st.uf.parent_or_size (lgetP st.labeled z).toNat := by
            intro z hz hfgz
            have hzc : z ≠ (i, j) := fun he => hcS (he ▸ hz)
            rw [lgetP_lset_ne _ hzc]
            exact rootOf_concat hwf (hlab z hz hfgz).2
          constructor
          · intro hFeq
            by_cases hpc : p = (i, j)
            · by_cases hqc : q = (i, j)
              · rw [hpc, hqc]
                exact Relation.ReflTransGen.refl
              · have hq0 : Upto h w i j q := by
                  rcases (hS' q).mp hq with hq0 | hqe
                  · exact hq0
                  · exact absurd hqe hqc
                rw [hpc, hroC, hroOld q hq0 hfq] at hFeq
                have := rootOf_lt hwf (hlab q hq0 hfq).2
                have hlenum : st.uf.parent_or_size.length = st.uf.get_elem_num := rfl
                omega
            · by_cases hqc : q = (i, j)
              · have hp0 : Upto h w i j p := by
                  rcases (hS' p).mp hp with hp0 | hpe
                  · exact hp0
                  · exact absurd hpe hpc
                rw [hqc, hroC, hroOld p hp0 hfp] at hFeq
                have := rootOf_lt hwf (hlab p hp0 hfp).2
                have hlenum : st.uf.parent_or_size.length = st.uf.get_elem_num := rfl
                omega
              · have hp0 : Upto h w i j p := by
                  rcases (hS' p).mp hp with hp0 | hpe
                  · exact hp0
                  · exact absurd hpe hpc
                have hq0 : Upto h w i j q := by
                  rcases (hS' q).mp hq with hq0 | hqe
                  · exact hq0
                  · exact absurd hqe hqc
                rw [hroOld p hp0 hfp, hroOld q hq0 hfq] at hFeq
                exact connIn_mono (fun r hr => (hS' r).mpr (Or.inl hr))
                  ((hpart p q hp0 hq0 hfp hfq).mp hFeq)
          · intro hconn
            refine rtg_lift
              (fun z => rootOf st.uf.add.parent_or_size
                (lgetP (lset st.labeled i j (Int.ofNat st.uf.get_elem_num)) z).toNat)
              ?_ p q hconn
            rintro x y ⟨hx, hy, hfgx, hfgy, hadjxy⟩
            beta_reduce
            by_cases hxc : x = (i, j)
            · by_cases hyc : y = (i, j)
              · rw [hxc, hyc]
              · have hy0 : Upto h w i j y := by
                  rcases (hS' y).mp hy with hy0 | hye
                  · exact hy0
                  · exact absurd hye hyc
                have hadjyc : adj4 y (i, j) := by
                  rw [hxc] at hadjxy
                  exact adj4_symm hadjxy
                rcases hSadj y hy0 hfgy hadjyc with ⟨h0i, hfgN, _⟩ | ⟨h0j, hfgW, _⟩
                · exact absurd ⟨h0i, hfgN⟩ hnotN
                · exact absurd ⟨h0j, hfgW⟩ hnotW
            · by_cases hyc : y = (i, j)
              · have hx0 : Upto h w i j x := by
                  rcases (hS' x).mp hx with hx0 | hxe
                  · exact hx0
                  · exact absurd hxe hxc
                have hadjxc : adj4 x (i, j) := by
                  rw [hyc] at hadjxy
                  exact hadjxy
                rcases hSadj x hx0 hfgx hadjxc with ⟨h0i, hfgN, _⟩ | ⟨h0j, hfgW, _⟩
                · exact absurd ⟨h0i, hfgN⟩ hnotN
                · exact absurd ⟨h0j, hfgW⟩ hnotW
              · have hx0 : Upto h w i j x := by
                  rcases (hS' x).mp hx with hx0 | hxe
                  · exact hx0
                  · exact absurd hxe hxc
                have hy0 : Upto h w i j y := by
                  rcases (hS' y).mp hy with hy0 | hye
                  · exact hy0
                  · exact absurd hye hyc
                have hre := (hpart x y hx0 hy0 hfgx hfgy).mpr
                  (connIn_single hx0 hy0 hfgx hfgy hadjxy)
                rw [hroOld x hx0 hfgx, hroOld y hy0 hfgy, hre]
  · -- background cell: the state is unchanged
    have hfg' : bget bi i j = false := by
      cases hb : bget bi i j
      · rfl
      · exact absurd hb hfg
    refine ⟨st, ?_, hlen, hrows, hwf, ?_, ?_, ?_, ?_⟩
    · simp only [cell4, hfg', Bool.not_false, if_true]
    · intro p hp hfgp
      rcases (hS' p).mp hp with hp0 | hpe
      · exact hlab p hp0 hfgp
      · rw [hpe] at hfgp
        exact absurd hfgp (by unfold bgetP; rw [hfg']; simp)
    · intro p hnp
      apply hbg
      rintro ⟨h1, h2⟩
      exact hnp ⟨(hS' p).mpr (Or.inl h1), h2⟩
    · intro l hl
      obtain ⟨p, hp, hfgp, hlp⟩ := hsurj l hl
      exact ⟨p, (hS' p).mpr (Or.inl hp), hfgp, hlp⟩
    · intro p q hp hq hfp hfq
      have hp0 : Upto h w i j p := by
        rcases (hS' p).mp hp with hp0 | hpe
        · exact hp0
        · rw [hpe] at hfp
          exact absurd hfp (by unfold bgetP; rw [hfg']; simp)
      have hq0 : Upto h w i j q := by
        rcases (hS' q).mp hq with hq0 | hqe
        · exact hq0
        · rw [hqe] at hfq
          exact absurd hfq (by unfold bgetP; rw [hfg']; simp)
      rw [hpart p q hp0 hq0 hfp hfq]
      exact (connIn_insert_bg (show bgetP bi (i, j) = false from hfg') hS' p q).symm

/-- Processing a background cell leaves the state unchanged and extends the
scan invariant over it, for either adjacency. -/
theorem scaninv_bg_step {bi : List (List Bool)}
    {adj : Nat × Nat → Nat × Nat → Prop} {h w i j : Nat} {st : LState}
    (hi : i < h) (hj : j < w) (hfg' : bget bi i j = false)
    (hinv : ScanInv bi adj h w (Upto h w i j) st) :
    ScanInv bi adj h w (Upto h w i (j + 1)) st := by
  obtain ⟨hlen, hrows, hwf, hlab, hbg, hsurj, hpart⟩ := hinv
  have hS' : ∀ p, Upto h w i (j + 1) p ↔ Upto h w i j p ∨ p = (i, j) := upto_step hi hj
  refine ⟨hlen, hrows, hwf, ?_, ?_, ?_, ?_⟩
  · intro p hp hfgp
    rcases (hS' p).mp hp with hp0 | hpe
    · exact hlab p hp0 hfgp
    · rw [hpe] at hfgp
      exact absurd hfgp (by unfold bgetP; rw [hfg']; simp)
  · intro p hnp
    apply hbg
    rintro ⟨h1, h2⟩
    exact hnp ⟨(hS' p).mpr (Or.inl h1), h2⟩
  · intro l hl
    obtain ⟨p, hp, hfgp, hlp⟩ := hsurj l hl
    exact ⟨p, (hS' p).mpr (Or.inl hp), hfgp, hlp⟩
  · intro p q hp hq hfp hfq
    have hp0 : Upto h w i j p := by
      rcases (hS' p).mp hp with hp0 | hpe
      · exact hp0
      · rw [hpe] at hfp
        exact absurd hfp (by unfold bgetP; rw [hfg']; simp)
    have hq0 : Upto h w i j q := by
      rcases (hS' q).mp hq with hq0 | hqe
      · exact hq0
      · rw [hqe] at hfq
        exact absurd hfq (by unfold bgetP; rw [hfg']; simp)
    rw [hpart p q hp0 hq0 hfp hfq]
    exact (connIn_insert_bg (show bgetP bi (i, j) = false from hfg') hS' p q).symm

/-- One step of the eight-neighborhood scan: processing cell `(i, j)` always
succeeds and carries the invariant from the region before `(i, j)` to the
region including it. -/
theorem cell8_step {bi : List (List Bool)} {h w i j : Nat} {st : LState}
    (hi : i < h) (hj : j < w)
    (hinv : ScanInv bi adj8 h w (Upto h w i j) st) :
    ∃ st', cell8 bi w i j st = some st' ∧
      ScanInv bi adj8 h w (Upto h w i (j + 1)) st' := by
  have hinv0 := hinv
  obtain ⟨hlen, hrows, hwf, hlab, hbg, hsurj, hpart⟩ := hinv0
  have hS' : ∀ p, Upto h w i (j + 1) p ↔ Upto h w i j p ∨ p = (i, j) := upto_step hi hj
  have hcS : ¬Upto h w i j (i, j) := upto_not_self h w i j
  have hcS2 : Upto h w i (j + 1) (i, j) := (hS' (i, j)).mpr (Or.inr rfl)
  by_cases hfg : bget bi i j = true
  · -- foreground cell
    have hfgP : bgetP bi (i, j) = true := hfg
    have hilen : i < st.labeled.length := by rw [hlen]; exact hi
    have hfls_src : ∀ x ∈ (surrounding_labels8 bi w i j st.labeled).filter
        (fun z => z != -1),
        ∃ nb, Upto h w i j nb ∧ bgetP bi nb = true ∧ adj8 nb (i, j) ∧
          lgetP st.labeled nb = x := by
      intro x hx
      obtain ⟨hmem, hne1⟩ := List.mem_filter.mp hx
      have hxne : x ≠ -1 := bne_iff_ne.mp hne1
      simp only [surrounding_labels8, List.mem_cons, List.not_mem_nil, or_false] at hmem
      rcases hmem with he | he | he | he
      · by_cases hg : (i > 0 && j > 0 && bget bi (i - 1) (j - 1)) = true
        · rw [if_pos hg] at he
          simp only [Bool.and_eq_true, decide_eq_true_eq] at hg
          obtain ⟨⟨h0i, h0j⟩, hb⟩ := hg
          refine ⟨(i - 1, j - 1),
            ⟨show i - 1 < h by omega, show j - 1 < w by omega,
              Or.inl (show i - 1 < i by omega)⟩, hb, ?_, he.symm⟩
          refine ⟨?_, Or.inr (Or.inl (show i - 1 + 1 = i by omega)),
            Or.inr (Or.inl (show j - 1 + 1 = j by omega))⟩
          simp only [Prod.mk.injEq]
          omega
        · rw [if_neg hg] at he
          exact absurd he hxne
      · by_cases hg : (i > 0 && bget bi (i - 1) j) = true
        · rw [if_pos hg] at he
          simp only [Bool.and_eq_true, decide_eq_true_eq] at hg
          obtain ⟨h0i, hb⟩ := hg
          refine ⟨(i - 1, j),
            ⟨show i - 1 < h by omega, show j < w from hj,
              Or.inl (show i - 1 < i by omega)⟩, hb, ?_, he.symm⟩
          refine ⟨?_, Or.inr (Or.inl (show i - 1 + 1 = i by omega)),
            Or.inl rfl⟩
          simp only [Prod.mk.injEq]
          omega
        · rw [if_neg hg] at he
          exact absurd he hxne
      · by_cases hg : (i > 0 && j < w - 1 && bget bi (i - 1) (j + 1)) = true
        · rw [if_pos hg] at he
          simp only [Bool.and_eq_true, decide_eq_true_eq] at hg
          obtain ⟨⟨h0i, hjw⟩, hb⟩ := hg
          refine ⟨(i - 1, j + 1),
            ⟨show i - 1 < h by omega, show j + 1 < w by omega,
              Or.inl (show i - 1 < i by omega)⟩, hb, ?_, he.symm⟩
          refine ⟨?_, Or.inr (Or.inl (show i - 1 + 1 = i by omega)),
            Or.inr (Or.inr (show j + 1 = j + 1 from rfl))⟩
          simp only [Prod.mk.injEq]
          omega
        · rw [if_neg hg] at he
          exact absurd he hxne
      · by_cases hg : (j > 0 && bget bi i (j - 1)) = true
        · rw [if_pos hg] at he
          simp only [Bool.and_eq_true, decide_eq_true_eq] at hg
          obtain ⟨h0j, hb⟩ := hg
          refine ⟨(i, j - 1),
            ⟨show i < h from hi, show j - 1 < w by omega,
              Or.inr ⟨rfl, show j - 1 < j by omega⟩⟩, hb, ?_, he.symm⟩
          refine ⟨?_, Or.inl rfl,
            Or.inr (Or.inl (show j - 1 + 1 = j by omega))⟩
          simp only [Prod.mk.injEq]
          omega
        · rw [if_neg hg] at he
          exact absurd he hxne
    have hfls_tgt : ∀ y, Upto h w i j y → bgetP bi y = true → adj8 y (i, j) →
        lgetP st.labeled y ∈ (surrounding_labels8 bi w i j st.labeled).filter
          (fun z => z != -1) := by
      intro y hy hfgy hadjy
      have h0y : 0 ≤ lgetP st.labeled y := (hlab y hy hfgy).1
      have hne1 : (lgetP st.labeled y != -1) = true := by
        simp only [bne_iff_ne, ne_eq]
        intro hee
        rw [hee] at h0y
        omega
      refine List.mem_filter.mpr ⟨?_, hne1⟩
      have hyw : y.2 < w := hy.2.1
      simp only [surrounding_labels8, List.mem_cons, List.not_mem_nil, or_false]
      rcases upto_adj8_cases hy hadjy with ⟨h1, h2⟩ | ⟨h1, h2⟩ | ⟨h1, h2⟩ | ⟨h1, h2⟩
      · have hye : y = (i - 1, j - 1) := by
          obtain ⟨a, b⟩ := y
          simp only at h1 h2
          simp only [Prod.mk.injEq]
          omega
        rw [hye] at hfgy ⊢
        have hg : (i > 0 && j > 0 && bget bi (i - 1) (j - 1)) = true := by
          simp only [Bool.and_eq_true, decide_eq_true_eq]
          exact ⟨⟨by omega, by omega⟩, hfgy⟩
        exact Or.inl (by rw [if_pos hg]; rfl)
      · have hye : y = (i - 1, j) := by
          obtain ⟨a, b⟩ := y
          simp only at h1 h2
          simp only [Prod.mk.injEq]
          omega
        rw [hye] at hfgy ⊢
        have hg : (i > 0 && bget bi (i - 1) j) = true := by
          simp only [Bool.and_eq_true, decide_eq_true_eq]
          exact ⟨by omega, hfgy⟩
        exact Or.inr (Or.inl (by rw [if_pos hg]; rfl))
      · have hye : y = (i - 1, j + 1) := by
          obtain ⟨a, b⟩ := y
          simp only at h1 h2
          simp only [Prod.mk.injEq]
          omega
        rw [hye] at hfgy hyw ⊢
        have hg : (i > 0 && j < w - 1 && bget bi (i - 1) (j + 1)) = true := by
          simp only [Bool.and_eq_true, decide_eq_true_eq]
          refine ⟨⟨by omega, ?_⟩, hfgy⟩
          have : j + 1 < w := hyw
          omega
        exact Or.inr (Or.inr (Or.inl (by rw [if_pos hg]; rfl)))
      · have hye : y = (i, j - 1) := by
          obtain ⟨a, b⟩ := y
          simp only at h1 h2
          simp only [Prod.mk.injEq]
          omega
        rw [hye] at hfgy ⊢
        have hg : (j > 0 && bget bi i (j - 1)) = true := by
          simp only [Bool.and_eq_true, decide_eq_true_eq]
          exact ⟨by omega, hfgy⟩
        exact Or.inr (Or.inr (Or.inr (by rw [if_pos hg]; rfl)))
    rcases hcase : (surrounding_labels8 bi w i j st.labeled).filter (fun x => x != -1)
      with _ | ⟨l0, rest⟩
    · -- no present neighbor: fresh label and a new union-find element
      have hnoadj : ∀ y, Upto h w i j y → bgetP bi y = true → adj8 y (i, j) → False := by
        intro y hy hfgy hadjy
        have hm := hfls_tgt y hy hfgy hadjy
        rw [hcase] at hm
        exact absurd hm (List.not_mem_nil _)
      have hadd : st.uf.add.get_elem_num = st.uf.get_elem_num + 1 := by
        show (st.uf.parent_or_size ++ [(-1 : Int)]).length
          = st.uf.parent_or_size.length + 1
        simp
      obtain ⟨f1, f2, f3, f4, f5⟩ := scaninv_frame hi hj hfg
        ⟨hlen, hrows, hwf, hlab, hbg, hsurj, hpart⟩
        (Int.ofNat st.uf.get_elem_num) st.uf.add (Int.ofNat_nonneg _)
        (by rw [hadd]; simp)
        (by omega)
        (fun lz hlz => by
          rw [hadd] at hlz
          rcases Nat.lt_or_ge lz st.uf.get_elem_num with hlt | hge
          · exact Or.inl hlt
          · right
            have : lz = st.uf.get_elem_num := by omega
            rw [this])
      have hvc : lgetP (lset st.labeled i j (Int.ofNat st.uf.get_elem_num)) (i, j)
          = Int.ofNat st.uf.get_elem_num :=
        lgetP_lset_self hrows _ hilen hj
      have hwfadd : WFp st.uf.add.parent_or_size := WFp_concat hwf
      refine ⟨⟨lset st.labeled i j (Int.ofNat st.uf.get_elem_num), st.uf.add⟩, ?_,
        f1, f2, hwfadd, f3, f4, f5, ?_⟩
      · simp only [cell8, hfg, Bool.not_true, Bool.false_eq_true, if_false]
        rw [hcase]
      · intro p q hp hq hfp hfq
        have hroC : rootOf st.uf.add.parent_or_size
            (lgetP (lset st.labeled i j (Int.ofNat st.uf.get_elem_num)) (i, j)).toNat
            = st.uf.get_elem_num := by
          rw [hvc]
          show rootOf (st.uf.parent_or_size ++ [(-1 : Int)])
            st.uf.parent_or_size.length = st.uf.parent_or_size.length
          exact rootOf_concat_last st.uf.parent_or_size
        have hroOld : ∀ z, Upto h w i j z → bgetP bi z = true →
            rootOf st.uf.add.parent_or_size
              (lgetP (lset st.labeled i j (Int.ofNat st.uf.get_elem_num)) z).toNat
            = rootOf st.uf.parent_or_size (lgetP st.labeled z).toNat := by
          intro z hz hfgz
          have hzc : z ≠ (i, j) := fun he => hcS (he ▸ hz)
          rw [lgetP_lset_ne _ hzc]
          exact rootOf_concat hwf (hlab z hz hfgz).2
        constructor
        · intro hFeq
          by_cases hpc : p = (i, j)
          · by_cases hqc : q = (i, j)
            · rw [hpc, hqc]
              exact Relation.ReflTransGen.refl
            · have hq0 : Upto h w i j q := by
                rcases (hS' q).mp hq with hq0 | hqe
                · exact hq0
                · exact absurd hqe hqc
              rw [hpc, hroC, hroOld q hq0 hfq] at hFeq
              have := rootOf_lt hwf (hlab q hq0 hfq).2
              have hlenum : st.uf.parent_or_size.length = st.uf.get_elem_num := rfl
              omega
          · by_cases hqc : q = (i, j)
            · have hp0 : Upto h w i j p := by
                rcases (hS' p).mp hp with hp0 | hpe
                · exact hp0
                · exact absurd hpe hpc
              rw [hqc, hroC, hroOld p hp0 hfp] at hFeq
              have := rootOf_lt hwf (hlab p hp0 hfp).2
              have hlenum : st.uf.parent_or_size.length = st.uf.get_elem_num := rfl
              omega
            · have hp0 : Upto h w i j p := by
                rcases (hS' p).mp hp with hp0 | hpe
                · exact hp0
                · exact absurd hpe hpc
              have hq0 : Upto h w i j q := by
                rcases (hS' q).mp hq with hq0 | hqe
                · exact hq0
                · exact absurd hqe hqc
              rw [hroOld p hp0 hfp, hroOld q hq0 hfq] at hFeq
              exact connIn_mono (fun r hr => (hS' r).mpr (Or.inl hr))
                ((hpart p q hp0 hq0 hfp hfq).mp hFeq)
        · intro hconn
          refine rtg_lift
            (fun z => rootOf st.uf.add.parent_or_size
              (lgetP (lset st.labeled i j (Int.ofNat st.uf.get_elem_num)) z).toNat)
            ?_ p q hconn
          rintro x y ⟨hx, hy, hfgx, hfgy, hadjxy⟩
          beta_reduce
          by_cases hxc : x = (i, j)
          · by_cases hyc : y = (i, j)
            · rw [hxc, hyc]
            · have hy0 : Upto h w i j y := by
                rcases (hS' y).mp hy with hy0 | hye
                · exact hy0
                · exact absurd hye hyc
              have hadjyc : adj8 y (i, j) := by
                rw [hxc] at hadjxy
                exact adj8_symm hadjxy
              exact (hnoadj y hy0 hfgy hadjyc).elim
          · by_cases hyc : y = (i, j)
            · have hx0 : Upto h w i j x := by
                rcases (hS' x).mp hx with hx0 | hxe
                · exact hx0
                · exact absurd hxe hxc
              have hadjxc : adj8 x (i, j) := by
                rw [hyc] at hadjxy
                exact hadjxy
              exact (hnoadj x hx0 hfgx hadjxc).elim
            · have hx0 : Upto h w i j x := by
                rcases (hS' x).mp hx with hx0 | hxe
                · exact hx0
                · exact absurd hxe hxc
              have hy0 : Upto h w i j y := by
                rcases (hS' y).mp hy with hy0 | hye
                · exact hy0
                · exact absurd hye hyc
              have hre := (hpart x y hx0 hy0 hfgx hfgy).mpr
                (connIn_single hx0 hy0 hfgx hfgy hadjxy)
              rw [hroOld x hx0 hfgx, hroOld y hy0 hfgy, hre]
    · -- at least one present neighbor: take its label and merge the rest
      have hl0mem : l0 ∈ (surrounding_labels8 bi w i j st.labeled).filter
          (fun z => z != -1) := by
        rw [hcase]
        exact List.mem_cons_self l0 rest
      obtain ⟨nb0, hnb0S, hnb0fg, hnb0adj, hnb0val⟩ := hfls_src l0 hl0mem
      have hl0b : l0.toNat < st.uf.get_elem_num := by
        rw [← hnb0val]
        exact (hlab nb0 hnb0S hnb0fg).2
      have hl0nn : 0 ≤ l0 := by
        rw [← hnb0val]
        exact (hlab nb0 hnb0S hnb0fg).1
      have hrestb : ∀ x ∈ rest, x.toNat < st.uf.parent_or_size.length := by
        intro x hx
        obtain ⟨nb, h1, h2, _, h4⟩ := hfls_src x
          (by rw [hcase]; exact List.mem_cons_of_mem l0 hx)
        rw [← h4]
        exact (hlab nb h1 h2).2
      obtain ⟨uf1, heqm, hlen1, hwf1, wst, hwor, hro1⟩ :=
        mergeList_spec rest st.uf hwf l0 hl0b hrestb
      have hn1 : uf1.get_elem_num = st.uf.get_elem_num := hlen1
      obtain ⟨f1, f2, f3, f4, f5⟩ := scaninv_frame hi hj hfg
        ⟨hlen, hrows, hwf, hlab, hbg, hsurj, hpart⟩
        l0 uf1 hl0nn (by omega) (by omega)
        (fun lz hlz => Or.inl (by omega))
      have hvc : lgetP (lset st.labeled i j l0) (i, j) = l0 :=
        lgetP_lset_self hrows _ hilen hj
      have hconn_to_c : ∀ z, Upto h w i j z → bgetP bi z = true →
          (rootOf st.uf.parent_or_size (lgetP st.labeled z).toNat
              = rootOf st.uf.parent_or_size l0.toNat ∨
           ∃ x ∈ rest, rootOf st.uf.parent_or_size (lgetP st.labeled z).toNat
              = rootOf st.uf.parent_or_size x.toNat) →
          connIn bi adj8 (Upto h w i (j + 1)) z (i, j) := by
        intro z hz hfgz hor
        rcases hor with hcase1 | ⟨x, hxr, hcase1⟩
        · have hzN : connIn bi adj8 (Upto h w i j) z nb0 := by
            apply (hpart z nb0 hz hnb0S hfgz hnb0fg).mp
            rw [hnb0val]
            exact hcase1
          exact Relation.ReflTransGen.tail
            (connIn_mono (fun r hr => (hS' r).mpr (Or.inl hr)) hzN)
            ⟨(hS' _).mpr (Or.inl hnb0S), hcS2, hnb0fg, hfgP, hnb0adj⟩
        · obtain ⟨nbx, hx1, hx2, hx3, hx4⟩ := hfls_src x
            (by rw [hcase]; exact List.mem_cons_of_mem l0 hxr)
          have hzN : connIn bi adj8 (Upto h w i j) z nbx := by
            apply (hpart z nbx hz hx1 hfgz hx2).mp
            rw [hx4]
            exact hcase1
          exact Relation.ReflTransGen.tail
            (connIn_mono (fun r hr => (hS' r).mpr (Or.inl hr)) hzN)
            ⟨(hS' _).mpr (Or.inl hx1), hcS2, hx2, hfgP, hx3⟩
      refine ⟨⟨lset st.labeled i j l0, uf1⟩, ?_, f1, f2, hwf1, f3, f4, f5, ?_⟩
      · simp only [cell8, hfg, Bool.not_true, Bool.false_eq_true, if_false]
        rw [hcase]
        simp only [heqm]
      · intro p q hp hq hfp hfq
        constructor
        · intro hFeq
          by_cases hpc : p = (i, j)
          · by_cases hqc : q = (i, j)
            · rw [hpc, hqc]
              exact Relation.ReflTransGen.refl
            · have hq0 : Upto h w i j q := by
                rcases (hS' q).mp hq with hq0 | hqe
                · exact hq0
                · exact absurd hqe hqc
              rw [hpc] at hFeq
              rw [hvc, lgetP_lset_ne _ hqc, hro1 _ hl0b,
                hro1 _ (hlab q hq0 hfq).2, if_pos (Or.inl rfl)] at hFeq
              by_cases hcq : rootOf st.uf.parent_or_size (lgetP st.labeled q).toNat
                  = rootOf st.uf.parent_or_size l0.toNat ∨
                  ∃ x ∈ rest, rootOf st.uf.parent_or_size (lgetP st.labeled q).toNat
                    = rootOf st.uf.parent_or_size x.toNat
              · rw [hpc]
                exact connIn_symm (fun a b hab => adj8_symm hab)
                  (hconn_to_c q hq0 hfq hcq)
              · rw [if_neg hcq] at hFeq
                rcases hwor with hw1 | ⟨x, hxr, hw1⟩
                · exact absurd (Or.inl (hFeq.symm.trans hw1)) hcq
                · exact absurd (Or.inr ⟨x, hxr, hFeq.symm.trans hw1⟩) hcq
          · by_cases hqc : q = (i, j)
            · have hp0 : Upto h w i j p := by
                rcases (hS' p).mp hp with hp0 | hpe
                · exact hp0
                · exact absurd hpe hpc
              rw [hqc] at hFeq
              rw [hvc, lgetP_lset_ne _ hpc, hro1 _ hl0b,
                hro1 _ (hlab p hp0 hfp).2, if_pos (Or.inl rfl)] at hFeq
              by_cases hcp : rootOf st.uf.parent_or_size (lgetP st.labeled p).toNat
                  = rootOf st.uf.parent_or_size l0.toNat ∨
                  ∃ x ∈ rest, rootOf st.uf.parent_or_size (lgetP st.labeled p).toNat
                    = rootOf st.uf.parent_or_size x.toNat
              · rw [hqc]
                exact hconn_to_c p hp0 hfp hcp
              · rw [if_neg hcp] at hFeq
                rcases hwor with hw1 | ⟨x, hxr, hw1⟩
                · exact absurd (Or.inl (hFeq.trans hw1)) hcp
                · exact absurd (Or.inr ⟨x, hxr, hFeq.trans hw1⟩) hcp
            · have hp0 : Upto h w i j p := by
                rcases (hS' p).mp hp with hp0 | hpe
                · exact hp0
                · exact absurd hpe hpc
              have hq0 : Upto h w i j q := by
                rcases (hS' q).mp hq with hq0 | hqe
                · exact hq0
                · exact absurd hqe hqc
              rw [lgetP_lset_ne _ hpc, lgetP_lset_ne _ hqc,
                hro1 _ (hlab p hp0 hfp).2, hro1 _ (hlab q hq0 hfq).2] at hFeq
              by_cases hcp : rootOf st.uf.parent_or_size (lgetP st.labeled p).toNat
                  = rootOf st.uf.parent_or_size l0.toNat ∨
                  ∃ x ∈ rest, rootOf st.uf.parent_or_size (lgetP st.labeled p).toNat
                    = rootOf st.uf.parent_or_size x.toNat
              · by_cases hcq : rootOf st.uf.parent_or_size (lgetP st.labeled q).toNat
                    = rootOf st.uf.parent_or_size l0.toNat ∨
                    ∃ x ∈ rest, rootOf st.uf.parent_or_size (lgetP st.labeled q).toNat
                      = rootOf st.uf.parent_or_size x.toNat
                · exact Relation.ReflTransGen.trans (hconn_to_c p hp0 hfp hcp)
                    (connIn_symm (fun a b hab => adj8_symm hab)
                      (hconn_to_c q hq0 hfq hcq))
                · rw [if_pos hcp, if_neg hcq] at hFeq
                  rcases hwor with hw1 | ⟨x, hxr, hw1⟩
                  · exact absurd (Or.inl (hFeq.symm.trans hw1)) hcq
                  · exact absurd (Or.inr ⟨x, hxr, hFeq.symm.trans hw1⟩) hcq
              · by_cases hcq : rootOf st.uf.parent_or_size (lgetP st.labeled q).toNat
                    = rootOf st.uf.parent_or_size l0.toNat ∨
                    ∃ x ∈ rest, rootOf st.uf.parent_or_size (lgetP st.labeled q).toNat
                      = rootOf st.uf.parent_or_size x.toNat
                · rw [if_neg hcp, if_pos hcq] at hFeq
                  rcases hwor with hw1 | ⟨x, hxr, hw1⟩
                  · exact absurd (Or.inl (hFeq.trans hw1)) hcp
                  · exact absurd (Or.inr ⟨x, hxr, hFeq.trans hw1⟩) hcp
                · rw [if_neg hcp, if_neg hcq] at hFeq
                  exact connIn_mono (fun r hr => (hS' r).mpr (Or.inl hr))
                    ((hpart p q hp0 hq0 hfp hfq).mp hFeq)
        · intro hconn
          refine rtg_lift
            (fun z => rootOf uf1.parent_or_size
              (lgetP (lset st.labeled i j l0) z).toNat)
            ?_ p q hconn
          rintro x y ⟨hx, hy, hfgx, hfgy, hadjxy⟩
          beta_reduce
          by_cases hxc : x = (i, j)
          · by_cases hyc : y = (i, j)
            · rw [hxc, hyc]
            · have hy0 : Upto h w i j y := by
                rcases (hS' y).mp hy with hy0 | hye
                · exact hy0
                · exact absurd hye hyc
              have hadjyc : adj8 y (i, j) := by
                rw [hxc] at hadjxy
                exact adj8_symm hadjxy
              have hmemy : lgetP st.labeled y ∈ l0 :: rest := by
                rw [← hcase]
                exact hfls_tgt y hy0 hfgy hadjyc
              rw [hxc, hvc, lgetP_lset_ne _ hyc]
              rcases List.mem_cons.mp hmemy with hyl0 | hyrest
              · rw [hyl0]
              · rw [hro1 _ hl0b, hro1 _ (hlab y hy0 hfgy).2,
                  if_pos (Or.inl rfl),
                  if_pos (Or.inr ⟨lgetP st.labeled y, hyrest, rfl⟩)]
          · by_cases hyc : y = (i, j)
            · have hx0 : Upto h w i j x := by
                rcases (hS' x).mp hx with hx0 | hxe
                · exact hx0
                · exact absurd hxe hxc
              have hadjxc : adj8 x (i, j) := by
                rw [hyc] at hadjxy
                exact hadjxy
              have hmemx : lgetP st.labeled x ∈ l0 :: rest := by
                rw [← hcase]
                exact hfls_tgt x hx0 hfgx hadjxc
              rw [hyc, hvc, lgetP_lset_ne _ hxc]
              rcases List.mem_cons.mp hmemx with hxl0 | hxrest
              · rw [hxl0]
              · rw [hro1 _ hl0b, hro1 _ (hlab x hx0 hfgx).2,
                  if_pos (Or.inl rfl),
                  if_pos (Or.inr ⟨lgetP st.labeled x, hxrest, rfl⟩)]
            · have hx0 : Upto h w i j x := by
                rcases (hS' x).mp hx with hx0 | hxe
                · exact hx0
                · exact absurd hxe hxc
              have hy0 : Upto h w i j y := by
                rcases (hS' y).mp hy with hy0 | hye
                · exact hy0
                · exact absurd hye hyc
              have hre := (hpart x y hx0 hy0 hfgx hfgy).mpr
                (connIn_single hx0 hy0 hfgx hfgy hadjxy)
              rw [lgetP_lset_ne _ hxc, lgetP_lset_ne _ hyc,
                hro1 _ (hlab x hx0 hfgx).2, hro1 _ (hlab y hy0 hfgy).2, hre]
  · -- background cell: the state is unchanged
    have hfg' : bget bi i j = false := by
      cases hb : bget bi i j
      · rfl
      · exact absurd hb hfg
    refine ⟨st, ?_, scaninv_bg_step hi hj hfg' hinv⟩
    simp only [cell8, hfg', Bool.not_false, if_true]

theorem scaninv_congr {bi : List (List Bool)} {adj : Nat × Nat → Nat × Nat → Prop}
    {h w : Nat} {S T : Nat × Nat → Prop} (hST : ∀ p, S p ↔ T p) {st : LState}
    (hinv : ScanInv bi adj h w S st) : ScanInv bi adj h w T st := by
  obtain ⟨h1, h2, h3, h4, h5, h6, h7⟩ := hinv
  refine ⟨h1, h2, h3, fun p hp hf => h4 p ((hST p).mpr hp) hf,
    fun p hnp => h5 p (fun hc => hnp ⟨(hST p).mp hc.1, hc.2⟩),
    fun l hl => ?_, fun p q hp hq hfp hfq => ?_⟩
  · obtain ⟨p, hp, hf, hlp⟩ := h6 l hl
    exact ⟨p, (hST p).mp hp, hf, hlp⟩
  · rw [h7 p q ((hST p).mpr hp) ((hST q).mpr hq) hfp hfq]
    exact connIn_congr hST p q

theorem upto_zero (h w : Nat) (p : Nat × Nat) : ¬Upto h w 0 0 p := by
  obtain ⟨a, b⟩ := p
  unfold Upto rasterLt
  omega

theorem getD_replicate2 {α : Type} (n i : Nat) (x d : α) :
    (List.replicate n x).getD i d = if i < n then x else d := by
  rw [List.getD_eq_getElem?_getD, List.getElem?_replicate]
  by_cases hi : i < n
  · rw [if_pos hi, if_pos hi]
    rfl
  · rw [if_neg hi, if_neg hi]
    rfl

theorem lget_replicate (h w i j : Nat) :
    lget (List.replicate h (List.replicate w (-1 : Int))) i j = -1 := by
  unfold lget
  rw [getD_replicate2]
  by_cases hi : i < h
  · rw [if_pos hi, getD_replicate2, ite_self]
  · rw [if_neg hi]
    rfl

/-- The invariant holds before any cell has been processed. -/
theorem scaninv_init (bi : List (List Bool))
    (adj : Nat × Nat → Nat × Nat → Prop) (h w : Nat) :
    ScanInv bi adj h w (Upto h w 0 0)
      ⟨List.replicate h (List.replicate w (-1)), UnionFind.new 0⟩ := by
  refine ⟨by simp, ?_, (WFu_new 0).1, ?_, ?_, ?_, ?_⟩
  · intro r hr
    rw [List.eq_of_mem_replicate hr]
    simp
  · intro p hp _
    exact absurd hp (upto_zero h w p)
  · intro p _
    exact lget_replicate h w p.1 p.2
  · intro l hl
    exact absurd hl (Nat.not_lt_zero l)
  · intro p q hp _ _ _
    exact absurd hp (upto_zero h w p)

/-- One scanned row carries the invariant from column `0` to column `jmax`,
given that every single cell does its step. -/
theorem scan_row {bi : List (List Bool)} {adj : Nat × Nat → Nat × Nat → Prop}
    {h w : Nat} (cell : Nat → Nat → LState → Option LState)
    (hstep : ∀ i j st, i < h → j < w → ScanInv bi adj h w (Upto h w i j) st →
      ∃ st', cell i j st = some st' ∧ ScanInv bi adj h w (Upto h w i (j + 1)) st')
    {i : Nat} (hi : i < h) :
    ∀ jmax, jmax ≤ w → ∀ st, ScanInv bi adj h w (Upto h w i 0) st →
      ∃ st', loopN (fun j st2 => cell i j st2) jmax st = some st' ∧
        ScanInv bi adj h w (Upto h w i jmax) st' := by
  intro jmax
  induction jmax with
  | zero =>
      intro _ st hinv
      exact ⟨st, rfl, hinv⟩
  | succ k ih =>
      intro hk st hinv
      obtain ⟨st1, heq1, hinv1⟩ := ih (by omega) st hinv
      obtain ⟨st', heq2, hinv2⟩ := hstep i k st1 hi (by omega) hinv1
      refine ⟨st', ?_, hinv2⟩
      simp only [loopN]
      rw [heq1]
      exact heq2

/-- The whole raster scan: running the per-row loop over all `imax` first
rows carries the invariant to `Upto h w imax 0`. -/
theorem scan_grid {bi : List (List Bool)} {adj : Nat × Nat → Nat × Nat → Prop}
    {h w : Nat} (cell : Nat → Nat → LState → Option LState)
    (hh : bi.length = h) (hw : (bi.getD 0 []).length = w)
    (hrect : ∀ i, i < bi.length → (bi.getD i []).length = (bi.getD 0 []).length)
    (hstep : ∀ i j st, i < h → j < w → ScanInv bi adj h w (Upto h w i j) st →
      ∃ st', cell i j st = some st' ∧ ScanInv bi adj h w (Upto h w i (j + 1)) st') :
    ∀ imax, imax ≤ h → ∀ st, ScanInv bi adj h w (Upto h w 0 0) st →
      ∃ st', loopN (fun i st1 =>
          if (bi.getD i []).length = (bi.getD 0 []).length then
            loopN (fun j st2 => cell i j st2) (bi.getD 0 []).length st1
          else none) imax st = some st' ∧
        ScanInv bi adj h w (Upto h w imax 0) st' := by
  intro imax
  induction imax with
  | zero =>
      intro _ st hinv
      exact ⟨st, rfl, hinv⟩
  | succ k ih =>
      intro hk st hinv
      obtain ⟨st1, heq1, hinv1⟩ := ih (by omega) st hinv
      obtain ⟨st', heq2, hinv2⟩ := scan_row cell hstep (show k < h by omega)
        (bi.getD 0 []).length (by omega) st1 hinv1
      rw [hw] at hinv2
      refine ⟨st', ?_, scaninv_congr (fun p => upto_row_end p) hinv2⟩
      simp only [loopN]
      rw [heq1]
      show (if (bi.getD k []).length = (bi.getD 0 []).length then
          loopN (fun j st2 => cell k j st2) (bi.getD 0 []).length st1
        else none) = some st'
      rw [if_pos (hrect k (by omega))]
      exact heq2

/-- Invariant of the relabeling pass of `reassign_labels` after processing
exactly the cells of the region `S` of the original grid `g0`: cells outside
`S` still carry their provisional labels, processed background cells are
still `-1`, every processed foreground cell carries the dense label recorded
for its class representative, the recorded labels are exactly `0`, …,
`label_cnt - 1` without repetition, each is witnessed by a processed cell,
and smaller dense labels appear earlier in raster order. -/
def RInv (g0 : List (List Int)) (uf0 : UnionFind) (h w : Nat)
    (S : Nat × Nat → Prop) (st : RState) : Prop :=
  st.labeled.length = h ∧
  (∀ r ∈ st.labeled, r.length = w) ∧
  LeaderPost uf0.parent_or_size st.uf.parent_or_size ∧
  st.reassignment_labels.length = uf0.get_elem_num ∧
  0 ≤ st.label_cnt ∧
  (∀ p, ¬S p → lgetP st.labeled p = lgetP g0 p) ∧
  (∀ p, S p → lgetP g0 p = -1 → lgetP st.labeled p = -1) ∧
  (∀ p, S p → lgetP g0 p ≠ -1 →
    st.reassignment_labels.getD
      (rootOf uf0.parent_or_size (lgetP g0 p).toNat) none
      = some (lgetP st.labeled p)) ∧
  (∀ r v, st.reassignment_labels.getD r none = some v →
    0 ≤ v ∧ v < st.label_cnt ∧
    ∃ p, S p ∧ lgetP g0 p ≠ -1 ∧
      rootOf uf0.parent_or_size (lgetP g0 p).toNat = r ∧
      lgetP st.labeled p = v) ∧
  (∀ t : Nat, Int.ofNat t < st.label_cnt →
    ∃ r, st.reassignment_labels.getD r none = some (Int.ofNat t)) ∧
  (∀ r1 r2 v, st.reassignment_labels.getD r1 none = some v →
    st.reassignment_labels.getD r2 none = some v → r1 = r2) ∧
  (∀ q, S q → lgetP g0 q ≠ -1 → ∀ t : Nat, Int.ofNat t < lgetP st.labeled q →
    ∃ p, S p ∧ lgetP g0 p ≠ -1 ∧ lgetP st.labeled p = Int.ofNat t ∧ rasterLt p q)

/-- One step of the relabeling pass: processing cell `(i, j)` always succeeds
and carries `RInv` one cell further. -/
theorem rcell_step {g0 : List (List Int)} {uf0 : UnionFind} {h w i j : Nat}
    {st : RState} (hi : i < h) (hj : j < w)
    (hwf0 : WFp uf0.parent_or_size)
    (hbound : ∀ p : Nat × Nat, p.1 < h → p.2 < w → lgetP g0 p ≠ -1 →
      0 ≤ lgetP g0 p ∧ (lgetP g0 p).toNat < uf0.get_elem_num)
    (hinv : RInv g0 uf0 h w (Upto h w i j) st) :
    ∃ st', rcell i j st = some st' ∧ RInv g0 uf0 h w (Upto h w i (j + 1)) st' := by
  obtain ⟨hlen, hrows, hpost, hrlen, hcnt0, hout, hbgS, hfgS, hasg, hsur, hinj, hord⟩ := hinv
  have hS' : ∀ p, Upto h w i (j + 1) p ↔ Upto h w i j p ∨ p = (i, j) := upto_step hi hj
  have hcS : ¬Upto h w i j (i, j) := upto_not_self h w i j
  have hcS2 : Upto h w i (j + 1) (i, j) := (hS' (i, j)).mpr (Or.inr rfl)
  have hcur : lget st.labeled i j = lgetP g0 (i, j) := hout (i, j) hcS
  have hilen : i < st.labeled.length := by rw [hlen]; exact hi
  by_cases hbg : lgetP g0 (i, j) = -1
  · -- background cell: skipped, the state is unchanged
    refine ⟨st, ?_, hlen, hrows, hpost, hrlen, hcnt0, ?_, ?_, ?_, ?_, hsur, hinj, ?_⟩
    · unfold rcell
      rw [hcur, if_pos hbg]
    · intro p hnp
      exact hout p (fun hc => hnp ((hS' p).mpr (Or.inl hc)))
    · intro p hp hpbg
      rcases (hS' p).mp hp with hp0 | hpe
      · exact hbgS p hp0 hpbg
      · rw [hpe]
        show lget st.labeled i j = -1
        rw [hcur]
        exact hbg
    · intro p hp hpfg
      rcases (hS' p).mp hp with hp0 | hpe
      · exact hfgS p hp0 hpfg
      · rw [hpe] at hpfg
        exact absurd hbg hpfg
    · intro r v hrv
      obtain ⟨h1, h2, p, hp, h3, h4, h5⟩ := hasg r v hrv
      exact ⟨h1, h2, p, (hS' p).mpr (Or.inl hp), h3, h4, h5⟩
    · intro q hq hqfg t ht
      rcases (hS' q).mp hq with hq0 | hqe
      · obtain ⟨p, hp, h1, h2, h3⟩ := hord q hq0 hqfg t ht
        exact ⟨p, (hS' p).mpr (Or.inl hp), h1, h2, h3⟩
      · rw [hqe] at hqfg
        exact absurd hbg hqfg
  · -- foreground cell
    have hb := hbound (i, j) hi hj hbg
    have hwfc : WFp st.uf.parent_or_size := hpost.2.2.2.2
    have hclen : st.uf.parent_or_size.length = uf0.parent_or_size.length := hpost.1
    have hvlt : (lgetP g0 (i, j)).toNat < st.uf.parent_or_size.length := by
      rw [hclen]
      exact hb.2
    obtain ⟨uf1, hleq, hg1, post1⟩ := leader_spec hwfc hvlt
    have hpost' : LeaderPost uf0.parent_or_size uf1.parent_or_size :=
      leaderPost_trans hpost post1
    have hr0 : rootOf st.uf.parent_or_size (lgetP g0 (i, j)).toNat
        = rootOf uf0.parent_or_size (lgetP g0 (i, j)).toNat :=
      hpost.rootOf_eq _ hb.2
    have hrlt : rootOf st.uf.parent_or_size (lgetP g0 (i, j)).toNat
        < st.reassignment_labels.length := by
      rw [hrlen, hr0]
      exact rootOf_lt hwf0 hb.2
    cases hgd : st.reassignment_labels.getD
        (rootOf st.uf.parent_or_size (lgetP g0 (i, j)).toNat) none with
    | some v =>
        have hgd0 : st.reassignment_labels.getD
            (rootOf uf0.parent_or_size (lgetP g0 (i, j)).toNat) none = some v := by
          rw [← hr0]
          exact hgd
        obtain ⟨hv0, hvcnt, pw, hpwS, hpwfg, hpwroot, hpwval⟩ := hasg _ v hgd0
        refine ⟨⟨lset st.labeled i j v, uf1, st.reassignment_labels, st.label_cnt⟩, ?_,
          by rw [lset_length]; exact hlen, lset_rows hrows j v hilen,
          hpost', hrlen, hcnt0, ?_, ?_, ?_, ?_, hsur, hinj, ?_⟩
        · unfold rcell
          rw [hcur, if_neg hbg]
          simp only [hleq]
          rw [if_pos hrlt]
          simp only [hgd]
        · intro p hnp
          have hpc : p ≠ (i, j) := fun he => hnp (he ▸ hcS2)
          rw [lgetP_lset_ne v hpc]
          exact hout p (fun hc => hnp ((hS' p).mpr (Or.inl hc)))
        · intro p hp hpbg
          rcases (hS' p).mp hp with hp0 | hpe
          · have hpc : p ≠ (i, j) := fun he => hcS (he ▸ hp0)
            rw [lgetP_lset_ne v hpc]
            exact hbgS p hp0 hpbg
          · rw [hpe] at hpbg
            exact absurd hpbg hbg
        · intro p hp hpfg
          rcases (hS' p).mp hp with hp0 | hpe
          · have hpc : p ≠ (i, j) := fun he => hcS (he ▸ hp0)
            rw [lgetP_lset_ne v hpc]
            exact hfgS p hp0 hpfg
          · rw [hpe, lgetP_lset_self hrows v hilen hj]
            exact hgd0
        · intro r v1 hrv
          obtain ⟨h1, h2, p, hp, h3, h4, h5⟩ := hasg r v1 hrv
          have hpc : p ≠ (i, j) := fun he => hcS (he ▸ hp)
          exact ⟨h1, h2, p, (hS' p).mpr (Or.inl hp), h3, h4,
            by rw [lgetP_lset_ne v hpc]; exact h5⟩
        · intro q hq hqfg t ht
          rcases (hS' q).mp hq with hq0 | hqe
          · have hqc : q ≠ (i, j) := fun he => hcS (he ▸ hq0)
            rw [lgetP_lset_ne v hqc] at ht
            obtain ⟨p, hp, h1, h2, h3⟩ := hord q hq0 hqfg t ht
            have hpc : p ≠ (i, j) := fun he => hcS (he ▸ hp)
            exact ⟨p, (hS' p).mpr (Or.inl hp), h1,
              by rw [lgetP_lset_ne v hpc]; exact h2, h3⟩
          · rw [hqe, lgetP_lset_self hrows v hilen hj] at ht
            have htc : Int.ofNat t < st.label_cnt := by omega
            obtain ⟨r2, hr2⟩ := hsur t htc
            obtain ⟨_, _, p, hp, h1, _, h5⟩ := hasg r2 (Int.ofNat t) hr2
            have hpc : p ≠ (i, j) := fun he => hcS (he ▸ hp)
            refine ⟨p, (hS' p).mpr (Or.inl hp), h1,
              by rw [lgetP_lset_ne v hpc]; exact h5, ?_⟩
            rw [hqe]
            exact hp.2.2
    | none =>
        have hgd0 : st.reassignment_labels.getD
            (rootOf uf0.parent_or_size (lgetP g0 (i, j)).toNat) none = none := by
          rw [← hr0]
          exact hgd
        refine ⟨⟨lset st.labeled i j st.label_cnt, uf1,
            st.reassignment_labels.set
              (rootOf st.uf.parent_or_size (lgetP g0 (i, j)).toNat)
              (some st.label_cnt),
            st.label_cnt + 1⟩, ?_,
          by rw [lset_length]; exact hlen, lset_rows hrows j st.label_cnt hilen,
          hpost', by rw [List.length_set]; exact hrlen,
          (by show (0 : Int) ≤ st.label_cnt + 1; omega),
          ?_, ?_, ?_, ?_, ?_, ?_, ?_⟩
        · unfold rcell
          rw [hcur, if_neg hbg]
          simp only [hleq]
          rw [if_pos hrlt]
          simp only [hgd]
        · intro p hnp
          have hpc : p ≠ (i, j) := fun he => hnp (he ▸ hcS2)
          rw [lgetP_lset_ne _ hpc]
          exact hout p (fun hc => hnp ((hS' p).mpr (Or.inl hc)))
        · intro p hp hpbg
          rcases (hS' p).mp hp with hp0 | hpe
          · have hpc : p ≠ (i, j) := fun he => hcS (he ▸ hp0)
            rw [lgetP_lset_ne _ hpc]
            exact hbgS p hp0 hpbg
          · rw [hpe] at hpbg
            exact absurd hpbg hbg
        · intro p hp hpfg
          rcases (hS' p).mp hp with hp0 | hpe
          · have hpc : p ≠ (i, j) := fun he => hcS (he ▸ hp0)
            have hold := hfgS p hp0 hpfg
            have hner : rootOf uf0.parent_or_size (lgetP g0 p).toNat
                ≠ rootOf st.uf.parent_or_size (lgetP g0 (i, j)).toNat := by
              intro hee
              rw [hee, hr0, hgd0] at hold
              exact Option.noConfusion hold
            rw [lgetP_lset_ne _ hpc, getD_set_ne _ _ (fun hee => hner hee.symm)]
            exact hold
          · rw [hpe, lgetP_lset_self hrows _ hilen hj, ← hr0,
              getD_set_self _ _ hrlt]
        · intro r v1 hrv
          by_cases hreq : rootOf st.uf.parent_or_size (lgetP g0 (i, j)).toNat = r
          · rw [← hreq, getD_set_self _ _ hrlt] at hrv
            have hv1 : v1 = st.label_cnt := by
              injection hrv with hv1
              exact hv1.symm
            refine ⟨by rw [hv1]; exact hcnt0,
              by rw [hv1]; show st.label_cnt < st.label_cnt + 1; omega,
              (i, j), hcS2, hbg, ?_,
              by rw [lgetP_lset_self hrows _ hilen hj, hv1]⟩
            rw [← hr0, hreq]
          · rw [getD_set_ne _ _ hreq] at hrv
            obtain ⟨h1, h2, p, hp, h3, h4, h5⟩ := hasg r v1 hrv
            have hpc : p ≠ (i, j) := fun he => hcS (he ▸ hp)
            exact ⟨h1, by show v1 < st.label_cnt + 1; omega, p,
              (hS' p).mpr (Or.inl hp), h3, h4,
              by rw [lgetP_lset_ne _ hpc]; exact h5⟩
        · intro t ht
          have ht2 : Int.ofNat t < st.label_cnt + 1 := ht
          by_cases htc : Int.ofNat t < st.label_cnt
          · obtain ⟨r2, hr2⟩ := hsur t htc
            have hner : rootOf st.uf.parent_or_size (lgetP g0 (i, j)).toNat ≠ r2 := by
              intro hee
              rw [← hee, hgd] at hr2
              exact Option.noConfusion hr2
            exact ⟨r2, by rw [getD_set_ne _ _ hner]; exact hr2⟩
          · have hte : Int.ofNat t = st.label_cnt := by omega
            clear ht
            exact ⟨rootOf st.uf.parent_or_size (lgetP g0 (i, j)).toNat,
              by rw [getD_set_self _ _ hrlt, hte]⟩
        · intro r1 r2 v1 h1 h2
          by_cases he1 : rootOf st.uf.parent_or_size (lgetP g0 (i, j)).toNat = r1
          · by_cases he2 : rootOf st.uf.parent_or_size (lgetP g0 (i, j)).toNat = r2
            · rw [← he1, ← he2]
            · rw [← he1, getD_set_self _ _ hrlt] at h1
              rw [getD_set_ne _ _ he2] at h2
              have hv1 : v1 = st.label_cnt := by
                injection h1 with hv1
                exact hv1.symm
              obtain ⟨_, hlt, _⟩ := hasg r2 v1 h2
              rw [hv1] at hlt
              omega
          · rw [getD_set_ne _ _ he1] at h1
            by_cases he2 : rootOf st.uf.parent_or_size (lgetP g0 (i, j)).toNat = r2
            · rw [← he2, getD_set_self _ _ hrlt] at h2
              have hv1 : v1 = st.label_cnt := by
                injection h2 with hv1
                exact hv1.symm
              obtain ⟨_, hlt, _⟩ := hasg r1 v1 h1
              rw [hv1] at hlt
              omega
            · rw [getD_set_ne _ _ he2] at h2
              exact hinj r1 r2 v1 h1 h2
        · intro q hq hqfg t ht
          rcases (hS' q).mp hq with hq0 | hqe
          · have hqc : q ≠ (i, j) := fun he => hcS (he ▸ hq0)
            rw [lgetP_lset_ne _ hqc] at ht
            obtain ⟨p, hp, h1, h2, h3⟩ := hord q hq0 hqfg t ht
            have hpc : p ≠ (i, j) := fun he => hcS (he ▸ hp)
            exact ⟨p, (hS' p).mpr (Or.inl hp), h1,
              by rw [lgetP_lset_ne _ hpc]; exact h2, h3⟩
          · rw [hqe, lgetP_lset_self hrows _ hilen hj] at ht
            obtain ⟨r2, hr2⟩ := hsur t ht
            obtain ⟨_, _, p, hp, h1, _, h5⟩ := hasg r2 (Int.ofNat t) hr2
            have hpc : p ≠ (i, j) := fun he => hcS (he ▸ hp)
            refine ⟨p, (hS' p).mpr (Or.inl hp), h1,
              by rw [lgetP_lset_ne _ hpc]; exact h5, ?_⟩
            rw [hqe]
            exact hp.2.2

theorem rinv_congr {g0 : List (List Int)} {uf0 : UnionFind} {h w : Nat}
    {S T : Nat × Nat → Prop} (hST : ∀ p, S p ↔ T p) {st : RState}
    (hinv : RInv g0 uf0 h w S st) : RInv g0 uf0 h w T st := by
  obtain ⟨h1, h2, h3, h4, h5, h6, h7, h8, h9, h10, h11, h12⟩ := hinv
  refine ⟨h1, h2, h3, h4, h5,
    fun p hnp => h6 p (fun hc => hnp ((hST p).mp hc)),
    fun p hp => h7 p ((hST p).mpr hp),
    fun p hp => h8 p ((hST p).mpr hp), ?_, h10, h11, ?_⟩
  · intro r v hrv
    obtain ⟨ha, hb, p, hp, hc, hd, he⟩ := h9 r v hrv
    exact ⟨ha, hb, p, (hST p).mp hp, hc, hd, he⟩
  · intro q hq hqfg t ht
    obtain ⟨p, hp, ha, hb, hc⟩ := h12 q ((hST q).mpr hq) hqfg t ht
    exact ⟨p, (hST p).mp hp, ha, hb, hc⟩

theorem rcell_row {g0 : List (List Int)} {uf0 : UnionFind} {h w : Nat}
    (hwf0 : WFp uf0.parent_or_size)
    (hbound : ∀ p : Nat × Nat, p.1 < h → p.2 < w → lgetP g0 p ≠ -1 →
      0 ≤ lgetP g0 p ∧ (lgetP g0 p).toNat < uf0.get_elem_num)
    {i : Nat} (hi : i < h) :
    ∀ jmax, jmax ≤ w → ∀ st, RInv g0 uf0 h w (Upto h w i 0) st →
      ∃ st', loopN (fun j st2 => rcell i j st2) jmax st = some st' ∧
        RInv g0 uf0 h w (Upto h w i jmax) st' := by
  intro jmax
  induction jmax with
  | zero =>
      intro _ st hinv
      exact ⟨st, rfl, hinv⟩
  | succ k ih =>
      intro hk st hinv
      obtain ⟨st1, heq1, hinv1⟩ := ih (by omega) st hinv
      obtain ⟨st', heq2, hinv2⟩ := rcell_step hi (by omega) hwf0 hbound hinv1
      refine ⟨st', ?_, hinv2⟩
      simp only [loopN]
      rw [heq1]
      exact heq2

theorem rcell_grid {g0 : List (List Int)} {uf0 : UnionFind} {h w : Nat}
    (hwf0 : WFp uf0.parent_or_size)
    (hbound : ∀ p : Nat × Nat, p.1 < h → p.2 < w → lgetP g0 p ≠ -1 →
      0 ≤ lgetP g0 p ∧ (lgetP g0 p).toNat < uf0.get_elem_num) :
    ∀ imax, imax ≤ h → ∀ st, RInv g0 uf0 h w (Upto h w 0 0) st →
      ∃ st', loopN (fun i st1 => loopN (fun j st2 => rcell i j st2) w st1)
          imax st = some st' ∧
        RInv g0 uf0 h w (Upto h w imax 0) st' := by
  intro imax
  induction imax with
  | zero =>
      intro _ st hinv
      exact ⟨st, rfl, hinv⟩
  | succ k ih =>
      intro hk st hinv
      obtain ⟨st1, heq1, hinv1⟩ := ih (by omega) st hinv
      obtain ⟨st', heq2, hinv2⟩ := rcell_row hwf0 hbound (show k < h by omega)
        w (Nat.le_refl _) st1 hinv1
      refine ⟨st', ?_, rinv_congr (fun p => upto_row_end p) hinv2⟩
      simp only [loopN]
      rw [heq1]
      exact heq2

/-- Complete specification of `reassign_labels` on the provisional grid it
receives: it succeeds and its result satisfies the full-region relabeling
invariant. -/
theorem reassign_spec {g0 : List (List Int)} {uf0 : UnionFind}
    (h1 : 1 ≤ g0.length)
    (hrows : ∀ r ∈ g0, r.length = (g0.getD 0 []).length)
    (h2 : 1 ≤ (g0.getD 0 []).length)
    (hwf0 : WFp uf0.parent_or_size)
    (hbound : ∀ p : Nat × Nat, p.1 < g0.length → p.2 < (g0.getD 0 []).length →
      lgetP g0 p ≠ -1 → 0 ≤ lgetP g0 p ∧ (lgetP g0 p).toNat < uf0.get_elem_num) :
    ∃ st' : RState, reassign_labels g0 uf0 = some st'.labeled ∧
      RInv g0 uf0 g0.length (g0.getD 0 []).length
        (Upto g0.length (g0.getD 0 []).length g0.length 0) st' := by
  have hinit : RInv g0 uf0 g0.length (g0.getD 0 []).length
      (Upto g0.length (g0.getD 0 []).length 0 0)
      ⟨g0, uf0, List.replicate uf0.get_elem_num none, 0⟩ := by
    refine ⟨rfl, hrows, LeaderPost.refl_self _ hwf0, by simp,
      (by show (0 : Int) ≤ 0; omega),
      fun p _ => rfl, ?_, ?_, ?_, ?_, ?_, ?_⟩
    · intro p hp _
      exact absurd hp (upto_zero _ _ p)
    · intro p hp _
      exact absurd hp (upto_zero _ _ p)
    · intro r v hrv
      rw [getD_replicate2, ite_self] at hrv
      exact Option.noConfusion hrv
    · intro t ht
      exact absurd ht (Int.ofNat_nonneg t).not_lt
    · intro r1 r2 v hp _
      rw [getD_replicate2, ite_self] at hp
      exact Option.noConfusion hp
    · intro q hq _
      exact absurd hq (upto_zero _ _ q)
  obtain ⟨st', heq, hinv⟩ := rcell_grid hwf0 hbound g0.length (Nat.le_refl _)
    ⟨g0, uf0, List.replicate uf0.get_elem_num none, 0⟩ hinit
  refine ⟨st', ?_, hinv⟩
  unfold reassign_labels
  rw [if_neg (by omega), if_neg (by omega)]
  simp only [heq]

/-- The full four-neighborhood raster scan succeeds and establishes the scan
invariant over the whole grid. -/
theorem scan4_complete {bi : List (List Bool)} (hwf : Wellformed bi) :
    ∃ st', loopN (fun i st1 =>
        if (bi.getD i []).length = (bi.getD 0 []).length then
          loopN (fun j st2 => cell4 bi i j st2) (bi.getD 0 []).length st1
        else none) bi.length
        ⟨List.replicate bi.length (List.replicate (bi.getD 0 []).length (-1)),
          UnionFind.new 0⟩ = some st' ∧
      ScanInv bi adj4 bi.length (bi.getD 0 []).length
        (Upto bi.length (bi.getD 0 []).length bi.length 0) st' :=
  scan_grid (fun i j st => cell4 bi i j st) rfl rfl hwf.2.2
    (fun _ _ _ hi hj hinv => cell4_step hi hj hinv)
    bi.length (Nat.le_refl _) _ (scaninv_init bi adj4 _ _)

/-- The full eight-neighborhood raster scan succeeds and establishes the scan
invariant over the whole grid. -/
theorem scan8_complete {bi : List (List Bool)} (hwf : Wellformed bi) :
    ∃ st', loopN (fun i st1 =>
        if (bi.getD i []).length = (bi.getD 0 []).length then
          loopN (fun j st2 => cell8 bi (bi.getD 0 []).length i j st2)
            (bi.getD 0 []).length st1
        else none) bi.length
        ⟨List.replicate bi.length (List.replicate (bi.getD 0 []).length (-1)),
          UnionFind.new 0⟩ = some st' ∧
      ScanInv bi adj8 bi.length (bi.getD 0 []).length
        (Upto bi.length (bi.getD 0 []).length bi.length 0) st' :=
  scan_grid (fun i j st => cell8 bi (bi.getD 0 []).length i j st) rfl rfl hwf.2.2
    (fun _ _ _ hi hj hinv => cell8_step hi hj hinv)
    bi.length (Nat.le_refl _) _ (scaninv_init bi adj8 _ _)

/-- Membership of a coordinate pair in the grid. -/
def inGrid (bi : List (List Bool)) (p : Nat × Nat) : Prop :=
  p.1 < bi.length ∧ p.2 < (bi.getD 0 []).length

instance (bi : List (List Bool)) (p : Nat × Nat) : Decidable (inGrid bi p) := by
  unfold inGrid
  infer_instance

/-- What a successful labeling run guarantees about its output `g1` under
the adjacency `adj`: the dimensions of the input, background exactly `-1`,
foreground labels exactly the dense range below some `k`, label equality
coinciding with connectivity, and smaller labels appearing first in raster
order. -/
def Outcome (bi : List (List Bool)) (adj : Nat × Nat → Nat × Nat → Prop)
    (g1 : List (List Int)) : Prop :=
  g1.length = bi.length ∧
  (∀ r ∈ g1, r.length = (bi.getD 0 []).length) ∧
  ∃ k : Nat,
    (∀ p, inGrid bi p →
      (bgetP bi p = false ↔ lgetP g1 p = -1) ∧
      (bgetP bi p = true → 0 ≤ lgetP g1 p ∧ lgetP g1 p < Int.ofNat k)) ∧
    (∀ p q, inGrid bi p → inGrid bi q → bgetP bi p = true → bgetP bi q = true →
      (lgetP g1 p = lgetP g1 q ↔
        conn bi adj bi.length (bi.getD 0 []).length p q)) ∧
    (∀ t, t < k → ∃ p, inGrid bi p ∧ bgetP bi p = true ∧
      lgetP g1 p = Int.ofNat t) ∧
    (∀ q, inGrid bi q → bgetP bi q = true → ∀ t : Nat,
      Int.ofNat t < lgetP g1 q →
      ∃ p, inGrid bi p ∧ bgetP bi p = true ∧ lgetP g1 p = Int.ofNat t ∧
        rasterLt p q)

/-- From the scan invariant over the whole grid, the relabeling pass
succeeds and produces a grid satisfying `Outcome`. -/
theorem pipeline_spec {bi : List (List Bool)} {adj : Nat × Nat → Nat × Nat → Prop}
    {st : LState} (hwf : Wellformed bi)
    (hinv : ScanInv bi adj bi.length (bi.getD 0 []).length
      (Upto bi.length (bi.getD 0 []).length bi.length 0) st) :
    ∃ g1, reassign_labels st.labeled st.uf = some g1 ∧ Outcome bi adj g1 := by
  obtain ⟨hlen, hrows, hwfp, hlab, hbgv, hsurj, hpart⟩ := hinv
  have h1 : 1 ≤ st.labeled.length := by rw [hlen]; exact hwf.1
  have hw0 : (st.labeled.getD 0 []).length = (bi.getD 0 []).length :=
    hrows _ (getD_mem_of_lt st.labeled 0 [] (by omega))
  have hrows' : ∀ r ∈ st.labeled, r.length = (st.labeled.getD 0 []).length := by
    intro r hr
    rw [hw0]
    exact hrows r hr
  have h2 : 1 ≤ (st.labeled.getD 0 []).length := by rw [hw0]; exact hwf.2.1
  have hfgne : ∀ p : Nat × Nat, p.1 < bi.length → p.2 < (bi.getD 0 []).length →
      (bgetP bi p = true ↔ lgetP st.labeled p ≠ -1) := by
    intro p hp1 hp2
    constructor
    · intro hf
      have := (hlab p ((upto_full p).mpr ⟨hp1, hp2⟩) hf).1
      intro he
      rw [he] at this
      omega
    · intro hne
      by_cases hf : bgetP bi p = true
      · exact hf
      · exact absurd (hbgv p (fun hc => hf hc.2)) hne
  have hbound : ∀ p : Nat × Nat, p.1 < st.labeled.length →
      p.2 < (st.labeled.getD 0 []).length → lgetP st.labeled p ≠ -1 →
      0 ≤ lgetP st.labeled p ∧ (lgetP st.labeled p).toNat < st.uf.get_elem_num := by
    intro p hp1 hp2
    rw [hlen] at hp1
    rw [hw0] at hp2
    intro hne
    exact hlab p ((upto_full p).mpr ⟨hp1, hp2⟩) ((hfgne p hp1 hp2).mpr hne)
  obtain ⟨st', heqr, rinv⟩ := reassign_spec h1 hrows' h2 hwfp hbound
  obtain ⟨rlen, rrows, _, _, rcnt0, _, rbgS, rfgS, rasg, rsur, rinj, rord⟩ := rinv
  have hfull : ∀ p : Nat × Nat, p.1 < bi.length → p.2 < (bi.getD 0 []).length →
      Upto st.labeled.length (st.labeled.getD 0 []).length st.labeled.length 0 p := by
    intro p hp1 hp2
    apply (upto_full p).mpr
    rw [hlen, hw0]
    exact ⟨hp1, hp2⟩
  refine ⟨st'.labeled, heqr, by rw [rlen, hlen], ?_, st'.label_cnt.toNat,
    ?_, ?_, ?_, ?_⟩
  · intro r hr
    rw [rrows r hr, hw0]
  · intro p hp
    have hS := hfull p hp.1 hp.2
    have hken : Int.ofNat st'.label_cnt.toNat = st'.label_cnt :=
      Int.toNat_of_nonneg rcnt0
    constructor
    · constructor
      · intro hbgp
        apply rbgS p hS
        by_cases hne : lgetP st.labeled p = -1
        · exact hne
        · rw [(hfgne p hp.1 hp.2).mpr hne] at hbgp
          exact Bool.noConfusion hbgp
      · intro hm1
        by_cases hf : bgetP bi p = true
        · have hprov := (hfgne p hp.1 hp.2).mp hf
          obtain ⟨hv0, _, _⟩ := rasg _ _ (rfgS p hS hprov)
          rw [hm1] at hv0
          omega
        · cases hb : bgetP bi p
          · rfl
          · exact absurd hb hf
    · intro hf
      have hprov := (hfgne p hp.1 hp.2).mp hf
      obtain ⟨hv0, hvlt, _⟩ := rasg _ _ (rfgS p hS hprov)
      rw [hken]
      exact ⟨hv0, hvlt⟩
  · intro p q hp hq hfp hfq
    have hSp := hfull p hp.1 hp.2
    have hSq := hfull q hq.1 hq.2
    have hprovp := (hfgne p hp.1 hp.2).mp hfp
    have hprovq := (hfgne q hq.1 hq.2).mp hfq
    have hrp := rfgS p hSp hprovp
    have hrq := rfgS q hSq hprovq
    have hroots : lgetP st'.labeled p = lgetP st'.labeled q ↔
        rootOf st.uf.parent_or_size (lgetP st.labeled p).toNat
          = rootOf st.uf.parent_or_size (lgetP st.labeled q).toNat := by
      constructor
      · intro he
        rw [he] at hrp
        exact rinj _ _ _ hrp hrq
      · intro he
        rw [he, hrq] at hrp
        injection hrp with he2
        exact he2.symm
    rw [hroots, hpart p q ((upto_full p).mpr hp) ((upto_full q).mpr hq) hfp hfq]
    exact connIn_congr (fun r => upto_full r) p q
  · intro t ht
    have htc : Int.ofNat t < st'.label_cnt := by
      have he : Int.ofNat t = (t : Int) := rfl
      have := Int.toNat_of_nonneg rcnt0
      omega
    obtain ⟨r2, hr2⟩ := rsur t htc
    obtain ⟨_, _, p, hpS, hpne, _, hpv⟩ := rasg r2 (Int.ofNat t) hr2
    have hpb : p.1 < bi.length ∧ p.2 < (bi.getD 0 []).length := by
      have := (upto_full p).mp hpS
      rw [hlen, hw0] at this
      exact this
    exact ⟨p, hpb, (hfgne p hpb.1 hpb.2).mpr hpne, hpv⟩
  · intro q hq hfq t ht
    have hSq := hfull q hq.1 hq.2
    have hprovq := (hfgne q hq.1 hq.2).mp hfq
    obtain ⟨p, hpS, hpne, hpv, hplt⟩ := rord q hSq hprovq t ht
    have hpb : p.1 < bi.length ∧ p.2 < (bi.getD 0 []).length := by
      have := (upto_full p).mp hpS
      rw [hlen, hw0] at this
      exact this
    exact ⟨p, hpb, (hfgne p hpb.1 hpb.2).mpr hpne, hpv, hplt⟩

/-- `four_neighborhood_based_labeling` succeeds on every well-formed grid
and its output satisfies `Outcome bi adj4`. -/
theorem four_total (bi : List (List Bool)) (hwf : Wellformed bi) :
    ∃ g1, four_neighborhood_based_labeling bi = some g1 ∧ Outcome bi adj4 g1 := by
  obtain ⟨st, heqs, hinv⟩ := scan4_complete hwf
  obtain ⟨g1, heqr, hout⟩ := pipeline_spec hwf hinv
  refine ⟨g1, ?_, hout⟩
  unfold four_neighborhood_based_labeling
  rw [if_neg (by have := hwf.1; omega), if_neg (by have := hwf.2.1; omega)]
  simp only [heqs]
  exact heqr

/-- `eight_neighborhood_based_labeling` succeeds on every well-formed grid
and its output satisfies `Outcome bi adj8`. -/
theorem eight_total (bi : List (List Bool)) (hwf : Wellformed bi) :
    ∃ g1, eight_neighborhood_based_labeling bi = some g1 ∧ Outcome bi adj8 g1 := by
  obtain ⟨st, heqs, hinv⟩ := scan8_complete hwf
  obtain ⟨g1, heqr, hout⟩ := pipeline_spec hwf hinv
  refine ⟨g1, ?_, hout⟩
  unfold eight_neighborhood_based_labeling
  rw [if_neg (by have := hwf.1; omega), if_neg (by have := hwf.2.1; omega)]
  simp only [heqs]
  exact heqr

/-- The set of labels of foreground cells in the output grid. -/
def labelSet (bi : List (List Bool)) (g : List (List Int)) : Set Int :=
  {t | ∃ p, inGrid bi p ∧ bgetP bi p = true ∧ lgetP g p = t}

/-- The set of distinct non-negative values occurring in the output grid. -/
def outValues (bi : List (List Bool)) (g : List (List Int)) : Set Int :=
  {t | 0 ≤ t ∧ ∃ p, inGrid bi p ∧ lgetP g p = t}

/-- The connected components of the foreground of `bi` under the adjacency
`adj`, as a set of cell sets. -/
def components (bi : List (List Bool)) (adj : Nat × Nat → Nat × Nat → Prop) :
    Set (Set (Nat × Nat)) :=
  {C | ∃ p, inGrid bi p ∧ bgetP bi p = true ∧
    C = {q | inGrid bi q ∧ bgetP bi q = true ∧
      conn bi adj bi.length (bi.getD 0 []).length q p}}

/-- `p` is the first cell of its connected component in raster order. -/
def rasterFirst (bi : List (List Bool)) (adj : Nat × Nat → Nat × Nat → Prop)
    (p : Nat × Nat) : Prop :=
  inGrid bi p ∧ bgetP bi p = true ∧
  ∀ q, inGrid bi q → bgetP bi q = true →
    conn bi adj bi.length (bi.getD 0 []).length q p → ¬rasterLt q p

theorem rasterLt_trans {p q r : Nat × Nat} (h1 : rasterLt p q)
    (h2 : rasterLt q r) : rasterLt p r := by
  obtain ⟨a, b⟩ := p
  obtain ⟨c, d⟩ := q
  obtain ⟨e, f⟩ := r
  unfold rasterLt at h1 h2 ⊢
  simp only at h1 h2 ⊢
  omega

theorem adj4_le_adj8 {p q : Nat × Nat} (h : adj4 p q) : adj8 p q := by
  obtain ⟨a, b⟩ := p
  obtain ⟨c, d⟩ := q
  unfold adj4 at h
  unfold adj8
  simp only [Prod.mk.injEq] at h ⊢
  omega

theorem connIn_mono_adj {bi : List (List Bool)}
    {adj adj' : Nat × Nat → Nat × Nat → Prop} {S : Nat × Nat → Prop}
    (hle : ∀ p q, adj p q → adj' p q) {p q : Nat × Nat}
    (h : connIn bi adj S p q) : connIn bi adj' S p q :=
  Relation.ReflTransGen.mono
    (fun x y hxy => ⟨hxy.1, hxy.2.1, hxy.2.2.1, hxy.2.2.2.1, hle x y hxy.2.2.2.2⟩) h

/-- Counting consequences of `Outcome`: the labels are the dense range below
the number of components, and raster-earlier components get smaller labels. -/
theorem outcome_count {bi : List (List Bool)}
    {adj : Nat × Nat → Nat × Nat → Prop} {g1 : List (List Int)}
    (hout : Outcome bi adj g1) :
    ∃ k, labelSet bi g1 = Int.ofNat '' Set.Iio k ∧
      (components bi adj).ncard = k ∧
      (∀ p q, rasterFirst bi adj p → rasterFirst bi adj q → rasterLt p q →
        lgetP g1 p < lgetP g1 q) := by
  obtain ⟨_, _, k, hbnd, hiff, hdense, hord⟩ := hout
  have hcast : ∀ n : Nat, Int.ofNat n = (n : Int) := fun _ => rfl
  have hset : labelSet bi g1 = Int.ofNat '' Set.Iio k := by
    apply Set.ext
    intro t
    constructor
    · rintro ⟨p, hpG, hpf, hpv⟩
      obtain ⟨hv0, hvk⟩ := (hbnd p hpG).2 hpf
      rw [hpv] at hv0 hvk
      refine ⟨t.toNat, ?_, ?_⟩
      · show t.toNat < k
        have := hcast k
        omega
      · show Int.ofNat t.toNat = t
        have := hcast t.toNat
        omega
    · rintro ⟨n, hn, rfl⟩
      obtain ⟨p, hpG, hpf, hpv⟩ := hdense n hn
      exact ⟨p, hpG, hpf, hpv⟩
  refine ⟨k, hset, ?_, ?_⟩
  · have him : components bi adj =
        (fun t => {q | inGrid bi q ∧ bgetP bi q = true ∧ lgetP g1 q = t}) ''
          labelSet bi g1 := by
      apply Set.ext
      intro C
      constructor
      · rintro ⟨p, hpG, hpf, rfl⟩
        refine ⟨lgetP g1 p, ⟨p, hpG, hpf, rfl⟩, ?_⟩
        apply Set.ext
        intro q
        constructor
        · rintro ⟨hqG, hqf, hqv⟩
          exact ⟨hqG, hqf, (hiff q p hqG hpG hqf hpf).mp hqv⟩
        · rintro ⟨hqG, hqf, hqc⟩
          exact ⟨hqG, hqf, (hiff q p hqG hpG hqf hpf).mpr hqc⟩
      · rintro ⟨t, ⟨p, hpG, hpf, hpv⟩, rfl⟩
        refine ⟨p, hpG, hpf, ?_⟩
        apply Set.ext
        intro q
        constructor
        · rintro ⟨hqG, hqf, hqv⟩
          exact ⟨hqG, hqf, (hiff q p hqG hpG hqf hpf).mp (by rw [hqv, hpv])⟩
        · rintro ⟨hqG, hqf, hqc⟩
          exact ⟨hqG, hqf, by
            rw [← hpv]
            exact (hiff q p hqG hpG hqf hpf).mpr hqc⟩
    rw [him, Set.ncard_image_of_injOn, hset,
      Set.ncard_image_of_injective _ (fun a b hab => Int.ofNat.inj hab),
      ← Finset.coe_range, Set.ncard_coe_Finset, Finset.card_range]
    intro t1 ht1 t2 ht2 hfib
    beta_reduce at hfib
    obtain ⟨p, hpG, hpf, hpv⟩ := ht1
    have hp1 : p ∈ {q | inGrid bi q ∧ bgetP bi q = true ∧ lgetP g1 q = t1} :=
      ⟨hpG, hpf, hpv⟩
    rw [hfib] at hp1
    rw [← hpv]
    exact hp1.2.2
  · intro p q hp hq hlt
    obtain ⟨hpG, hpf, hpfirst⟩ := hp
    obtain ⟨hqG, hqf, hqfirst⟩ := hq
    have hv0p := (hbnd p hpG).2 hpf
    have hv0q := (hbnd q hqG).2 hqf
    have hne : lgetP g1 p ≠ lgetP g1 q := by
      intro he
      exact hqfirst p hpG hpf ((hiff p q hpG hqG hpf hqf).mp he) hlt
    rcases Int.lt_or_lt_of_ne hne with hc | hc
    · exact hc
    · exfalso
      have htv : Int.ofNat (lgetP g1 q).toNat = lgetP g1 q := by
        have := hcast (lgetP g1 q).toNat
        omega
      obtain ⟨p', hp'G, hp'f, hp'v, hp'lt⟩ := hord p hpG hpf (lgetP g1 q).toNat
        (by rw [htv]; exact hc)
      have hconn : conn bi adj bi.length (bi.getD 0 []).length p' q := by
        apply (hiff p' q hp'G hqG hp'f hqf).mp
        rw [hp'v, htv]
      exact hqfirst p' hp'G hp'f hconn (rasterLt_trans hp'lt hlt)

/-- Under `Outcome` the non-negative values of the grid are exactly the
foreground labels. -/
theorem outcome_outValues {bi : List (List Bool)}
    {adj : Nat × Nat → Nat × Nat → Prop} {g1 : List (List Int)}
    (hout : Outcome bi adj g1) : outValues bi g1 = labelSet bi g1 := by
  obtain ⟨_, _, k, hbnd, _, _, _⟩ := hout
  apply Set.ext
  intro t
  constructor
  · rintro ⟨ht0, p, hpG, hpv⟩
    refine ⟨p, hpG, ?_, hpv⟩
    by_cases hf : bgetP bi p = true
    · exact hf
    · have hbg : bgetP bi p = false := by
        cases hb : bgetP bi p
        · rfl
        · exact absurd hb hf
      have := ((hbnd p hpG).1).mp hbg
      rw [this] at hpv
      omega
  · rintro ⟨p, hpG, hpf, hpv⟩
    have := ((hbnd p hpG).2 hpf).1
    rw [hpv] at this
    exact ⟨this, p, hpG, hpv⟩

/-- C1: on every well-formed grid both labeling operations succeed, and two
foreground cells receive equal final labels exactly when they are connected
through foreground cells under the respective adjacency (4- or 8-neighbor),
as judged by the independent reference connectivity `conn`. -/
theorem labeling_labels_equal_iff_connected (bi : List (List Bool))
    (hwf : Wellformed bi) :
    ∃ g4 g8, four_neighborhood_based_labeling bi = some g4 ∧
      eight_neighborhood_based_labeling bi = some g8 ∧
      ∀ p q, inGrid bi p → inGrid bi q → bgetP bi p = true → bgetP bi q = true →
        (lgetP g4 p = lgetP g4 q ↔
          conn bi adj4 bi.length (bi.getD 0 []).length p q) ∧
        (lgetP g8 p = lgetP g8 q ↔
          conn bi adj8 bi.length (bi.getD 0 []).length p q) := by
  obtain ⟨g4, heq4, hout4⟩ := four_total bi hwf
  obtain ⟨g8, heq8, hout8⟩ := eight_total bi hwf
  obtain ⟨_, _, _, _, hiff4, _, _⟩ := hout4
  obtain ⟨_, _, _, _, hiff8, _, _⟩ := hout8
  exact ⟨g4, g8, heq4, heq8, fun p q hp hq hfp hfq =>
    ⟨hiff4 p q hp hq hfp hfq, hiff8 p q hp hq hfp hfq⟩⟩

/-- C1 witness. -/
theorem labeling_labels_equal_iff_connected_witness :
    Wellformed [[true, false], [false, true]] ∧
    (∃ g4 g8,
      four_neighborhood_based_labeling [[true, false], [false, true]] = some g4 ∧
      eight_neighborhood_based_labeling [[true, false], [false, true]] = some g8 ∧
      ∀ p q, inGrid [[true, false], [false, true]] p →
        inGrid [[true, false], [false, true]] q →
        bgetP [[true, false], [false, true]] p = true →
        bgetP [[true, false], [false, true]] q = true →
        (lgetP g4 p = lgetP g4 q ↔
          conn [[true, false], [false, true]] adj4
            [[true, false], [false, true]].length
            ([[true, false], [false, true]].getD 0 []).length p q) ∧
        (lgetP g8 p = lgetP g8 q ↔
          conn [[true, false], [false, true]] adj8
            [[true, false], [false, true]].length
            ([[true, false], [false, true]].getD 0 []).length p q)) :=
  ⟨by decide,
    labeling_labels_equal_iff_connected [[true, false], [false, true]] (by decide)⟩

/-- C2: on every well-formed grid the set of final labels of each output is
exactly the dense range `0`, …, `k - 1` where `k` is the number of connected
components under the respective adjacency, and the raster-first cells of two
components are ordered consistently with their labels: the component whose
first cell comes earlier receives the smaller label. -/
theorem labeling_labels_dense_and_raster_ordered (bi : List (List Bool))
    (hwf : Wellformed bi) :
    ∃ g4 g8, four_neighborhood_based_labeling bi = some g4 ∧
      eight_neighborhood_based_labeling bi = some g8 ∧
      labelSet bi g4 = Int.ofNat '' Set.Iio ((components bi adj4).ncard) ∧
      labelSet bi g8 = Int.ofNat '' Set.Iio ((components bi adj8).ncard) ∧
      (∀ p q, rasterFirst bi adj4 p → rasterFirst bi adj4 q → rasterLt p q →
        lgetP g4 p < lgetP g4 q) ∧
      (∀ p q, rasterFirst bi adj8 p → rasterFirst bi adj8 q → rasterLt p q →
        lgetP g8 p < lgetP g8 q) := by
  obtain ⟨g4, heq4, hout4⟩ := four_total bi hwf
  obtain ⟨g8, heq8, hout8⟩ := eight_total bi hwf
  obtain ⟨k4, hset4, hcomp4, hord4⟩ := outcome_count hout4
  obtain ⟨k8, hset8, hcomp8, hord8⟩ := outcome_count hout8
  refine ⟨g4, g8, heq4, heq8, ?_, ?_, hord4, hord8⟩
  · rw [hcomp4]
    exact hset4
  · rw [hcomp8]
    exact hset8

/-- C2 witness. -/
theorem labeling_labels_dense_and_raster_ordered_witness :
    Wellformed [[true, false], [false, true]] ∧
    (∃ g4 g8,
      four_neighborhood_based_labeling [[true, false], [false, true]] = some g4 ∧
      eight_neighborhood_based_labeling [[true, false], [false, true]] = some g8 ∧
      labelSet [[true, false], [false, true]] g4
        = Int.ofNat ''
          Set.Iio ((components [[true, false], [false, true]] adj4).ncard) ∧
      labelSet [[true, false], [false, true]] g8
        = Int.ofNat ''
          Set.Iio ((components [[true, false], [false, true]] adj8).ncard) ∧
      (∀ p q, rasterFirst [[true, false], [false, true]] adj4 p →
        rasterFirst [[true, false], [false, true]] adj4 q → rasterLt p q →
        lgetP g4 p < lgetP g4 q) ∧
      (∀ p q, rasterFirst [[true, false], [false, true]] adj8 p →
        rasterFirst [[true, false], [false, true]] adj8 q → rasterLt p q →
        lgetP g8 p < lgetP g8 q)) :=
  ⟨by decide,
    labeling_labels_dense_and_raster_ordered [[true, false], [false, true]]
      (by decide)⟩

/-- C3: on every well-formed grid both outputs have the input's dimensions, a
cell is `-1` exactly when the input cell is background, and every foreground
cell holds a label in `0`, …, `k - 1` with `k` the respective component
count. -/
theorem labeling_output_dims_background_range (bi : List (List Bool))
    (hwf : Wellformed bi) :
    ∃ g4 g8, four_neighborhood_based_labeling bi = some g4 ∧
      eight_neighborhood_based_labeling bi = some g8 ∧
      g4.length = bi.length ∧ g8.length = bi.length ∧
      (∀ r ∈ g4, r.length = (bi.getD 0 []).length) ∧
      (∀ r ∈ g8, r.length = (bi.getD 0 []).length) ∧
      ∀ p, inGrid bi p →
        (bgetP bi p = false ↔ lgetP g4 p = -1) ∧
        (bgetP bi p = false ↔ lgetP g8 p = -1) ∧
        (bgetP bi p = true →
          0 ≤ lgetP g4 p ∧
          lgetP g4 p < Int.ofNat ((components bi adj4).ncard) ∧
          0 ≤ lgetP g8 p ∧
          lgetP g8 p < Int.ofNat ((components bi adj8).ncard)) := by
  obtain ⟨g4, heq4, hout4⟩ := four_total bi hwf
  obtain ⟨g8, heq8, hout8⟩ := eight_total bi hwf
  obtain ⟨k4, hset4, hcomp4, _⟩ := outcome_count hout4
  obtain ⟨k8, hset8, hcomp8, _⟩ := outcome_count hout8
  obtain ⟨hlen4, hrows4, _, hbnd4, _, _, _⟩ := hout4
  obtain ⟨hlen8, hrows8, _, hbnd8, _, _, _⟩ := hout8
  have hbound : ∀ (g : List (List Int)) (k : Nat),
      labelSet bi g = Int.ofNat '' Set.Iio k →
      ∀ p, inGrid bi p → bgetP bi p = true →
        0 ≤ lgetP g p ∧ lgetP g p < Int.ofNat k := by
    intro g k hset p hp hf
    have hmem : lgetP g p ∈ labelSet bi g := ⟨p, hp, hf, rfl⟩
    rw [hset] at hmem
    obtain ⟨n, hn, hnv⟩ := hmem
    have hn2 : n < k := hn
    have h1 : Int.ofNat n = (n : Int) := rfl
    have h2 : Int.ofNat k = (k : Int) := rfl
    constructor
    · rw [← hnv]
      exact Int.ofNat_nonneg n
    · rw [← hnv]
      omega
  refine ⟨g4, g8, heq4, heq8, hlen4, hlen8, hrows4, hrows8, ?_⟩
  intro p hp
  refine ⟨(hbnd4 p hp).1, (hbnd8 p hp).1, ?_⟩
  intro hf
  obtain ⟨ha4, hb4⟩ := hbound g4 k4 hset4 p hp hf
  obtain ⟨ha8, hb8⟩ := hbound g8 k8 hset8 p hp hf
  rw [hcomp4, hcomp8]
  exact ⟨ha4, hb4, ha8, hb8⟩

/-- C3 witness. -/
theorem labeling_output_dims_background_range_witness :
    Wellformed [[true, false], [false, true]] ∧
    (∃ g4 g8,
      four_neighborhood_based_labeling [[true, false], [false, true]] = some g4 ∧
      eight_neighborhood_based_labeling [[true, false], [false, true]] = some g8 ∧
      g4.length = [[true, false], [false, true]].length ∧
      g8.length = [[true, false], [false, true]].length ∧
      (∀ r ∈ g4, r.length = ([[true, false], [false, true]].getD 0 []).length) ∧
      (∀ r ∈ g8, r.length = ([[true, false], [false, true]].getD 0 []).length) ∧
      ∀ p, inGrid [[true, false], [false, true]] p →
        (bgetP [[true, false], [false, true]] p = false ↔ lgetP g4 p = -1) ∧
        (bgetP [[true, false], [false, true]] p = false ↔ lgetP g8 p = -1) ∧
        (bgetP [[true, false], [false, true]] p = true →
          0 ≤ lgetP g4 p ∧
          lgetP g4 p
            < Int.ofNat ((components [[true, false], [false, true]] adj4).ncard) ∧
          0 ≤ lgetP g8 p ∧
          lgetP g8 p
            < Int.ofNat ((components [[true, false], [false, true]] adj8).ncard))) :=
  ⟨by decide,
    labeling_output_dims_background_range [[true, false], [false, true]]
      (by decide)⟩

/-- C4: on every well-formed grid the number of distinct non-negative labels
in the eight-neighborhood output is at most the number in the
four-neighborhood output. -/
theorem eight_label_count_le_four_label_count (bi : List (List Bool))
    (hwf : Wellformed bi) :
    ∃ g4 g8, four_neighborhood_based_labeling bi = some g4 ∧
      eight_neighborhood_based_labeling bi = some g8 ∧
      (outValues bi g8).ncard ≤ (outValues bi g4).ncard := by
  obtain ⟨g4, heq4, hout4⟩ := four_total bi hwf
  obtain ⟨g8, heq8, hout8⟩ := eight_total bi hwf
  obtain ⟨k4, hset4, _, _⟩ := outcome_count hout4
  have hov4 := outcome_outValues hout4
  have hov8 := outcome_outValues hout8
  obtain ⟨_, _, _, _, hiff4, _, _⟩ := hout4
  obtain ⟨_, _, _, _, hiff8, _, _⟩ := hout8
  refine ⟨g4, g8, heq4, heq8, ?_⟩
  rw [hov8, hov4]
  have hfin4 : (labelSet bi g4).Finite := by
    rw [hset4]
    exact (Set.finite_Iio k4).image _
  classical
  have hsub : labelSet bi g8 ⊆
      (fun t => lgetP g8 (if h : ∃ q, inGrid bi q ∧ bgetP bi q = true ∧
        lgetP g4 q = t then h.choose else (0, 0))) '' labelSet bi g4 := by
    rintro t8 ⟨p, hpG, hpf, hpv⟩
    refine ⟨lgetP g4 p, ⟨p, hpG, hpf, rfl⟩, ?_⟩
    beta_reduce
    have hex : ∃ q, inGrid bi q ∧ bgetP bi q = true ∧ lgetP g4 q = lgetP g4 p :=
      ⟨p, hpG, hpf, rfl⟩
    rw [dif_pos hex]
    obtain ⟨hqG, hqf, hqv⟩ := hex.choose_spec
    have hc4 : conn bi adj4 bi.length (bi.getD 0 []).length hex.choose p :=
      (hiff4 hex.choose p hqG hpG hqf hpf).mp hqv
    have hc8 : conn bi adj8 bi.length (bi.getD 0 []).length hex.choose p :=
      connIn_mono_adj (fun _ _ ha => adj4_le_adj8 ha) hc4
    rw [(hiff8 hex.choose p hqG hpG hqf hpf).mpr hc8]
    exact hpv
  exact Nat.le_trans (Set.ncard_le_ncard hsub (hfin4.image _))
    (Set.ncard_image_le hfin4)

/-- C4 witness. -/
theorem eight_label_count_le_four_label_count_witness :
    Wellformed [[true, false], [false, true]] ∧
    (∃ g4 g8,
      four_neighborhood_based_labeling [[true, false], [false, true]] = some g4 ∧
      eight_neighborhood_based_labeling [[true, false], [false, true]] = some g8 ∧
      (outValues [[true, false], [false, true]] g8).ncard
        ≤ (outValues [[true, false], [false, true]] g4).ncard) :=
  ⟨by decide,
    eight_label_count_le_four_label_count [[true, false], [false, true]]
      (by decide)⟩

/-- C8: on every well-formed grid both labeling operations run to completion
and return a grid; since every union-find access in the embedding returns
`none` on an out-of-range id, success shows that every id handed to `leader`
and `merge` — and every index used by the canonicalizer — is in range. -/
theorem labeling_ids_in_range (bi : List (List Bool)) (hwf : Wellformed bi) :
    (four_neighborhood_based_labeling bi).isSome = true ∧
    (eight_neighborhood_based_labeling bi).isSome = true := by
  obtain ⟨g4, heq4, _⟩ := four_total bi hwf
  obtain ⟨g8, heq8, _⟩ := eight_total bi hwf
  rw [heq4, heq8]
  exact ⟨rfl, rfl⟩

/-- C8 witness. -/
theorem labeling_ids_in_range_witness :
    Wellformed [[true, false], [false, true]] ∧
    ((four_neighborhood_based_labeling [[true, false], [false, true]]).isSome
        = true ∧
      (eight_neighborhood_based_labeling [[true, false], [false, true]]).isSome
        = true) :=
  ⟨by decide, labeling_ids_in_range [[true, false], [false, true]] (by decide)⟩

end Labeling
